import Mathlib

/-! DarkiT/waiter: the virtual network stack integration layer

A shallow embedding of `nic/gvisor/network.go` (the DNS stub resolver, the
dial engine and the address translation), of the start-up loop of
`nic/gvisor/forward.go`, of the write path of `nic/gvisor/ping.go`, of the
cache of `lru.go` and of the packet buffer of `packet.go`, followed by the
properties established about them.

Conventions of the embedding

* A Go `string` is the list of its bytes, a byte being a natural number below
  256 (`GoString`).  String literals of the source are written with their
  byte values: `'.'` is 46, `'-'` is 45, `'_'` is 95, `'%'` is 37, `':'` is 58.
* A Go function returning `(T, error)` returns a pair whose second component
  is `Option Err`; `none` is the `nil` error.  A run-time panic is an outer
  `Option` whose `none` is the panic.
* `time.Time` is an instant on one time line, counted in nanoseconds from the
  zero time (January 1, year 1, 00:00:00 UTC); `time.Duration` is an `int64`
  count of nanoseconds.  `Time.Sub` saturates at the `int64` bounds as the
  standard library documents; `Time.Add` is exact (the library saturates
  only at the ends of its 2^63-second range, which is not modelled).
-/

namespace Waiter

/-! ## Errors -/

/-- The package-level error values of `network.go` (lines 23-37). -/
inductive Err where
  | errNoSuchHost
  | errLameReferral
  | errCannotUnmarshalDNSMessage
  | errCannotMarshalDNSMessage
  | errServerMisbehaving
  | errInvalidDNSResponse
  | errNoAnswerFromDNSServer
  | errServerTemporarilyMisbehaving
  | errCanceled
  | errTimeout
  | errNumericPort
  | errNoSuitableAddress
  | errMissingAddress
  deriving DecidableEq, Repr

/-- The text of each error value, `err.Error()`. -/
def Err.Error : Err → String
  | .errNoSuchHost => "no such host"
  | .errLameReferral => "lame referral"
  | .errCannotUnmarshalDNSMessage => "cannot unmarshal DNS message"
  | .errCannotMarshalDNSMessage => "cannot marshal DNS message"
  | .errServerMisbehaving => "server misbehaving"
  | .errInvalidDNSResponse => "invalid DNS response"
  | .errNoAnswerFromDNSServer => "no answer from DNS server"
  | .errServerTemporarilyMisbehaving => "server misbehaving"
  | .errCanceled => "operation was canceled"
  | .errTimeout => "i/o timeout"
  | .errNumericPort => "port must be numeric"
  | .errNoSuitableAddress => "no suitable address found"
  | .errMissingAddress => "missing address"

/-! ## Time -/

/-- The smallest `time.Duration`, `-1 << 63` nanoseconds. -/
def minDuration : Int := -9223372036854775808

/-- The largest `time.Duration`, `1<<63 - 1` nanoseconds. -/
def maxDuration : Int := 9223372036854775807

/-- One second, `time.Second`, in nanoseconds. -/
def Second : Int := 1000000000

/-- An instant: nanoseconds elapsed since the zero time. -/
structure Time where
  ns : Int
  deriving DecidableEq, Repr

/-- The zero value `time.Time{}`. -/
def Time.zero : Time := ⟨0⟩

/-- `t.IsZero()`: whether `t` is the zero time instant. -/
def Time.IsZero (t : Time) : Bool := decide (t.ns = 0)

/-- `t.Sub(u)`: the duration `t-u`, saturated to the `int64` range. -/
def Time.Sub (t u : Time) : Int :=
  let d := t.ns - u.ns
  if d < minDuration then minDuration
  else if maxDuration < d then maxDuration
  else d

/-- `t.Add(d)`: the instant `t+d`. -/
def Time.Add (t : Time) (d : Int) : Time := ⟨t.ns + d⟩

/-- `t.Before(u)`. -/
def Time.Before (t u : Time) : Bool := decide (t.ns < u.ns)

/-- `t.After(u)`. -/
def Time.After (t u : Time) : Bool := decide (u.ns < t.ns)

/-- The constant `saneMinimum = 2 * time.Second` of `partialDeadline`. -/
def saneMinimum : Int := 2 * Second

/-- `partialDeadline` (network.go:672-690).  `addrsRemaining` is the Go `int`
converted to a `time.Duration`; the quotient is Go's truncated integer
division, and dividing by zero is the run-time panic (`none`).  No operation
can leave the `int64` range here: the dividend is positive when the division
is reached. -/
def partialDeadline (now deadline : Time) (addrsRemaining : Int) :
    Option (Time × Option Err) :=
  if deadline.IsZero then
    some (deadline, none)
  else
    let timeRemaining := deadline.Sub now
    if timeRemaining ≤ 0 then
      some (Time.zero, some Err.errTimeout)
    else if addrsRemaining = 0 then
      none
    else
      let timeout := Int.tdiv timeRemaining addrsRemaining
      let timeout :=
        if timeout < saneMinimum then
          if timeRemaining < saneMinimum then timeRemaining else saneMinimum
        else timeout
      some (now.Add timeout, none)

/-! ## Host name validation -/

/-- A Go string: the list of its bytes. -/
abbrev GoString := List Nat

/-- The `for` loop of `isDomainName` (network.go:487-517) over the bytes still
to be read, carrying the locals `last`, `nonNumeric` and `partlen`; the empty
list is the code after the loop. -/
def isDomainNameLoop : GoString → Nat → Bool → Nat → Bool
  | [], last, nonNumeric, partlen =>
    if last = 45 ∨ partlen > 63 then false else nonNumeric
  | c :: rest, last, nonNumeric, partlen =>
    if (97 ≤ c ∧ c ≤ 122) ∨ (65 ≤ c ∧ c ≤ 90) ∨ c = 95 then
      isDomainNameLoop rest c true (partlen + 1)
    else if 48 ≤ c ∧ c ≤ 57 then
      isDomainNameLoop rest c nonNumeric (partlen + 1)
    else if c = 45 then
      if last = 46 then false
      else isDomainNameLoop rest c true (partlen + 1)
    else if c = 46 then
      if last = 46 ∨ last = 45 then false
      else if partlen > 63 ∨ partlen = 0 then false
      else isDomainNameLoop rest c nonNumeric 0
    else false

/-- `isDomainName` (network.go:479-518). -/
def isDomainName (s : GoString) : Bool :=
  let l := s.length
  if l = 0 ∨ l > 254 ∨ (l = 254 ∧ s.getD (l - 1) 0 ≠ 46) then false
  else isDomainNameLoop s 46 false 0

/-! ## DNS response matching -/

/-- `dnsmessage.Name`: a 255-byte array of which the first `Length` bytes are
the name. -/
structure Name where
  Data : List Nat
  Length : Nat
  deriving DecidableEq, Repr

/-- `dnsmessage.Question`; the field `Typ` is the source's `Type`. -/
structure Question where
  Name : Name
  Typ : Nat
  Class : Nat
  deriving DecidableEq, Repr

/-- `dnsmessage.Header`, with the fields the resolver reads. -/
structure Header where
  ID : Nat
  Response : Bool
  Authoritative : Bool
  Truncated : Bool
  RecursionAvailable : Bool
  RCode : Nat
  deriving DecidableEq, Repr

/-- `dnsmessage.TypeA`. -/
def TypeA : Nat := 1

/-- `dnsmessage.TypeAAAA`. -/
def TypeAAAA : Nat := 28

/-- `dnsmessage.ClassINET`. -/
def ClassINET : Nat := 1

/-- `dnsmessage.RCodeSuccess`. -/
def RCodeSuccess : Nat := 0

/-- `dnsmessage.RCodeServerFailure`. -/
def RCodeServerFailure : Nat := 2

/-- `dnsmessage.RCodeNameError`. -/
def RCodeNameError : Nat := 3

/-- The case folding of one byte in `equalASCIIName` (network.go:554-559):
`if 'A' <= a && a <= 'Z' { a += 0x20 }`, in byte arithmetic. -/
def foldASCII (a : Nat) : Nat :=
  if 65 ≤ a ∧ a ≤ 90 then (a + 32) % 256 else a

/-- The loop of `equalASCIIName` (network.go:551-563): `k` iterations are
left, the next index is `i`. -/
def equalASCIINameFrom (x y : Name) : Nat → Nat → Bool
  | _, 0 => true
  | i, k + 1 =>
    if foldASCII (x.Data.getD i 0) ≠ foldASCII (y.Data.getD i 0) then false
    else equalASCIINameFrom x y (i + 1) k

/-- `equalASCIIName` (network.go:547-565). -/
def equalASCIIName (x y : Name) : Bool :=
  if x.Length ≠ y.Length then false
  else equalASCIINameFrom x y 0 x.Length

/-- `checkResponse` (network.go:567-578). -/
def checkResponse (reqID : Nat) (reqQues : Question) (respHdr : Header)
    (respQues : Question) : Bool :=
  if !respHdr.Response then false
  else if reqID ≠ respHdr.ID then false
  else if reqQues.Typ ≠ respQues.Typ ∨ reqQues.Class ≠ respQues.Class
      ∨ !equalASCIIName reqQues.Name respQues.Name then false
  else true

/-! ## Addresses and the DNS message parser

The packages `net/netip` and `golang.org/x/net/dns/dnsmessage` are libraries
outside the repository.  Their values are modelled by what the resolver
observes of them. -/

/-- A `netip.Addr`: the zero value, an IPv4 address (`netip.AddrFrom4`) or an
IPv6 address with its zone (`netip.AddrFrom16`). -/
inductive Addr where
  | zero
  | v4 (a : List Nat)
  | v6 (a : List Nat) (zone : GoString)
  deriving DecidableEq, Repr

/-- `ip.Is4()`. -/
def Addr.Is4 : Addr → Bool
  | .v4 _ => true
  | _ => false

/-- `ip.Is6()`. -/
def Addr.Is6 : Addr → Bool
  | .v6 _ _ => true
  | _ => false

/-- `netip.AddrFrom4`. -/
def AddrFrom4 (a : List Nat) : Addr := Addr.v4 a

/-- `netip.AddrFrom16`. -/
def AddrFrom16 (a : List Nat) : Addr := Addr.v6 a []

/-- The two functions of `net/netip` that read and write text, taken as
parameters: `netip.ParseAddr` (`none` is a parse error) and `Addr.String`. -/
structure NetIP where
  ParseAddr : GoString → Option Addr
  String : Addr → GoString

/-- One resource record of an answer section, as the parser meets it: the
type in its header, the address `AResource`/`AAAAResource` unpacks from its
body (`none` when unpacking fails) and whether `SkipAnswer` succeeds on it. -/
structure Resource where
  typ : Nat
  body : Option (List Nat)
  skip : Bool
  deriving DecidableEq, Repr

/-- A `dnsmessage.Parser` positioned in the answer section: the records not
yet consumed whose header unpacks, and whether what follows them is a header
that fails to unpack (`true`) or the end of the section (`false`). -/
structure Parser where
  answers : List Resource
  malformed : Bool
  deriving DecidableEq, Repr

/-- The zero value `dnsmessage.Parser{}`: every call on it fails
(`ErrNotStarted`). -/
def Parser.zero : Parser := ⟨[], true⟩

/-- The three outcomes of `p.AnswerHeader()` the resolver tells apart. -/
inductive HeaderResult where
  | ok (typ : Nat)
  | sectionDone
  | failed
  deriving DecidableEq, Repr

/-- `p.AnswerHeader()`: the header of the next record.  It does not consume
the record, so calling it again gives the same header. -/
def Parser.AnswerHeader (p : Parser) : HeaderResult :=
  match p.answers with
  | [] => if p.malformed then .failed else .sectionDone
  | r :: _ => .ok r.typ

/-- `p.AResource()` and `p.AAAAResource()`, called after `AnswerHeader` gave
the matching type: the unpacked address and the parser past the record. -/
def Parser.AddrResource (p : Parser) : Option (List Nat × Parser) :=
  match p.answers with
  | [] => none
  | r :: rest =>
    match r.body with
    | none => none
    | some a => some (a, { p with answers := rest })

/-- `p.SkipAnswer()`: the parser past the next record, `none` on error. -/
def Parser.SkipAnswer (p : Parser) : Option Parser :=
  match p.answers with
  | [] => none
  | r :: rest => if r.skip then some { p with answers := rest } else none

/-! ## The per-family lookup -/

/-- An error value returned by `exchange`, by what `tryOneName` reads of it:
its text, whether it is a `net.Error` reporting a timeout, and whether it is
a `*net.OpError`. -/
structure NetErr where
  text : String
  timeout : Bool
  opError : Bool
  deriving DecidableEq, Repr

/-- `net.DNSError`. -/
structure DNSError where
  Err : String
  Name : GoString
  Server : GoString
  IsTimeout : Bool
  IsTemporary : Bool
  IsNotFound : Bool
  deriving DecidableEq, Repr

/-- The errors the resolver returns: a package-level error value or a
`*net.DNSError`. -/
inductive LookupErr where
  | plain (e : Err)
  | dns (d : DNSError)
  deriving DecidableEq, Repr

/-- The `_Gvisor` fields the resolver reads. -/
structure Gvisor where
  hasV4 : Bool
  hasV6 : Bool
  dnsServers : List Addr

/-- What lies outside the resolver: the `net/netip` text functions, the
outcome of the `n`-th call of `exchange` made by a lookup for a question at
a server (the network), and which of two lookups running concurrently sends
its result on the channel first. -/
structure World where
  netip : NetIP
  exchange : Nat → Addr → Question → Except NetErr (Parser × Header)
  aaaaFirst : Bool

/-- `dnsmessage.NewName`: the name in a 255-byte array, an error when it is
longer. -/
def NewName (name : GoString) : Option Name :=
  if name.length > 255 then none
  else some ⟨name ++ List.replicate (255 - name.length) 0, name.length % 256⟩

/-- `checkHeader` (network.go:634-652). -/
def checkHeader (p : Parser) (h : Header) : Option Err :=
  if h.RCode = RCodeNameError then some .errNoSuchHost
  else
    let r := p.AnswerHeader
    if r = .failed then some .errCannotUnmarshalDNSMessage
    else if h.RCode = RCodeSuccess ∧ !h.Authoritative ∧ !h.RecursionAvailable
        ∧ r = .sectionDone then some .errLameReferral
    else if h.RCode ≠ RCodeSuccess ∧ h.RCode ≠ RCodeNameError then
      if h.RCode = RCodeServerFailure then some .errServerTemporarilyMisbehaving
      else some .errServerMisbehaving
    else none

/-- The loop of `skipToAnswer` (network.go:654-670) over the records left. -/
def skipToAnswerLoop (malformed : Bool) (qtype : Nat) :
    List Resource → Parser × Option Err
  | [] =>
    if malformed then (⟨[], malformed⟩, some .errCannotUnmarshalDNSMessage)
    else (⟨[], malformed⟩, some .errNoSuchHost)
  | r :: rest =>
    if r.typ = qtype then (⟨r :: rest, malformed⟩, none)
    else if r.skip then skipToAnswerLoop malformed qtype rest
    else (⟨r :: rest, malformed⟩, some .errCannotUnmarshalDNSMessage)

/-- `skipToAnswer` (network.go:654-670): the parser as the call leaves it and
the error. -/
def skipToAnswer (p : Parser) (qtype : Nat) : Parser × Option Err :=
  skipToAnswerLoop p.malformed qtype p.answers

/-- What `tryOneName` returns: the parser, the text of the server that
answered and the error. -/
structure LaneResult where
  p : Parser
  server : GoString
  error : Option LookupErr
  deriving DecidableEq, Repr

/-- The state the server loops of `tryOneName` carry: the number of
`exchange` calls made so far, `lastErr`, and the calls made, in order. -/
structure TryState where
  calls : Nat
  lastErr : Option LookupErr
  asked : List (Addr × Question)

/-- The `*net.DNSError` values `tryOneName` builds: text, name and server
set, the three flags false. -/
def mkDNSError (text : String) (name server : GoString) : DNSError :=
  ⟨text, name, server, false, false, false⟩

/-- The inner loop of `tryOneName` (network.go:129-177) over the servers
still to be asked: `Sum.inl` is a `return` out of the function, `Sum.inr` the
state when the loop runs to its end. -/
def tryServers (w : World) (name : GoString) (q : Question) (qtype : Nat) :
    List Addr → TryState → (LaneResult × List (Addr × Question)) ⊕ TryState
  | [], st => Sum.inr st
  | server :: rest, st =>
    let asked := st.asked ++ [(server, q)]
    match w.exchange st.calls server q with
    | .error err =>
      let dnsErr : DNSError :=
        { mkDNSError err.text name (w.netip.String server) with
          IsTimeout := err.timeout, IsTemporary := err.opError }
      tryServers w name q qtype rest ⟨st.calls + 1, some (.dns dnsErr), asked⟩
    | .ok (p, h) =>
      match checkHeader p h with
      | some err =>
        let dnsErr : DNSError :=
          { mkDNSError err.Error name (w.netip.String server) with
            IsTemporary := decide (err = .errServerTemporarilyMisbehaving) }
        if err = .errNoSuchHost then
          Sum.inl (⟨p, w.netip.String server,
            some (.dns { dnsErr with IsNotFound := true })⟩, asked)
        else
          tryServers w name q qtype rest ⟨st.calls + 1, some (.dns dnsErr), asked⟩
      | none =>
        match skipToAnswer p qtype with
        | (p1, none) => Sum.inl (⟨p1, w.netip.String server, none⟩, asked)
        | (p1, some err) =>
          let dnsErr := mkDNSError err.Error name (w.netip.String server)
          if err = .errNoSuchHost then
            Sum.inl (⟨p1, w.netip.String server,
              some (.dns { dnsErr with IsNotFound := true })⟩, asked)
          else
            tryServers w name q qtype rest ⟨st.calls + 1, some (.dns dnsErr), asked⟩

/-- The outer loop of `tryOneName` (network.go:128-179), `passes` passes over
the server list being left, and the final `return` after it. -/
def tryPasses (w : World) (tnet : Gvisor) (name : GoString) (q : Question)
    (qtype : Nat) : Nat → TryState → LaneResult × List (Addr × Question)
  | 0, st => (⟨Parser.zero, [], st.lastErr⟩, st.asked)
  | passes + 1, st =>
    match tryServers w name q qtype tnet.dnsServers st with
    | Sum.inl r => r
    | Sum.inr st1 => tryPasses w tnet name q qtype passes st1

/-- `tryOneName` (network.go:115-180), with the `exchange` calls it made. -/
def tryOneName (w : World) (tnet : Gvisor) (name : GoString) (qtype : Nat) :
    LaneResult × List (Addr × Question) :=
  match NewName name with
  | none => (⟨Parser.zero, [], some (.plain .errCannotMarshalDNSMessage)⟩, [])
  | some n =>
    tryPasses w tnet name ⟨n, qtype, ClassINET⟩ qtype 2 ⟨0, none, []⟩

/-! ## The dual-stack lookup -/

/-- `strings.LastIndexByte`; `none` is the result -1. -/
def lastIndexByte : GoString → Nat → Option Nat
  | [], _ => none
  | d :: rest, c =>
    match lastIndexByte rest c with
    | some i => some (i + 1)
    | none => if d = c then some 0 else none

/-- The locals `addrsV4`, `addrsV6` and `lastErr` of `LookupContextHost`. -/
structure Collected where
  addrsV4 : List Addr
  addrsV6 : List Addr
  lastErr : Option LookupErr
  deriving DecidableEq, Repr

/-- The error `LookupContextHost` records when a record fails to parse. -/
def marshalError (host server : GoString) : LookupErr :=
  .dns (mkDNSError Err.errCannotMarshalDNSMessage.Error host server)

/-- The labelled loop of `LookupContextHost` (network.go:235-284) over the
records left in the parser.  The empty list is `AnswerHeader` failing or
reporting the end of the section; on a record, the branch is chosen by the
type in its header, and the body is read with `AResource`, `AAAAResource` or
`SkipAnswer`. -/
def collectAnswers (host server : GoString) (malformed : Bool) :
    List Resource → Collected → Collected
  | [], acc =>
    if malformed then { acc with lastErr := some (marshalError host server) }
    else acc
  | r :: rest, acc =>
    if r.typ = TypeA then
      match r.body with
      | none => { acc with lastErr := some (marshalError host server) }
      | some a =>
        collectAnswers host server malformed rest
          { acc with addrsV4 := acc.addrsV4 ++ [AddrFrom4 a] }
    else if r.typ = TypeAAAA then
      match r.body with
      | none => { acc with lastErr := some (marshalError host server) }
      | some a =>
        collectAnswers host server malformed rest
          { acc with addrsV6 := acc.addrsV6 ++ [AddrFrom16 a] }
    else if r.skip then collectAnswers host server malformed rest acc
    else { acc with lastErr := some (marshalError host server) }

/-- One turn of the receiving loop of `LookupContextHost`
(network.go:226-285) on the result taken from the channel. -/
def receive (host : GoString) (acc : Collected) (result : LaneResult) :
    Collected :=
  match result.error with
  | some e => if acc.lastErr = none then { acc with lastErr := some e } else acc
  | none => collectAnswers host result.server result.p.malformed result.p.answers acc

/-- What `LookupContextHost` returns, with the `exchange` calls made on its
behalf.  The `nil` slice is the empty list. -/
structure LookupOutcome where
  addrs : List GoString
  err : Option LookupErr
  asked : List (Addr × Question)

/-- The not-found error of `LookupContextHost` (network.go:184, 197). -/
def notFoundError (host : GoString) : LookupErr :=
  .dns ⟨Err.errNoSuchHost.Error, host, [], false, false, true⟩

/-- The length `zlen` of the host without its zone (network.go:186-191). -/
def zoneLen (host : GoString) : Nat :=
  if 58 ∈ host then
    match lastIndexByte host 37 with
    | some zidx => zidx
    | none => host.length
  else host.length

/-- `LookupContextHost` (network.go:182-302).  The one or two lookups run
concurrently in the source; here each is run to its end and the results are
received in the order the world fixes. -/
def LookupContextHost (w : World) (tnet : Gvisor) (host : GoString) :
    LookupOutcome :=
  if host = [] ∨ (!tnet.hasV6 && !tnet.hasV4) then
    ⟨[], some (notFoundError host), []⟩
  else
    match w.netip.ParseAddr (host.take (zoneLen host)) with
    | some ip => ⟨[w.netip.String ip], none, []⟩
    | none =>
      if !isDomainName host then ⟨[], some (notFoundError host), []⟩
      else
        let laneV4 := if tnet.hasV4 then [tryOneName w tnet (host ++ [46]) TypeA] else []
        let laneV6 := if tnet.hasV6 then [tryOneName w tnet (host ++ [46]) TypeAAAA] else []
        let lanes := laneV4 ++ laneV6
        let received := if w.aaaaFirst then lanes.reverse else lanes
        let asked := (lanes.map Prod.snd).flatten
        let acc := (received.map Prod.fst).foldl (receive host) ⟨[], [], none⟩
        let addrs :=
          if tnet.hasV6 then acc.addrsV6 ++ acc.addrsV4
          else acc.addrsV4 ++ acc.addrsV6
        if addrs.length = 0 ∧ acc.lastErr ≠ none then ⟨[], acc.lastErr, asked⟩
        else ⟨addrs.map w.netip.String, none, asked⟩

/-! ## Vocabulary of the properties

The definitions below do not come from the source: they say what a label, a
valid host name and the state of the validation loop are, so that the
properties can be stated and proved. -/

/-- An ASCII letter. -/
def isLetter (c : Nat) : Bool :=
  (decide (97 ≤ c) && decide (c ≤ 122)) || (decide (65 ≤ c) && decide (c ≤ 90))

/-- An ASCII digit. -/
def isDigit (c : Nat) : Bool := decide (48 ≤ c) && decide (c ≤ 57)

/-- A letter, a digit or the hyphen. -/
def isLDH (c : Nat) : Bool := isLetter c || isDigit c || decide (c = 45)

/-- The labels of a name: the pieces between its dots, as
`strings.Split(s, ".")` gives them. -/
def splitDots : GoString → List GoString
  | [] => [[]]
  | c :: rest =>
    if c = 46 then [] :: splitDots rest
    else
      match splitDots rest with
      | [] => [[c]]
      | l :: ls => (c :: l) :: ls

/-- The labels put together again with one dot between neighbours. -/
def joinDots : List GoString → GoString
  | [] => []
  | [l] => l
  | l :: l1 :: ls => l ++ 46 :: joinDots (l1 :: ls)

/-- A label of a syntactically valid host name: 1 to 63 bytes, letters,
digits and hyphens only, no hyphen at either end. -/
def validLabel (l : GoString) : Bool :=
  decide (1 ≤ l.length) && decide (l.length ≤ 63) && l.all isLDH
    && decide (l.head? ≠ some 45) && decide (l.getLast? ≠ some 45)

/-- A syntactically valid host name with a label that is not numeric: every
label is valid and some label holds a byte that is not a digit. -/
def validHostname (s : GoString) : Bool :=
  (splitDots s).all validLabel
    && (splitDots s).any (fun l => l.any (fun c => !isDigit c))

/-- The locals of the validation loop: `last`, `nonNumeric`, `partlen`. -/
structure Scan where
  last : Nat
  nonNumeric : Bool
  partlen : Nat
  deriving DecidableEq, Repr

/-- The state in which `isDomainName` enters its loop. -/
def Scan.init : Scan := ⟨46, false, 0⟩

/-- One turn of the validation loop on the byte `c`; `none` is
`return false`. -/
def scanStep (c : Nat) (st : Scan) : Option Scan :=
  if (97 ≤ c ∧ c ≤ 122) ∨ (65 ≤ c ∧ c ≤ 90) ∨ c = 95 then
    some ⟨c, true, st.partlen + 1⟩
  else if 48 ≤ c ∧ c ≤ 57 then some ⟨c, st.nonNumeric, st.partlen + 1⟩
  else if c = 45 then
    if st.last = 46 then none else some ⟨c, true, st.partlen + 1⟩
  else if c = 46 then
    if st.last = 46 ∨ st.last = 45 then none
    else if st.partlen > 63 ∨ st.partlen = 0 then none
    else some ⟨c, st.nonNumeric, 0⟩
  else none

/-- The validation loop run over a string. -/
def scan : GoString → Scan → Option Scan
  | [], st => some st
  | c :: rest, st =>
    match scanStep c st with
    | none => none
    | some st1 => scan rest st1

/-- The test after the validation loop. -/
def scanFinish (st : Scan) : Bool :=
  if st.last = 45 ∨ st.partlen > 63 then false else st.nonNumeric

/-- A name of 254 bytes, four labels of the letter `a` of 63, 63, 63 and 62
bytes, without a trailing dot. -/
def name254 : GoString :=
  List.replicate 63 97 ++ 46 :: (List.replicate 63 97 ++ 46 ::
    (List.replicate 63 97 ++ 46 :: List.replicate 62 97))

/-- A name of 253 bytes, four labels of the letter `a` of 63, 63, 63 and 61
bytes, without a trailing dot. -/
def name253 : GoString :=
  List.replicate 63 97 ++ 46 :: (List.replicate 63 97 ++ 46 ::
    (List.replicate 63 97 ++ 46 :: List.replicate 61 97))

/-- A fragment of `net/netip`, enough to run examples: it reads and writes
the literals `1.2.3.4` and `::1` and nothing else. -/
def sampleNetIP : NetIP where
  ParseAddr := fun s =>
    if s = [49, 46, 50, 46, 51, 46, 52] then some (Addr.v4 [1, 2, 3, 4])
    else if s = [58, 58, 49] then
      some (Addr.v6 [0, 0, 0, 0, 0, 0, 0, 0, 0, 0, 0, 0, 0, 0, 0, 1] [])
    else none
  String := fun a =>
    if a = Addr.v4 [1, 2, 3, 4] then [49, 46, 50, 46, 51, 46, 52]
    else if a = Addr.v6 [0, 0, 0, 0, 0, 0, 0, 0, 0, 0, 0, 0, 0, 0, 0, 1] [] then
      [58, 58, 49]
    else []

/-- A response header: the response bit set, success, recursion available. -/
def sampleHeader : Header := ⟨0, true, false, false, true, 0⟩

/-- A world whose servers answer every question with an A record for
1.2.3.4 followed by an AAAA record for ::1. -/
def mixedWorld : World where
  netip := sampleNetIP
  exchange := fun _ _ _ =>
    .ok (⟨[⟨TypeA, some [1, 2, 3, 4], true⟩,
           ⟨TypeAAAA, some [0, 0, 0, 0, 0, 0, 0, 0, 0, 0, 0, 0, 0, 0, 0, 1], true⟩],
          false⟩, sampleHeader)
  aaaaFirst := false

/-- A world whose servers answer every question with one A record for
1.2.3.4. -/
def plainWorld : World where
  netip := sampleNetIP
  exchange := fun _ _ _ =>
    .ok (⟨[⟨TypeA, some [1, 2, 3, 4], true⟩], false⟩, sampleHeader)
  aaaaFirst := false

/-- The world `mixedWorld` with the AAAA lookup reporting first. -/
def mixedWorldV6First : World := { mixedWorld with aaaaFirst := true }

/-- The host name `a.b`. -/
def hostAB : GoString := [97, 46, 98]

/-- The question `tryOneName` asks for a name of at most 255 bytes: the name
as `dnsmessage.NewName` stores it, the type, the class `ClassINET`. -/
def questionOf (name : GoString) (qtype : Nat) : Question :=
  ⟨⟨name ++ List.replicate (255 - name.length) 0, name.length % 256⟩, qtype, ClassINET⟩

/-- One turn of the server loop of `tryOneName` (network.go:130-176), the
`n`-th call of `exchange`, at `server`: `Sum.inl` is what the turn returns
out of the function, `Sum.inr` the error it leaves in `lastErr` before the
loop goes on. -/
def attempt (w : World) (name : GoString) (q : Question) (qtype : Nat) (n : Nat)
    (server : Addr) : LaneResult ⊕ DNSError :=
  match w.exchange n server q with
  | .error err =>
    Sum.inr { mkDNSError err.text name (w.netip.String server) with
      IsTimeout := err.timeout, IsTemporary := err.opError }
  | .ok (p, h) =>
    match checkHeader p h with
    | some err =>
      let dnsErr : DNSError :=
        { mkDNSError err.Error name (w.netip.String server) with
          IsTemporary := decide (err = .errServerTemporarilyMisbehaving) }
      if err = .errNoSuchHost then
        Sum.inl ⟨p, w.netip.String server, some (.dns { dnsErr with IsNotFound := true })⟩
      else Sum.inr dnsErr
    | none =>
      match skipToAnswer p qtype with
      | (p1, none) => Sum.inl ⟨p1, w.netip.String server, none⟩
      | (p1, some err) =>
        let dnsErr := mkDNSError err.Error name (w.netip.String server)
        if err = .errNoSuchHost then
          Sum.inl ⟨p1, w.netip.String server, some (.dns { dnsErr with IsNotFound := true })⟩
        else Sum.inr dnsErr

/-- A world whose servers never answer: every exchange times out. -/
def deadWorld : World where
  netip := sampleNetIP
  exchange := fun _ _ _ => .error ⟨"i/o timeout", true, false⟩
  aaaaFirst := false

/-- A world whose servers answer every question with success, recursion
available, and an empty answer section. -/
def emptyAnswerWorld : World where
  netip := sampleNetIP
  exchange := fun _ _ _ => .ok (⟨[], false⟩, sampleHeader)
  aaaaFirst := false

/-- A response header: success, neither authoritative nor recursion
available. -/
def lameHeader : Header := ⟨0, true, false, false, false, 0⟩

/-- A world whose servers answer every question with a lame referral. -/
def lameWorld : World where
  netip := sampleNetIP
  exchange := fun _ _ _ => .ok (⟨[], false⟩, lameHeader)
  aaaaFirst := false

/-- A response header with RCODE NXDOMAIN. -/
def nxHeader : Header := ⟨0, true, true, false, true, 3⟩

/-- A world whose first exchange times out and whose later exchanges answer
NXDOMAIN. -/
def nxWorld : World where
  netip := sampleNetIP
  exchange := fun n _ _ =>
    if n = 0 then .error ⟨"i/o timeout", true, false⟩
    else .ok (⟨[], false⟩, nxHeader)
  aaaaFirst := false

/-! ## Address translation -/

/-- `netip.AddrPort`. -/
structure AddrPort where
  addr : Addr
  port : Nat
  deriving DecidableEq, Repr

/-- `ip.AsSlice()`: the 4 or 16 bytes of the address, nil for the zero
address. -/
def Addr.AsSlice : Addr → List Nat
  | .zero => []
  | .v4 a => a
  | .v6 a _ => a

/-- `netip.AddrFromSlice`: a 4-byte slice is an IPv4 address, a 16-byte slice
an IPv6 address, any other length fails. -/
def AddrFromSlice (b : List Nat) : Option Addr :=
  if b.length = 4 then some (Addr.v4 b)
  else if b.length = 16 then some (Addr.v6 b [])
  else none

/-- `tcpip.Address`, by the bytes it holds (none, 4 or 16). -/
structure TcpipAddress where
  bytes : List Nat
  deriving DecidableEq, Repr

/-- `tcpip.AddrFromSlice`: the address of a 4-byte or 16-byte slice, the
empty address for any other length. -/
def tcpipAddrFromSlice (b : List Nat) : TcpipAddress :=
  if b.length = 4 ∨ b.length = 16 then ⟨b⟩ else ⟨[]⟩

/-- `tcpip.FullAddress`, with the fields `convertToFullAddr` sets. -/
structure FullAddress where
  NIC : Nat
  Addr : TcpipAddress
  Port : Nat
  deriving DecidableEq, Repr

/-- `ipv4.ProtocolNumber`, 0x0800. -/
def ipv4ProtocolNumber : Nat := 2048

/-- `ipv6.ProtocolNumber`, 0x86dd. -/
def ipv6ProtocolNumber : Nat := 34525

/-- `convertToFullAddr` (network.go:465-477). -/
def convertToFullAddr (endpoint : AddrPort) : FullAddress × Nat :=
  let protoNumber :=
    if endpoint.addr.Is4 then ipv4ProtocolNumber else ipv6ProtocolNumber
  (⟨1, tcpipAddrFromSlice endpoint.addr.AsSlice, endpoint.port⟩, protoNumber)

/-- A valid address without zone: four bytes of IPv4 or sixteen bytes of
IPv6. -/
def Addr.validNoZone : Addr → Bool
  | .zero => false
  | .v4 a => decide (a.length = 4)
  | .v6 a zone => decide (a.length = 16) && decide (zone = [])

/-! ## The dial engine

`strconv`, `net.SplitHostPort`, the clock, the context and the connection
calls of the stack lie outside the repository.  `strconv` is modelled by its
documented behaviour on base-10 text; the others are parameters. -/

/-- The smallest `int64`. -/
def minInt64 : Int := -9223372036854775808

/-- The largest `int64`. -/
def maxInt64 : Int := 9223372036854775807

/-- The value of a run of decimal digits after the value `acc` read so far;
`none` when a byte is not a digit. -/
def digitsValue : GoString → Nat → Option Nat
  | [], acc => some acc
  | c :: rest, acc =>
    if 48 ≤ c ∧ c ≤ 57 then digitsValue rest (acc * 10 + (c - 48)) else none

/-- The integer a base-10 text denotes: an optional sign `+` or `-` followed
by one digit at least; `none` is the syntax error of `strconv`. -/
def parseDecimal (s : GoString) : Option Int :=
  match s with
  | [] => none
  | 43 :: rest => if rest = [] then none else (digitsValue rest 0).map Int.ofNat
  | 45 :: rest => if rest = [] then none else (digitsValue rest 0).map (fun n => -Int.ofNat n)
  | c :: rest => (digitsValue (c :: rest) 0).map Int.ofNat

/-- `strconv.Atoi` with a 64-bit `int`: the value, or `none` for a syntax or
range error. -/
def Atoi (s : GoString) : Option Int :=
  match parseDecimal s with
  | none => none
  | some v => if minInt64 ≤ v ∧ v ≤ maxInt64 then some v else none

/-- `strconv.ParseInt(s, 10, 64)`: the value returned and whether the error
is non-nil.  A syntax error returns 0, a range error the nearest `int64`. -/
def ParseInt64 (s : GoString) : Int × Bool :=
  match parseDecimal s with
  | none => (0, true)
  | some v =>
    if v < minInt64 then (minInt64, true)
    else if maxInt64 < v then (maxInt64, true)
    else (v, false)

/-- The first group of `protoSplitter`. -/
inductive Scheme where
  | tcp
  | udp
  | ping
  deriving DecidableEq, Repr

/-- The second group `(4|6)?` of `protoSplitter` on what follows the first. -/
def familySuffix (rest : GoString) : Option GoString :=
  if rest = [] then some []
  else if rest = [52] then some [52]
  else if rest = [54] then some [54]
  else none

/-- `protoSplitter.FindStringSubmatch` for `^(tcp|udp|ping)(4|6)?$`
(network.go:692): the two groups, `none` when the text does not match. -/
def protoSplitter (network : GoString) : Option (Scheme × GoString) :=
  match network with
  | 116 :: 99 :: 112 :: rest => (familySuffix rest).map (fun s => (Scheme.tcp, s))
  | 117 :: 100 :: 112 :: rest => (familySuffix rest).map (fun s => (Scheme.udp, s))
  | 112 :: 105 :: 110 :: 103 :: rest => (familySuffix rest).map (fun s => (Scheme.ping, s))
  | _ => none

/-- What `ctx.Err()` gives once the context is done. -/
inductive CtxErr where
  | Canceled
  | DeadlineExceeded
  | other (e : NetErr)
  deriving DecidableEq, Repr

/-- The `context.Context` handed to `DialContext`, by its fixed part: the
result of `ctx.Deadline()`, `none` when no deadline is set. -/
structure Ctx where
  deadline : Option Time
  deriving DecidableEq, Repr

/-- What lies outside the dial engine: `net.SplitHostPort`; at turn `i` of
the candidate loop, whether `ctx.Done()` is closed (with `ctx.Err()`) and
what `time.Now()` reads; and the outcome of the connection call of turn `i`
(`DialContextTCPAddrPort`, `DialUDPAddrPort` or `DialPingAddr`) for an
address under the deadline of the context passed to it, the connection
being named by a number. -/
structure DialWorld where
  SplitHostPort : GoString → Except NetErr (GoString × GoString)
  done : Nat → Option CtxErr
  now : Nat → Time
  connect : Nat → Scheme → AddrPort → Option Time → Except NetErr Nat

/-- The `Err` field of the `*net.OpError` values `DialContext` builds. -/
inductive DialCause where
  | unknownNetwork (network : GoString)
  | addr (e : NetErr)
  | sentinel (e : Err)
  | lookup (e : LookupErr)
  | ctx (e : NetErr)
  deriving DecidableEq, Repr

/-- The errors `DialContext` returns: `&net.OpError{Op: "dial", Err: cause}`
or the error of a connection attempt as it came. -/
inductive DialError where
  | opError (cause : DialCause)
  | conn (e : NetErr)
  deriving DecidableEq, Repr

/-- One connection attempt: the scheme, the address and the deadline of the
context passed to the call. -/
structure Attempt where
  scheme : Scheme
  addr : AddrPort
  deadline : Option Time
  deriving DecidableEq, Repr

/-- What `DialContext` returns, with the hosts it resolved, the DNS
exchanges made and the connection attempts made, in order. -/
structure DialOutcome where
  conn : Option Nat
  err : Option DialError
  resolved : List GoString
  asked : List (Addr × Question)
  attempts : List Attempt
  deriving DecidableEq, Repr

/-- The flags `acceptV4` and `acceptV6` of `DialContext` (network.go:312-318)
from the second group of the match. -/
def acceptFamilies (suffix : GoString) : Bool × Bool :=
  if suffix.length = 0 then (true, true)
  else (decide (suffix.getD 0 0 = 52), !decide (suffix.getD 0 0 = 52))

/-- The host and the port `DialContext` works out of the address
(network.go:319-334). -/
def dialTarget (dw : DialWorld) (scheme : Scheme) (address : GoString) :
    Except DialError (GoString × Int) :=
  if scheme = .ping then .ok (address, 0)
  else
    match dw.SplitHostPort address with
    | .error err => .error (.opError (.addr err))
    | .ok (host, sport) =>
      match Atoi sport with
      | none => .error (.opError (.sentinel .errNumericPort))
      | some port =>
        if port < 0 ∨ port > 65535 then .error (.opError (.sentinel .errNumericPort))
        else .ok (host, port)

/-- The candidates `DialContext` keeps of the resolved addresses
(network.go:339-345); the port is `uint16(port)`. -/
def filterAddrs (lib : NetIP) (acceptV4 acceptV6 : Bool) (port : Int) :
    List GoString → List AddrPort
  | [] => []
  | addr :: rest =>
    match lib.ParseAddr addr with
    | some ip =>
      if (ip.Is4 && acceptV4) || (ip.Is6 && acceptV6) then
        ⟨ip, (port % 65536).toNat⟩ :: filterAddrs lib acceptV4 acceptV6 port rest
      else filterAddrs lib acceptV4 acceptV6 port rest
    | none => filterAddrs lib acceptV4 acceptV6 port rest

/-- The cause `DialContext` reports for a context that is done
(network.go:354-360). -/
def ctxCause : CtxErr → DialCause
  | .Canceled => .sentinel .errCanceled
  | .DeadlineExceeded => .sentinel .errTimeout
  | .other e => .ctx e

/-- The deadline of `dialCtx` at turn `i` (network.go:364-378): `none` is the
panic of `partialDeadline`, an error is the error of `partialDeadline`, and
otherwise the deadline of the context the attempt is made under. -/
def dialDeadline (dw : DialWorld) (ctx : Ctx) (total i : Nat) :
    Option (Except Err (Option Time)) :=
  match ctx.deadline with
  | none => some (.ok none)
  | some deadline =>
    match partialDeadline (dw.now i) deadline ((total : Int) - (i : Int)) with
    | none => none
    | some (_, some err) => some (.error err)
    | some (pd, none) =>
      if pd.Before deadline then some (.ok (some pd)) else some (.ok (some deadline))

/-- The candidate loop of `DialContext` (network.go:350-399) over the
candidates still to be tried, `i` being the index of the next one and `total`
the number of candidates, and the `return` after it.  `none` is a panic. -/
def dialLoop (dw : DialWorld) (ctx : Ctx) (scheme : Scheme) (total : Nat) :
    List AddrPort → Nat → Option DialError → List Attempt →
      Option (Option Nat × Option DialError × List Attempt)
  | [], _, firstErr, tr =>
    some (none, some (firstErr.getD (.opError (.sentinel .errMissingAddress))), tr)
  | addr :: rest, i, firstErr, tr =>
    match dw.done i with
    | some e => some (none, some (.opError (ctxCause e)), tr)
    | none =>
      match dialDeadline dw ctx total i with
      | none => none
      | some (.error err) =>
        some (none, some (firstErr.getD (.opError (.sentinel err))), tr)
      | some (.ok deadline) =>
        let a : Attempt := ⟨scheme, addr, if scheme = .tcp then deadline else none⟩
        match dw.connect i scheme addr a.deadline with
        | .ok c => some (some c, none, tr ++ [a])
        | .error err =>
          dialLoop dw ctx scheme total rest (i + 1) (some (firstErr.getD (.conn err)))
            (tr ++ [a])

/-- `DialContext` (network.go:304-400).  A nil context is `none`, and so is
every other panic. -/
def DialContext (w : World) (dw : DialWorld) (tnet : Gvisor) (ctx : Option Ctx)
    (network address : GoString) : Option DialOutcome :=
  match ctx with
  | none => none
  | some ctx =>
    match protoSplitter network with
    | none => some ⟨none, some (.opError (.unknownNetwork network)), [], [], []⟩
    | some (scheme, suffix) =>
      match dialTarget dw scheme address with
      | .error e => some ⟨none, some e, [], [], []⟩
      | .ok (host, port) =>
        let r := LookupContextHost w tnet host
        match r.err with
        | some e => some ⟨none, some (.opError (.lookup e)), [host], r.asked, []⟩
        | none =>
          let addrs := filterAddrs w.netip (acceptFamilies suffix).1 (acceptFamilies suffix).2
            port r.addrs
          if addrs.length = 0 ∧ r.addrs.length ≠ 0 then
            some ⟨none, some (.opError (.sentinel .errNoSuitableAddress)), [host], r.asked, []⟩
          else
            match dialLoop dw ctx scheme addrs.length addrs 0 none [] with
            | none => none
            | some (c, e, tr) => some ⟨c, e, [host], r.asked, tr⟩

/-- A fragment of `net.SplitHostPort`, enough to run examples: the text is
split at its last colon, and a text without colon is an error.  Brackets are
not treated. -/
def sampleSplitHostPort (s : GoString) : Except NetErr (GoString × GoString) :=
  match lastIndexByte s 58 with
  | none => .error ⟨"missing port in address", false, false⟩
  | some i => .ok (s.take i, s.drop (i + 1))

/-- A dial world in which every connection attempt is refused, the context
is never done and the clock stands at the zero time. -/
def refusingDial : DialWorld where
  SplitHostPort := sampleSplitHostPort
  done := fun _ => none
  now := fun _ => ⟨0⟩
  connect := fun _ _ _ _ => .error ⟨"connection refused", false, true⟩

/-- A dial world in which the first connection attempt is refused and every
later one succeeds, giving the connection named by the turn. -/
def secondDial : DialWorld where
  SplitHostPort := sampleSplitHostPort
  done := fun _ => none
  now := fun _ => ⟨0⟩
  connect := fun i _ _ _ =>
    if i = 0 then .error ⟨"connection refused", false, true⟩ else .ok i

/-- The resolver used in the examples: both families, one server. -/
def sampleGvisor : Gvisor := ⟨true, true, [Addr.v4 [8, 8, 8, 8]]⟩

/-- The network `tcp`. -/
def netTcp : GoString := [116, 99, 112]

/-- The network `tcp6`. -/
def netTcp6 : GoString := [116, 99, 112, 54]

/-- The network `ping`. -/
def netPing : GoString := [112, 105, 110, 103]

/-- The address `1.2.3.4:80`. -/
def addrLiteral80 : GoString := [49, 46, 50, 46, 51, 46, 52, 58, 56, 48]

/-- The address `a.b:80`. -/
def addrAB80 : GoString := [97, 46, 98, 58, 56, 48]

/-- The address `a.b:70000`. -/
def addrAB70000 : GoString := [97, 46, 98, 58, 55, 48, 48, 48, 48]

/-- The address `a.b:abc`. -/
def addrABabc : GoString := [97, 46, 98, 58, 97, 98, 99]

/-! ## Forwarding start-up

`forward.go` calls `g.Listen`, `g.Close` and `g.Stack.Close`, which are not
among the sources: `Listen` is a parameter, the two closing calls are
recorded as one flag. -/

/-- A forward rule, by the two fields `Start` reads. -/
structure Forward where
  Scheme : GoString
  Host : GoString
  deriving DecidableEq, Repr

/-- What lies outside `Start`: `net.SplitHostPort`, and the outcome of the
`n`-th call of `g.Listen` for a scheme and a port, the listener being named
by a number. -/
structure StartWorld where
  SplitHostPort : GoString → Except NetErr (GoString × GoString)
  Listen : Nat → GoString → Nat → Except NetErr Nat

/-- The two errors `Start` builds: `fmt.Errorf("parse forward: %w", err)` and
`fmt.Errorf("gvisor listen: %w", err)`. -/
inductive StartErr where
  | parseForward (e : NetErr)
  | gvisorListen (e : NetErr)
  deriving DecidableEq, Repr

/-- A listener opened by `Start`: its name, and the scheme and the port
`g.Listen` was called with. -/
structure Listener where
  id : Nat
  scheme : GoString
  port : Nat
  deriving DecidableEq, Repr

/-- What `Start` has done when it returns: the error, the listeners opened
in order, the listeners closed, whether the engine and the stack were
closed, whether the shutdown supervisor was started, and the listeners for
which a serving loop was started. -/
structure StartOutcome where
  err : Option StartErr
  opened : List Listener
  closed : List Nat
  engineClosed : Bool
  supervisor : Bool
  jobs : List Nat
  deriving DecidableEq, Repr

/-- The loop of `Start` over the forward rules (forward.go:29-56): the error
it returns with, if any, and the listeners opened.  The port handed to
`g.Listen` is `uint16(portNum)`, the error of `strconv.ParseInt` being
dropped. -/
def startLoop (sw : StartWorld) : List Forward → Nat → List Listener →
    Option StartErr × List Listener
  | [], _, listeners => (none, listeners)
  | forward :: rest, n, listeners =>
    match sw.SplitHostPort forward.Host with
    | .error err => (some (.parseForward err), listeners)
    | .ok (_, port) =>
      let portNum := (ParseInt64 port).1
      match sw.Listen n forward.Scheme (portNum % 65536).toNat with
      | .error err => (some (.gvisorListen err), listeners)
      | .ok l =>
        startLoop sw rest (n + 1)
          (listeners ++ [⟨l, forward.Scheme, (portNum % 65536).toNat⟩])

/-- `Start` (forward.go:13-67) up to its return.  On an error the deferred
`closeEngine` closes every listener opened and the engine; otherwise the
supervisor and one serving loop for each listener are started. -/
def Start (sw : StartWorld) (forwards : List Forward) : StartOutcome :=
  match startLoop sw forwards 0 [] with
  | (some err, listeners) =>
    ⟨some err, listeners, listeners.map (fun l => l.id), true, false, []⟩
  | (none, listeners) =>
    ⟨none, listeners, [], false, true, listeners.map (fun l => l.id)⟩

/-- A start world in which every call of `g.Listen` succeeds, the listener
being named by the number of the call. -/
def openStartWorld : StartWorld where
  SplitHostPort := sampleSplitHostPort
  Listen := fun n _ _ => .ok n

/-! ## The LRU cache (lru.go)

A `*list.Element` is a list element with an address; the map of the cache
holds addresses.  `container/list` is modelled by the list of the elements,
front first. -/

/-- A `*list.Element` holding an `*entry[K, V]`: the address of the element,
the key and the value of the entry. -/
structure Element (K V : Type) where
  id : Nat
  key : K
  value : V

/-- The struct `cache[K, V]` (lru.go:7-11), written `Cache` to keep it apart
from its field `cache`: the capacity, the map from keys
to element addresses, the recency list (front first), and the address the
next element allocated gets. -/
structure Cache (K V : Type) where
  capacity : Int
  cache : List (K × Nat)
  list : List (Element K V)
  fresh : Nat

section LRU

variable {K V : Type} [DecidableEq K]

/-- The map read `m[key]`. -/
def mapGet : List (K × Nat) → K → Option Nat
  | [], _ => none
  | (k, id) :: rest, key => if k = key then some id else mapGet rest key

/-- The map deletion `delete(m, key)`. -/
def mapDelete (m : List (K × Nat)) (key : K) : List (K × Nat) :=
  m.filter (fun p => decide (p.1 ≠ key))

/-- The map write `m[key] = id`. -/
def mapSet (m : List (K × Nat)) (key : K) (id : Nat) : List (K × Nat) :=
  (key, id) :: mapDelete m key

/-- The element at an address, when it is in the list. -/
def findElem (l : List (Element K V)) (id : Nat) : Option (Element K V) :=
  l.find? (fun e => decide (e.id = id))

/-- `l.Remove(e)`: the list without the element at the address. -/
def listRemove (l : List (Element K V)) (id : Nat) : List (Element K V) :=
  l.eraseP (fun e => decide (e.id = id))

/-- `l.MoveToFront(e)`: nothing changes when the element is not in the
list. -/
def moveToFront (l : List (Element K V)) (id : Nat) : List (Element K V) :=
  match findElem l id with
  | none => l
  | some e => e :: listRemove l id

/-- The write `elem.Value.(*entry[K, V]).value = value`. -/
def setValue (l : List (Element K V)) (id : Nat) (value : V) : List (Element K V) :=
  l.map (fun e => if e.id = id then { e with value := value } else e)

/-- `New` (lru.go:18-27); `none` is the panic "invalid capacity". -/
def New (capacity : Int) : Option (Cache K V) :=
  if capacity ≤ 0 then none else some ⟨capacity, [], [], 0⟩

/-- `Get` (lru.go:29-35): the cache after the call and the value, `none` when
`ok` is false.  An address in the map whose element is not in the list
cannot arise (the map and the list hold the same elements); the model
answers `none` there. -/
def Cache.Get (c : Cache K V) (key : K) : Cache K V × Option V :=
  match mapGet c.cache key with
  | some id =>
    match findElem c.list id with
    | some e => ({ c with list := moveToFront c.list id }, some e.value)
    | none => (c, none)
  | none => (c, none)

/-- The loop of `Find` (lru.go:38-43) over the map entries still to be
visited, in the order the runtime ranges over the map. -/
def findLoop (c : Cache K V) (filter : K → V → Bool) :
    List (K × Nat) → Cache K V × Option (K × V)
  | [] => (c, none)
  | (k, id) :: rest =>
    match findElem c.list id with
    | some e =>
      if filter k e.value then ({ c with list := moveToFront c.list id }, some (k, e.value))
      else findLoop c filter rest
    | none => findLoop c filter rest

/-- `Find` (lru.go:37-45); `order` is the order in which `range c.cache`
visits the entries of the map, which Go leaves unspecified. -/
def Cache.Find (c : Cache K V) (filter : K → V → Bool) (order : List (K × Nat)) :
    Cache K V × Option (K × V) :=
  findLoop c filter order

/-- `Put` (lru.go:47-64). -/
def Cache.Put (c : Cache K V) (key : K) (value : V) : Cache K V :=
  match mapGet c.cache key with
  | some id => { c with list := setValue (moveToFront c.list id) id value }
  | none =>
    let c1 : Cache K V :=
      if (c.list.length : Int) = c.capacity then
        match c.list.getLast? with
        | some oldest =>
          { c with list := listRemove c.list oldest.id, cache := mapDelete c.cache oldest.key }
        | none => c
      else c
    { c1 with
      list := ⟨c1.fresh, key, value⟩ :: c1.list
      cache := mapSet c1.cache key c1.fresh
      fresh := c1.fresh + 1 }

/-- `Del` (lru.go:66-71). -/
def Cache.Del (c : Cache K V) (key : K) : Cache K V :=
  match mapGet c.cache key with
  | some id => { c with list := listRemove c.list id, cache := mapDelete c.cache key }
  | none => c

/-- `Clear` (lru.go:73-76). -/
def Cache.Clear (c : Cache K V) : Cache K V :=
  { c with cache := [], list := [] }

/-- `Dump` (lru.go:78-84): the map built, as the list of its pairs. -/
def Cache.Dump (c : Cache K V) : List (K × V) :=
  c.cache.filterMap (fun p => (findElem c.list p.2).map (fun e => (p.1, e.value)))

/-- The entries of the cache from the most recently used to the least. -/
def Cache.view (c : Cache K V) : List (K × V) :=
  c.list.map (fun e => (e.key, e.value))

/-- The cache invariant: no key and no address twice in the recency list, no
key twice in the map, the map sends a key to an address exactly when the
list holds the element with that key at that address, every address in use
is below the next one to allocate, the list is no longer than the capacity,
and the capacity is positive. -/
def Cache.WF (c : Cache K V) : Prop :=
  (c.list.map (fun e => e.key)).Nodup
    ∧ (c.list.map (fun e => e.id)).Nodup
    ∧ (c.cache.map Prod.fst).Nodup
    ∧ (∀ k id, mapGet c.cache k = some id ↔ ∃ e ∈ c.list, e.key = k ∧ e.id = id)
    ∧ (∀ e ∈ c.list, e.id < c.fresh)
    ∧ (c.list.length : Int) ≤ c.capacity
    ∧ 0 < c.capacity

end LRU

section LRUVocabulary

variable {K V : Type} [DecidableEq K]

/-- The cache after a run of `Put` calls. -/
def putAll (c : Cache K V) (ps : List (K × V)) : Cache K V :=
  ps.foldl (fun c p => c.Put p.1 p.2) c

end LRUVocabulary

/-- A start world in which the second call of `g.Listen` fails and every
other call succeeds, the listener being named by the number of the call. -/
def secondListenFails : StartWorld where
  SplitHostPort := sampleSplitHostPort
  Listen := fun n _ _ =>
    if n = 1 then .error ⟨"port is in use", false, true⟩ else .ok n

/-! ## Packets (packet.go)

A `[]byte` is modelled with its backing array from the start of the slice
(`arr`, as long as the capacity), its length and whether it is the nil
slice.  A run-time panic is the result `none`. -/

/-- A Go `[]byte`: the bytes are `arr.take len`, the capacity is
`arr.length`. -/
structure Slice where
  isNil : Bool
  arr : List Nat
  len : Nat
  deriving DecidableEq, Repr

/-- The bytes of a slice. -/
def Slice.bytes (s : Slice) : List Nat := s.arr.take s.len

/-- The capacity of a slice. -/
def Slice.cap (s : Slice) : Nat := s.arr.length

/-- The slice expression `s[low:]`, which panics unless `low ≤ len(s)`; the
result of slicing a nil slice is nil, any other result is not nil. -/
def Slice.from (s : Slice) (low : Nat) : Option Slice :=
  if low ≤ s.len then some ⟨s.isNil, s.arr.drop low, s.len - low⟩ else none

/-- The slice expression `s[:high]`, which panics unless `high ≤ cap(s)`. -/
def Slice.upTo (s : Slice) (high : Nat) : Option Slice :=
  if high ≤ s.cap then some ⟨s.isNil, s.arr, high⟩ else none

/-- The built-in `append(s, b...)`.  Within the capacity the bytes are
written to the backing array; otherwise a new array is taken, of which the
model keeps the part in use.  Appending nothing gives `s` itself. -/
def Slice.append (s : Slice) (b : List Nat) : Slice :=
  if b = [] then s
  else if s.len + b.length ≤ s.cap then
    ⟨false, s.arr.take s.len ++ b ++ s.arr.drop (s.len + b.length),
      s.len + b.length⟩
  else ⟨false, s.arr.take s.len ++ b, s.len + b.length⟩

/-- The struct `Packet` (packet.go:9-12). -/
structure Packet where
  buf : Slice
  offset : Nat
  deriving DecidableEq, Repr

/-- `NewPacket` (packet.go:16-21): it panics when `offset > cap`, and
`make([]byte, offset, cap)` panics on a negative length. -/
def NewPacket (offset cap : Int) : Option Packet :=
  if offset > cap then none
  else if offset < 0 then none
  else some ⟨⟨false, List.replicate cap.toNat 0, offset.toNat⟩, offset.toNat⟩

/-- `Packet.AsBytes` (packet.go:28-30): `p.buf[p.offset:]`. -/
def Packet.AsBytes (p : Packet) : Option Slice := p.buf.from p.offset

/-- `Packet.Ver` (packet.go:34-40): 0 when `AsBytes` is the nil slice,
otherwise `pkt[0] >> 4`, which panics with an index out of range when the
slice is empty. -/
def Packet.Ver (p : Packet) : Option Nat :=
  match p.AsBytes with
  | none => none
  | some pkt =>
    if pkt.isNil then some 0
    else
      match pkt.bytes with
      | [] => none
      | b :: _ => some (b / 16)

/-- `Packet.Write` (packet.go:61-64): `p.buf = append(p.buf, b...)`; the
error returned is nil. -/
def Packet.Write (p : Packet) (b : List Nat) : Packet :=
  { p with buf := p.buf.append b }

/-- `Packet.SetHeader` (packet.go:50-56): the packet after the call and
whether the error "short packet offset" is returned.  `copy` writes the
header over the first bytes of `p.buf[:p.offset]`. -/
def Packet.SetHeader (p : Packet) (header : List Nat) : Option (Packet × Bool) :=
  if header.length > p.offset then some (p, true)
  else
    match p.buf.upTo p.offset with
    | none => none
    | some _ =>
      some ({ p with buf := { p.buf with
                arr := header ++ p.buf.arr.drop header.length } }, false)

/-- `Packet.Reset` (packet.go:66-68): `p.buf = p.buf[:p.offset]`. -/
def Packet.Reset (p : Packet) : Option Packet :=
  match p.buf.upTo p.offset with
  | none => none
  | some s => some { p with buf := s }

/-- A call that changes a packet. -/
inductive PacketOp where
  | Write (b : List Nat)
  | SetHeader (header : List Nat)
  | Reset
  deriving DecidableEq, Repr

/-- One call on a packet. -/
def Packet.apply (p : Packet) : PacketOp → Option Packet
  | .Write b => some (p.Write b)
  | .SetHeader header => (p.SetHeader header).map Prod.fst
  | .Reset => p.Reset

/-- A sequence of calls on a packet, in order. -/
def Packet.applyAll (p : Packet) : List PacketOp → Option Packet
  | [] => some p
  | op :: ops =>
    match p.apply op with
    | none => none
    | some q => q.applyAll ops

/-- The payload of a packet: the bytes after the header offset. -/
def Packet.payload (p : Packet) : List Nat := p.buf.bytes.drop p.offset

/-- The zero value `Packet{}`, whose buffer is the nil slice. -/
def Packet.zero : Packet := ⟨⟨true, [], 0⟩, 0⟩
/-- What holds of every packet built by `NewPacket` and changed by `Write`,
`SetHeader` and `Reset`: the buffer is not nil, it is at least as long as
the header offset, and its length is within its capacity. -/
def Packet.Built (p : Packet) : Prop :=
  p.buf.isNil = false ∧ p.offset ≤ p.buf.len ∧ p.buf.len ≤ p.buf.arr.length

/-! ## Ping connections (ping.go)

The endpoint of the stack lies outside the repository: its `Write` is a
parameter, and the model records the calls made of it. -/

/-- A `net.Addr` as `WriteTo` tells them apart: a `*_PingAddr`, a
`*net.IPAddr` with the bytes of its `IP`, or a value of any other type. -/
inductive NetAddr where
  | pingAddr (addr : Addr)
  | ipAddr (IP : List Nat)
  | other
  deriving DecidableEq, Repr

/-- The type switch of `WriteTo` (ping.go:70-77): the `netip.Addr` of the
destination, `netip.AddrFromSlice` giving the zero address when it fails;
`none` for the default case. -/
def destAddr : NetAddr → Option Addr
  | .pingAddr addr => some addr
  | .ipAddr ip => some ((AddrFromSlice ip).getD Addr.zero)
  | .other => none

/-- What `WriteTo` returns and the calls of `pc.ep.Write` it made, each with
the payload and the `To` address. -/
structure WriteOutcome where
  n : Int
  err : Option String
  writes : List (List Nat × FullAddress)
  deriving DecidableEq, Repr

/-- `_PingConn.WriteTo` (ping.go:68-93) on a connection with the local
address `laddr`; `epWrite` is `pc.ep.Write`, giving the count and the text
of the error, if any. -/
def WriteTo (epWrite : List Nat → FullAddress → Int × Option String)
    (laddr : Addr) (p : List Nat) (addr : NetAddr) : WriteOutcome :=
  match destAddr addr with
  | none => ⟨0, some "ping write: wrong net.Addr type", []⟩
  | some na =>
    if !((na.Is4 && laddr.Is4) || (na.Is6 && laddr.Is6)) then
      ⟨0, some "ping write: mismatched protocols", []⟩
    else
      let rfa := (convertToFullAddr ⟨na, 0⟩).1
      match epWrite p rfa with
      | (n64, some tcpipErr) => ⟨n64, some ("ping write: " ++ tcpipErr), [(p, rfa)]⟩
      | (n64, none) => ⟨n64, none, [(p, rfa)]⟩

/-- An endpoint that takes every payload whole. -/
def takingEndpoint (p : List Nat) (_to : FullAddress) : Int × Option String :=
  (p.length, none)

/-- The counts `DialContext` hands to `partialDeadline` in its candidate
loop (network.go:364-365), in the order of the calls; the recursion is that
of `dialLoop`. -/
def dialCounts (dw : DialWorld) (ctx : Ctx) (scheme : Scheme) (total : Nat) :
    List AddrPort → Nat → List Int
  | [], _ => []
  | addr :: rest, i =>
    match dw.done i with
    | some _ => []
    | none =>
      (match ctx.deadline with
        | none => []
        | some _ => [(total : Int) - (i : Int)])
      ++
      match dialDeadline dw ctx total i with
      | some (.ok deadline) =>
        match dw.connect i scheme addr (if scheme = .tcp then deadline else none) with
        | .ok _ => []
        | .error _ => dialCounts dw ctx scheme total rest (i + 1)
      | _ => []

/-- A dial context whose deadline is 10 s after the zero time. -/
def tenSecondCtx : Ctx := ⟨some ⟨10000000000⟩⟩

section LRUCalls

variable {K V : Type} [DecidableEq K]

/-- A call on the cache.  `Find` carries its filter and the order in which
the runtime ranges over the map in that call. -/
inductive CacheOp (K V : Type) where
  | Put (key : K) (value : V)
  | Get (key : K)
  | Find (filter : K → V → Bool) (order : List (K × Nat))
  | Del (key : K)
  | Clear

/-- The cache after one call. -/
def Cache.step (c : Cache K V) : CacheOp K V → Cache K V
  | .Put key value => c.Put key value
  | .Get key => (c.Get key).1
  | .Find filter order => (c.Find filter order).1
  | .Del key => c.Del key
  | .Clear => c.Clear

/-- The cache after a sequence of calls, in order. -/
def Cache.run (c : Cache K V) (ops : List (CacheOp K V)) : Cache K V :=
  ops.foldl Cache.step c

end LRUCalls

/-! ## Vocabulary of the answer section

The definitions below do not come from the source: they name the records of
an answer section the receiving loop of `LookupContextHost` gets through and
the addresses those records carry. -/

/-- Whether a record can be read: an A or AAAA record whose body unpacks,
any other record that `SkipAnswer` gets past. -/
def Resource.reads (r : Resource) : Bool :=
  if r.typ = TypeA ∨ r.typ = TypeAAAA then r.body.isSome else r.skip

/-- The records of an answer section before the first that cannot be read. -/
def readPrefix (rs : List Resource) : List Resource :=
  rs.takeWhile Resource.reads

/-- The IPv4 addresses of the A records among the records, in order. -/
def aAddrs (rs : List Resource) : List Addr :=
  rs.filterMap (fun r => if r.typ = TypeA then r.body.map AddrFrom4 else none)

/-- The IPv6 addresses of the AAAA records among the records, in order. -/
def aaaaAddrs (rs : List Resource) : List Addr :=
  rs.filterMap (fun r => if r.typ = TypeAAAA then r.body.map AddrFrom16 else none)

/-! ## Properties: the deadline split -/

/-- A deadline later than `now` leaves a positive duration. -/
theorem sub_pos_of_after (now deadline : Time) (h : deadline.After now = true) :
    0 < deadline.Sub now := by
  simp only [Time.After, decide_eq_true_eq] at h
  simp only [Time.Sub, minDuration, maxDuration]
  split_ifs <;> omega

/-- C1 as stated fails for a deadline further from `now` than a
`time.Duration` can hold.  With `now` 63.9e18 ns after the zero time, the
deadline 1e19 ns (about 317 years) later and two candidates, the quotient of
the difference by the count is 5e18 ns, which is at least 2 s, so the result
claimed is `now + 5e18 ns`; `partialDeadline` returns `now` plus half the
largest `time.Duration`. -/
theorem partialDeadline_split_counterexample :
    (⟨73900000000000000000⟩ : Time).IsZero = false
      ∧ (⟨73900000000000000000⟩ : Time).After ⟨63900000000000000000⟩ = true
      ∧ ((⟨73900000000000000000⟩ : Time).ns - (⟨63900000000000000000⟩ : Time).ns) / 2
          = 5000000000000000000
      ∧ saneMinimum ≤ 5000000000000000000
      ∧ (⟨63900000000000000000⟩ : Time).Add 5000000000000000000 = ⟨68900000000000000000⟩
      ∧ (⟨73900000000000000000⟩ : Time).Sub ⟨63900000000000000000⟩ = maxDuration
      ∧ partialDeadline ⟨63900000000000000000⟩ ⟨73900000000000000000⟩ 2
        = some (⟨68511686018427387903⟩, none) := by
  decide

/-- C1, amended: for every instant `now`, every non-zero deadline later than
`now` by no more than the largest `time.Duration`, and every candidate count
`n ≥ 1`, `partialDeadline` succeeds and returns `now + t` where, with `rem`
the difference of the deadline and `now` and `q = rem / n`, `t` is `q` when
`q ≥ 2 s`, else `rem` when `rem < 2 s`, else `2 s`.  With the deadline 10 s
ahead and 5 candidates the result is `now + 2 s`. -/
theorem partialDeadline_split (now deadline : Time) (n : Int)
    (hz : deadline.IsZero = false) (hlater : deadline.After now = true)
    (hfit : deadline.ns - now.ns ≤ maxDuration) (hn : 1 ≤ n) :
    partialDeadline now deadline n =
        some (now.Add
          (if saneMinimum ≤ (deadline.ns - now.ns) / n then (deadline.ns - now.ns) / n
           else if deadline.ns - now.ns < saneMinimum then deadline.ns - now.ns
           else saneMinimum), none)
      ∧ (deadline = now.Add (10 * Second) → n = 5 →
          partialDeadline now deadline n = some (now.Add (2 * Second), none)) := by
  have hpos := sub_pos_of_after now deadline hlater
  have hsub : deadline.Sub now = deadline.ns - now.ns := by
    simp only [Time.After, decide_eq_true_eq] at hlater
    simp only [Time.Sub, minDuration, maxDuration] at hfit ⊢
    split_ifs <;> omega
  have hdiv : Int.tdiv (deadline.Sub now) n = deadline.Sub now / n :=
    Int.tdiv_eq_ediv (le_of_lt hpos) (by omega)
  have hgen : partialDeadline now deadline n =
        some (now.Add
          (if saneMinimum ≤ (deadline.ns - now.ns) / n then (deadline.ns - now.ns) / n
           else if deadline.ns - now.ns < saneMinimum then deadline.ns - now.ns
           else saneMinimum), none) := by
    have hn0 : n ≠ 0 := by omega
    rw [← hsub]
    simp only [partialDeadline, hz, Bool.false_eq_true, if_false, not_le.mpr hpos, hn0, hdiv]
    by_cases hq : saneMinimum ≤ deadline.Sub now / n
    · simp [hq, not_lt.mpr hq]
    · simp [hq, not_le.mp hq]
  refine ⟨hgen, ?_⟩
  intro hd h5
  subst hd h5
  rw [hgen]
  have hs : (now.Add (10 * Second)).ns - now.ns = 10 * Second := by
    simp only [Time.Add]
    omega
  rw [hs]
  simp [saneMinimum, Second]

/-- C1, amended, at `now` the zero time, the deadline 10 s later and 5
candidates: the result is 2 s after `now`. -/
theorem partialDeadline_split_witness :
    (⟨10000000000⟩ : Time).IsZero = false
      ∧ (⟨10000000000⟩ : Time).After ⟨0⟩ = true
      ∧ (⟨10000000000⟩ : Time).ns - (⟨0⟩ : Time).ns ≤ maxDuration
      ∧ (1 : Int) ≤ 5
      ∧ partialDeadline ⟨0⟩ ⟨10000000000⟩ 5 = some (⟨2000000000⟩, none) :=
  ⟨by decide, by decide, by decide, by decide,
    (partialDeadline_split ⟨0⟩ ⟨10000000000⟩ 5 (by decide) (by decide) (by decide)
      (by decide)).2 (by decide) rfl⟩

/-- C2: for every instant `now`, every non-zero deadline earlier than `now`
and every candidate count, `partialDeadline` returns the zero time and the
error `errTimeout`, whose text is "i/o timeout". -/
theorem partialDeadline_expired (now deadline : Time) (n : Int)
    (hz : deadline.IsZero = false) (hearlier : deadline.Before now = true) :
    partialDeadline now deadline n = some (Time.zero, some Err.errTimeout)
      ∧ Err.errTimeout.Error = "i/o timeout" := by
  simp only [Time.Before, decide_eq_true_eq] at hearlier
  have hle : deadline.Sub now ≤ 0 := by
    simp only [Time.Sub, minDuration, maxDuration]
    split_ifs <;> omega
  simp [partialDeadline, hz, hle, Err.Error]

/-- C2 at a deadline 1 s after the zero time, `now` 2 s after it, and a
candidate count of zero. -/
theorem partialDeadline_expired_witness :
    (⟨1000000000⟩ : Time).IsZero = false
      ∧ (⟨1000000000⟩ : Time).Before ⟨2000000000⟩ = true
      ∧ partialDeadline ⟨2000000000⟩ ⟨1000000000⟩ 0 = some (Time.zero, some Err.errTimeout) :=
  ⟨by decide, by decide,
    (partialDeadline_expired ⟨2000000000⟩ ⟨1000000000⟩ 0 (by decide) (by decide)).1⟩

/-! ## Properties: host name validation -/

/-- The validation loop of the source is the run of `scan` followed by
`scanFinish`. -/
theorem isDomainNameLoop_eq_scan (s : GoString) (st : Scan) :
    isDomainNameLoop s st.last st.nonNumeric st.partlen =
      match scan s st with
      | none => false
      | some st1 => scanFinish st1 := by
  induction s generalizing st with
  | nil => simp [isDomainNameLoop, scan, scanFinish]
  | cons c rest ih =>
    simp only [isDomainNameLoop, scan, scanStep]
    split_ifs <;> first | rfl | exact ih ⟨_, _, _⟩

theorem scan_append (a b : GoString) (st : Scan) :
    scan (a ++ b) st = (scan a st).bind (scan b) := by
  induction a generalizing st with
  | nil => simp [scan]
  | cons c rest ih =>
    simp only [List.cons_append, scan]
    cases scanStep c st with
    | none => simp
    | some st1 => simpa using ih st1

theorem isDomainName_eq_scan (s : GoString) :
    isDomainName s =
      if s.length = 0 ∨ s.length > 254 ∨ (s.length = 254 ∧ s.getD (s.length - 1) 0 ≠ 46)
      then false
      else match scan s Scan.init with
        | none => false
        | some st => scanFinish st := by
  simp only [isDomainName]
  split_ifs
  · rfl
  · exact isDomainNameLoop_eq_scan s Scan.init

theorem isDomainName_of_scan_none (s : GoString) (h : scan s Scan.init = none) :
    isDomainName s = false := by
  rw [isDomainName_eq_scan, h]; simp

theorem isDomainName_of_scanFinish (s : GoString) (st : Scan)
    (h : scan s Scan.init = some st) (hf : scanFinish st = false) :
    isDomainName s = false := by
  rw [isDomainName_eq_scan, h]; simp [hf]

/-- A byte other than a letter, a digit, the hyphen, the underscore and the
dot ends the loop with `return false`. -/
theorem scanStep_bad_byte (c : Nat) (st : Scan)
    (hbad : ¬ (isLetter c = true ∨ isDigit c = true ∨ c = 45 ∨ c = 95 ∨ c = 46)) :
    scanStep c st = none := by
  simp only [isLetter, isDigit, Bool.or_eq_true, Bool.and_eq_true, decide_eq_true_eq] at hbad
  simp only [scanStep]
  split_ifs <;> first | rfl | (exfalso; omega)

/-- A string holding a byte the loop does not know is not scanned to the end. -/
theorem scan_none_of_bad_byte (s : GoString) (c : Nat) (hc : c ∈ s)
    (hbad : ¬ (isLetter c = true ∨ isDigit c = true ∨ c = 45 ∨ c = 95 ∨ c = 46))
    (st : Scan) : scan s st = none := by
  obtain ⟨a, b, rfl⟩ := List.append_of_mem hc
  rw [scan_append]
  cases scan a st with
  | none => rfl
  | some st1 => simp [scan, scanStep_bad_byte c st1 hbad]

/-- Digits and dots leave `nonNumeric` as it was. -/
theorem scan_digits_dots (s : GoString) (hs : ∀ c ∈ s, isDigit c = true ∨ c = 46)
    (st st1 : Scan) (h : scan s st = some st1) : st1.nonNumeric = st.nonNumeric := by
  induction s generalizing st with
  | nil => simp only [scan, Option.some.injEq] at h; rw [← h]
  | cons c rest ih =>
    simp only [scan] at h
    cases hstep : scanStep c st with
    | none => simp [hstep] at h
    | some st2 =>
      simp only [hstep] at h
      have h2 := ih (fun d hd => hs d (List.mem_cons_of_mem c hd)) st2 h
      rw [h2]
      have hc := hs c (List.mem_cons_self c rest)
      simp only [isDigit, Bool.and_eq_true, decide_eq_true_eq] at hc
      simp only [scanStep] at hstep
      split_ifs at hstep <;>
        first
        | (exfalso; omega)
        | (simp only [Option.some.injEq] at hstep; rw [← hstep])

/-- The labels of a string hold no dot. -/
theorem splitDots_no_dot (s : GoString) : ∀ l ∈ splitDots s, 46 ∉ l := by
  induction s with
  | nil => simp [splitDots]
  | cons c rest ih =>
    simp only [splitDots]
    split_ifs with hc
    · intro l hl
      rcases List.mem_cons.mp hl with rfl | hl
      · simp
      · exact ih l hl
    · cases hsp : splitDots rest with
      | nil => simp; exact fun h => hc h.symm
      | cons l0 ls =>
        rw [hsp] at ih
        intro l hl
        rcases List.mem_cons.mp hl with rfl | hl
        · intro hmem
          rcases List.mem_cons.mp hmem with h | h
          · exact hc h.symm
          · exact ih l0 (List.mem_cons_self _ _) h
        · exact ih l (List.mem_cons_of_mem _ hl)

/-- A string always has at least one label. -/
theorem splitDots_ne_nil (s : GoString) : splitDots s ≠ [] := by
  cases s with
  | nil => simp [splitDots]
  | cons c rest =>
    simp only [splitDots]
    split_ifs
    · simp
    · cases splitDots rest <;> simp

/-- Joining the labels of a string with dots gives the string back. -/
theorem joinDots_splitDots (s : GoString) : joinDots (splitDots s) = s := by
  induction s with
  | nil => simp [splitDots, joinDots]
  | cons c rest ih =>
    simp only [splitDots]
    split_ifs with hc
    · cases hsp : splitDots rest with
      | nil => exact absurd hsp (splitDots_ne_nil rest)
      | cons l0 ls =>
        rw [hsp] at ih
        simp [joinDots, ih, hc]
    · cases hsp : splitDots rest with
      | nil => exact absurd hsp (splitDots_ne_nil rest)
      | cons l0 ls =>
        rw [hsp] at ih
        cases ls with
        | nil => simp only [joinDots] at ih ⊢; rw [ih]
        | cons l1 ls1 => simp only [joinDots, List.cons_append] at ih ⊢; rw [ih]

/-- Where a label sits in the joined string: it starts the string or follows
a dot, and it ends the string or a dot follows it. -/
theorem joinDots_mem (ls : List GoString) (l : GoString) (hl : l ∈ ls) :
    ∃ pre suf, joinDots ls = pre ++ l ++ suf
      ∧ (pre = [] ∨ ∃ p, pre = p ++ [46]) ∧ (suf = [] ∨ ∃ q, suf = 46 :: q) := by
  induction ls with
  | nil => simp at hl
  | cons l0 rest ih =>
    cases rest with
    | nil =>
      simp only [List.mem_singleton] at hl
      subst hl
      exact ⟨[], [], by simp [joinDots], Or.inl rfl, Or.inl rfl⟩
    | cons l1 ls1 =>
      rcases List.mem_cons.mp hl with rfl | hl
      · exact ⟨[], 46 :: joinDots (l1 :: ls1), by simp [joinDots], Or.inl rfl, Or.inr ⟨_, rfl⟩⟩
      · obtain ⟨pre, suf, hj, hpre, hsuf⟩ := ih hl
        refine ⟨l0 ++ 46 :: pre, suf, by simp [joinDots, hj], Or.inr ?_, hsuf⟩
        rcases hpre with rfl | ⟨p, rfl⟩
        · exact ⟨l0, by simp⟩
        · exact ⟨l0 ++ 46 :: p, by simp⟩

/-- After a prefix that ends with a dot the loop is at the start of a label. -/
theorem scan_after_dot (p : GoString) (st st1 : Scan)
    (h : scan (p ++ [46]) st = some st1) : st1.last = 46 ∧ st1.partlen = 0 := by
  rw [scan_append] at h
  obtain ⟨st0, -, h0⟩ := Option.bind_eq_some.mp h
  simp only [scan] at h0
  cases hstep : scanStep 46 st0 with
  | none => simp [hstep] at h0
  | some st2 =>
    simp only [hstep, Option.some.injEq] at h0
    subst h0
    simp only [scanStep] at hstep
    split_ifs at hstep <;> first | (exfalso; omega) | skip
    simp only [Option.some.injEq] at hstep
    subst hstep
    exact ⟨rfl, rfl⟩

/-- Scanning a piece without a dot adds its length to `partlen` and leaves its
last byte in `last`. -/
theorem scan_label (l : GoString) (hl : 46 ∉ l) (st st1 : Scan)
    (h : scan l st = some st1) :
    st1.partlen = st.partlen + l.length ∧ st1.last = l.getLast?.getD st.last := by
  induction l generalizing st with
  | nil =>
    simp only [scan, Option.some.injEq] at h
    subst h
    simp
  | cons c rest ih =>
    simp only [scan] at h
    cases hstep : scanStep c st with
    | none => simp [hstep] at h
    | some st2 =>
      simp only [hstep] at h
      have hc : c ≠ 46 := fun hc => hl (hc ▸ List.mem_cons_self c rest)
      obtain ⟨hp, hlast⟩ := ih (fun hm => hl (List.mem_cons_of_mem c hm)) st2 h
      have h2 : st2.partlen = st.partlen + 1 ∧ st2.last = c := by
        simp only [scanStep] at hstep
        split_ifs at hstep <;>
          (simp only [Option.some.injEq] at hstep; subst hstep; exact ⟨rfl, rfl⟩)
      refine ⟨by rw [hp, h2.1, List.length_cons]; omega, ?_⟩
      rw [hlast, h2.2]
      cases rest with
      | nil => simp
      | cons d rest1 =>
        rw [List.getLast?_cons_cons]
        cases hx : (d :: rest1).getLast? with
        | none => simp at hx
        | some x => rfl

/-- A hyphen at the start of a label ends the loop with `return false`. -/
theorem scan_leading_hyphen (l : GoString) (st : Scan) (hlast : st.last = 46) :
    scan (45 :: l) st = none := by
  simp [scan, scanStep, hlast]

/-- A dot or the end of the string after a label that is too long or ends
with a hyphen is refused. -/
theorem scan_reject_after_label (suf : GoString) (st : Scan)
    (hbad : st.partlen > 63 ∨ st.last = 45) (hsuf : suf = [] ∨ ∃ q, suf = 46 :: q) :
    (match scan suf st with
      | none => false
      | some st1 => scanFinish st1) = false := by
  rcases hsuf with rfl | ⟨q, rfl⟩
  · simp only [scan, scanFinish]
    rcases hbad with h | h
    · simp [h]
    · simp [h]
  · have : scanStep 46 st = none := by
      simp only [scanStep]
      split_ifs <;> first | rfl | (exfalso; omega)
    simp [scan, this]

/-- A name with a label longer than 63 bytes, or a label that begins or ends
with a hyphen, is refused. -/
theorem isDomainName_bad_label (s l : GoString) (hl : l ∈ splitDots s)
    (hbad : 63 < l.length ∨ l.head? = some 45 ∨ l.getLast? = some 45) :
    isDomainName s = false := by
  have hnodot := splitDots_no_dot s l hl
  obtain ⟨pre, suf, hj, hpre, hsuf⟩ := joinDots_mem (splitDots s) l hl
  rw [joinDots_splitDots] at hj
  rw [isDomainName_eq_scan]
  split_ifs
  · rfl
  · rw [hj, scan_append, scan_append]
    cases h1 : scan pre Scan.init with
    | none => rfl
    | some st1 =>
      have hst1 : st1.last = 46 ∧ st1.partlen = 0 := by
        rcases hpre with rfl | ⟨p, rfl⟩
        · simp only [scan, Option.some.injEq] at h1
          subst h1
          exact ⟨rfl, rfl⟩
        · exact scan_after_dot p Scan.init st1 h1
      simp only [Option.some_bind]
      cases h2 : scan l st1 with
      | none => rfl
      | some st2 =>
        obtain ⟨hp, hlast⟩ := scan_label l hnodot st1 st2 h2
        simp only [Option.some_bind]
        rcases hbad with hlen | hhead | hend
        · exact scan_reject_after_label suf st2 (Or.inl (by omega)) hsuf
        · cases l with
          | nil => simp at hhead
          | cons c rest =>
            simp only [List.head?_cons, Option.some.injEq] at hhead
            subst hhead
            rw [scan_leading_hyphen rest st1 hst1.1] at h2
            simp at h2
        · exact scan_reject_after_label suf st2 (Or.inr (by rw [hlast, hend]; rfl)) hsuf

/-- A name that begins with a dot or holds two dots in a row is refused. -/
theorem isDomainName_empty_label (s : GoString)
    (h : s.head? = some 46 ∨ [46, 46] <:+: s) : isDomainName s = false := by
  apply isDomainName_of_scan_none
  rcases h with h | ⟨a, b, rfl⟩
  · cases s with
    | nil => simp at h
    | cons c rest =>
      simp only [List.head?_cons, Option.some.injEq] at h
      subst h
      simp [scan, scanStep, Scan.init]
  · rw [List.append_assoc, scan_append]
    cases h1 : scan a Scan.init with
    | none => rfl
    | some st1 =>
      simp only [Option.some_bind, List.cons_append, List.nil_append, scan]
      cases hstep : scanStep 46 st1 with
      | none => rfl
      | some st2 =>
        have h2 : st2.last = 46 := by
          simp only [scanStep] at hstep
          split_ifs at hstep <;> first | (exfalso; omega) | skip
          simp only [Option.some.injEq] at hstep
          subst hstep
          rfl
        simp [scanStep, h2]

/-- Scanning a piece made of letters, digits and hyphens that does not put a
hyphen right after a dot goes through, and tells what it leaves. -/
theorem scan_ldh (l : GoString) (hall : l.all isLDH = true) (st : Scan)
    (hhead : st.last = 46 → l.head? ≠ some 45) :
    scan l st = some ⟨l.getLast?.getD st.last,
      st.nonNumeric || l.any (fun c => !isDigit c), st.partlen + l.length⟩ := by
  induction l generalizing st with
  | nil => simp [scan]
  | cons c rest ih =>
    simp only [List.all_cons, Bool.and_eq_true] at hall
    obtain ⟨hc, hrest⟩ := hall
    have hstep : scanStep c st = some ⟨c, st.nonNumeric || !isDigit c, st.partlen + 1⟩ := by
      have hne : st.last = 46 → c ≠ 45 := fun h hc45 => hhead h (by simp [hc45])
      simp only [isLDH, isLetter, isDigit, Bool.or_eq_true, Bool.and_eq_true,
        decide_eq_true_eq] at hc
      simp only [scanStep, isDigit]
      split_ifs with h1 h2 h3 h4 h5 h6 <;>
        first
        | (exfalso; omega)
        | (have hd : (decide (48 ≤ c) && decide (c ≤ 57)) = false := by
            simp only [Bool.and_eq_false_imp, decide_eq_true_eq, decide_eq_false_iff_not]
            omega
           simp [hd])
        | (have hd : (decide (48 ≤ c) && decide (c ≤ 57)) = true := by
            simp only [Bool.and_eq_true, decide_eq_true_eq]
            omega
           simp [hd])
    have hc46 : c ≠ 46 := by
      simp only [isLDH, isLetter, isDigit, Bool.or_eq_true, Bool.and_eq_true,
        decide_eq_true_eq] at hc
      omega
    simp only [scan, hstep]
    rw [ih hrest _ (fun h => absurd h hc46)]
    simp only [List.any_cons, List.length_cons, Bool.or_assoc, Option.some.injEq,
      Scan.mk.injEq, true_and]
    refine ⟨?_, by omega⟩
    cases rest with
    | nil => simp
    | cons d rest1 =>
      rw [List.getLast?_cons_cons]
      cases hx : (d :: rest1).getLast? with
      | none => simp at hx
      | some x => rfl

/-- Scanning valid labels joined by dots, from the start of a label, goes
through and ends inside a label of 1 to 63 bytes whose last byte is neither a
hyphen nor a dot. -/
theorem scan_valid_labels (ls : List GoString) (hne : ls ≠ [])
    (hvalid : ∀ l ∈ ls, validLabel l = true) (st : Scan) (hlast : st.last = 46)
    (hpart : st.partlen = 0) :
    ∃ st1, scan (joinDots ls) st = some st1
      ∧ st1.nonNumeric = (st.nonNumeric || ls.any (fun l => l.any (fun c => !isDigit c)))
      ∧ st1.last ≠ 45 ∧ st1.last ≠ 46 ∧ 1 ≤ st1.partlen ∧ st1.partlen ≤ 63 := by
  induction ls generalizing st with
  | nil => exact absurd rfl hne
  | cons l rest ih =>
    have hl := hvalid l (List.mem_cons_self l rest)
    simp only [validLabel, Bool.and_eq_true, decide_eq_true_eq] at hl
    obtain ⟨⟨⟨⟨hlen1, hlen63⟩, hall⟩, hhead⟩, hend⟩ := hl
    have hscan := scan_ldh l hall st (fun _ => hhead)
    obtain ⟨x, hx⟩ : ∃ x, l.getLast? = some x := by
      cases l with
      | nil => simp at hlen1
      | cons c r => exact ⟨_, List.getLast?_eq_getLast _ (by simp)⟩
    have hxl : x ∈ l := List.mem_of_getLast?_eq_some hx
    have hx45 : x ≠ 45 := fun h => hend (by rw [hx, h])
    have hx46 : x ≠ 46 := by
      have := List.all_eq_true.mp hall x hxl
      simp only [isLDH, isLetter, isDigit, Bool.or_eq_true, Bool.and_eq_true,
        decide_eq_true_eq] at this
      omega
    rw [hx, Option.getD_some] at hscan
    cases rest with
    | nil =>
      refine ⟨_, by simpa [joinDots] using hscan, ?_, hx45, hx46, ?_, ?_⟩
      · simp
      · simp only [hpart]; omega
      · simp only [hpart]; omega
    | cons l1 ls1 =>
      have hstep : scanStep 46 ⟨x, st.nonNumeric || l.any (fun c => !isDigit c),
          st.partlen + l.length⟩
          = some ⟨46, st.nonNumeric || l.any (fun c => !isDigit c), 0⟩ := by
        simp only [scanStep]
        split_ifs <;> first | rfl | (exfalso; omega)
      obtain ⟨st1, h1, hnn, h45, h46, hp1, hp63⟩ :=
        ih (by simp) (fun l2 hl2 => hvalid l2 (List.mem_cons_of_mem l hl2))
          ⟨46, st.nonNumeric || l.any (fun c => !isDigit c), 0⟩ rfl rfl
      refine ⟨st1, ?_, ?_, h45, h46, hp1, hp63⟩
      · simp only [joinDots]
        rw [scan_append, hscan]
        simp only [Option.some_bind, scan, hstep]
        exact h1
      · rw [hnn]
        simp [Bool.or_assoc]

/-- What the loop leaves on a valid host name. -/
theorem scan_validHostname (s : GoString) (h : validHostname s = true) :
    ∃ st, scan s Scan.init = some st ∧ st.nonNumeric = true
      ∧ st.last ≠ 45 ∧ st.last ≠ 46 ∧ 1 ≤ st.partlen ∧ st.partlen ≤ 63 := by
  simp only [validHostname, Bool.and_eq_true] at h
  obtain ⟨hall, hany⟩ := h
  obtain ⟨st, hs, hnn, h45, h46, hp1, hp63⟩ :=
    scan_valid_labels (splitDots s) (splitDots_ne_nil s)
      (fun l hl => List.all_eq_true.mp hall l hl) Scan.init rfl rfl
  rw [joinDots_splitDots] at hs
  exact ⟨st, hs, by rw [hnn, hany]; rfl, h45, h46, hp1, hp63⟩

/-- A valid host name is not the empty string. -/
theorem validHostname_ne_nil (s : GoString) (h : validHostname s = true) : s ≠ [] := by
  rintro rfl
  simp [validHostname, splitDots, validLabel] at h

/-- A valid host name of at most 253 bytes is accepted. -/
theorem isDomainName_of_valid (s : GoString) (h : validHostname s = true)
    (hlen : s.length ≤ 253) : isDomainName s = true := by
  obtain ⟨st, hs, hnn, h45, -, -, hp63⟩ := scan_validHostname s h
  have hne := validHostname_ne_nil s h
  have hpos : s.length ≠ 0 := fun h0 => hne (List.length_eq_zero.mp h0)
  rw [isDomainName_eq_scan, if_neg (by omega), hs]
  simp only [scanFinish]
  rw [if_neg (by omega), hnn]

/-- A valid host name followed by one dot, 254 bytes at most in all, is
accepted. -/
theorem isDomainName_of_valid_dot (s : GoString) (h : validHostname s = true)
    (hlen : s.length ≤ 253) : isDomainName (s ++ [46]) = true := by
  obtain ⟨st, hs, hnn, h45, h46, hp1, hp63⟩ := scan_validHostname s h
  have hstep : scanStep 46 st = some ⟨46, st.nonNumeric, 0⟩ := by
    simp only [scanStep]
    split_ifs <;> first | rfl | (exfalso; omega)
  have hget : (s ++ [46]).getD ((s ++ [46]).length - 1) 0 = 46 := by
    rw [List.getD_append_right _ _ _ _ (by simp)]
    simp
  rw [isDomainName_eq_scan, if_neg, scan_append, hs]
  · simp [scan, hstep, scanFinish, hnn]
  · rw [hget]
    simp only [List.length_append, List.length_singleton]
    omega

/-- A name of more than 254 bytes, or of 254 bytes without a dot at the end,
is refused. -/
theorem isDomainName_too_long (s : GoString)
    (h : 254 < s.length ∨ (253 < s.length ∧ s.getLast? ≠ some 46)) :
    isDomainName s = false := by
  rw [isDomainName_eq_scan, if_pos]
  rcases h with h | ⟨h, hlast⟩
  · exact Or.inr (Or.inl h)
  · by_cases h254 : 254 < s.length
    · exact Or.inr (Or.inl h254)
    · have hlen : s.length = 254 := by omega
      refine Or.inr (Or.inr ⟨hlen, ?_⟩)
      rw [List.getLast?_eq_getElem?] at hlast
      rw [List.getD_eq_getElem?_getD]
      have hlt : s.length - 1 < s.length := by omega
      rw [List.getElem?_eq_getElem hlt] at hlast ⊢
      simpa using hlast

/-- A name made of digits and dots only is refused. -/
theorem isDomainName_numeric (s : GoString) (h : ∀ c ∈ s, isDigit c = true ∨ c = 46) :
    isDomainName s = false := by
  cases hs : scan s Scan.init with
  | none => exact isDomainName_of_scan_none s hs
  | some st =>
    apply isDomainName_of_scanFinish s st hs
    have hnn := scan_digits_dots s h Scan.init st hs
    simp only [Scan.init] at hnn
    simp [scanFinish, hnn]

/-- C3: `isDomainName` accepts every syntactically valid host name: for every
string `s` of at most 253 bytes whose labels (the pieces between single dots)
are each 1 to 63 bytes of ASCII letters, digits and hyphens with no hyphen at
either end, and one of whose labels holds a non-digit, both `isDomainName(s)`
and `isDomainName(s + ".")` are true. -/
theorem isDomainName_accepts_valid (s : GoString) (hlen : s.length ≤ 253)
    (hvalid : validHostname s = true) :
    isDomainName s = true ∧ isDomainName (s ++ [46]) = true :=
  ⟨isDomainName_of_valid s hvalid hlen, isDomainName_of_valid_dot s hvalid hlen⟩

/-- C3 at the name `a.b`. -/
theorem isDomainName_accepts_valid_witness :
    hostAB.length ≤ 253 ∧ validHostname hostAB = true
      ∧ isDomainName hostAB = true ∧ isDomainName (hostAB ++ [46]) = true :=
  ⟨by decide, by decide, isDomainName_accepts_valid hostAB (by decide) (by decide)⟩

/-- C4: `isDomainName` returns false for every string that is empty, or holds
only digits and dots, or has a label longer than 63 bytes, or has an empty
label (a dot at the start or two dots in a row), or has a label that begins
or ends with a hyphen, or is longer than 254 bytes, or is longer than 253
bytes and does not end with a dot. -/
theorem isDomainName_rejects (s : GoString)
    (h : s = []
      ∨ (∀ c ∈ s, isDigit c = true ∨ c = 46)
      ∨ (∃ l ∈ splitDots s, 63 < l.length)
      ∨ (s.head? = some 46 ∨ [46, 46] <:+: s)
      ∨ (∃ l ∈ splitDots s, l.head? = some 45 ∨ l.getLast? = some 45)
      ∨ 254 < s.length
      ∨ (253 < s.length ∧ s.getLast? ≠ some 46)) :
    isDomainName s = false := by
  rcases h with rfl | h | ⟨l, hl, hlen⟩ | h | ⟨l, hl, hh⟩ | h | h
  · rfl
  · exact isDomainName_numeric s h
  · exact isDomainName_bad_label s l hl (Or.inl hlen)
  · exact isDomainName_empty_label s h
  · exact isDomainName_bad_label s l hl (Or.inr hh)
  · exact isDomainName_too_long s (Or.inl h)
  · exact isDomainName_too_long s (Or.inr h)

/-- C4 at the names `1.2`, `a..b` and `a-.b`. -/
theorem isDomainName_rejects_witness :
    isDomainName [49, 46, 50] = false ∧ isDomainName [97, 46, 46, 98] = false
      ∧ isDomainName [97, 45, 46, 98] = false :=
  ⟨isDomainName_rejects [49, 46, 50] (Or.inr (Or.inl (by decide))),
   isDomainName_rejects [97, 46, 46, 98]
     (Or.inr (Or.inr (Or.inr (Or.inl (Or.inr ⟨[97], [98], rfl⟩))))),
   isDomainName_rejects [97, 45, 46, 98]
     (Or.inr (Or.inr (Or.inr (Or.inr (Or.inl ⟨[97, 45], by decide, Or.inr rfl⟩)))))⟩

set_option maxRecDepth 100000 in
/-- C5 as stated fails: `name254` is a valid name of exactly 254 bytes without
a trailing dot and is refused, and `name254` followed by a dot, 255 bytes, is
refused too. -/
theorem isDomainName_limit_counterexample :
    name254.length = 254 ∧ validHostname name254 = true
      ∧ name254.getLast? ≠ some 46 ∧ isDomainName name254 = false
      ∧ (name254 ++ [46]).length = 255 ∧ isDomainName (name254 ++ [46]) = false := by
  decide

/-- C5, amended: the total-length limit applied by `isDomainName` is 253
bytes, or 254 bytes when the input ends with a dot.  Every valid name of
exactly 253 bytes is accepted, with and without a dot after it (254 bytes
with the dot); every valid name of 254 bytes is refused, with and without a
dot after it. -/
theorem isDomainName_length_limit (s : GoString) (hvalid : validHostname s = true) :
    (s.length = 253 → isDomainName s = true ∧ isDomainName (s ++ [46]) = true)
      ∧ (s.length = 254 → isDomainName s = false ∧ isDomainName (s ++ [46]) = false) := by
  refine ⟨fun h => ⟨isDomainName_of_valid s hvalid (by omega),
    isDomainName_of_valid_dot s hvalid (by omega)⟩, fun h => ⟨?_, ?_⟩⟩
  · obtain ⟨st, hs, -, -, h46, hp1, -⟩ := scan_validHostname s hvalid
    apply isDomainName_too_long s (Or.inr ⟨by omega, ?_⟩)
    intro hlast
    have hsplit : s.dropLast ++ [46] = s :=
      List.dropLast_append_getLast? 46 (by rw [hlast]; exact rfl)
    rw [← hsplit] at hs
    exact h46 (scan_after_dot s.dropLast Scan.init st hs).1
  · exact isDomainName_too_long _ (Or.inl (by simp [h]))

set_option maxRecDepth 100000 in
/-- C5, amended, at `name253`. -/
theorem isDomainName_length_limit_witness :
    validHostname name253 = true ∧ name253.length = 253
      ∧ isDomainName name253 = true ∧ isDomainName (name253 ++ [46]) = true :=
  ⟨by decide, by decide, (isDomainName_length_limit name253 (by decide)).1 (by decide)⟩

/-- C6 as stated fails: the underscore is none of letter, digit, hyphen and
dot, and the name `a_b` that holds it is accepted. -/
theorem isDomainName_underscore_counterexample :
    95 ∈ [97, 95, 98] ∧ isLetter 95 = false ∧ isDigit 95 = false ∧ 95 ≠ 45 ∧ 95 ≠ 46
      ∧ isDomainName [97, 95, 98] = true := by
  decide

/-- C6, amended: the only bytes `isDomainName` allows in a name are ASCII
letters, digits, the hyphen, the underscore and the dot: every string that
holds any other byte is refused. -/
theorem isDomainName_rejects_other_bytes (s : GoString) (c : Nat) (hc : c ∈ s)
    (hbad : ¬ (isLetter c = true ∨ isDigit c = true ∨ c = 45 ∨ c = 95 ∨ c = 46)) :
    isDomainName s = false :=
  isDomainName_of_scan_none s (scan_none_of_bad_byte s c hc hbad Scan.init)

/-- C6, amended, at the name `a b` with a space in it. -/
theorem isDomainName_rejects_other_bytes_witness :
    32 ∈ [97, 32, 98]
      ∧ ¬ (isLetter 32 = true ∨ isDigit 32 = true ∨ 32 = 45 ∨ 32 = 95 ∨ 32 = 46)
      ∧ isDomainName [97, 32, 98] = false :=
  ⟨by decide, by decide, isDomainName_rejects_other_bytes [97, 32, 98] 32 (by decide) (by decide)⟩

/-! ## Properties: DNS response matching -/

/-- The loop of `equalASCIIName` returns true exactly when the folded bytes
agree at every index it visits. -/
theorem equalASCIINameFrom_iff (x y : Name) (i k : Nat) :
    equalASCIINameFrom x y i k = true ↔
      ∀ j, i ≤ j → j < i + k →
        foldASCII (x.Data.getD j 0) = foldASCII (y.Data.getD j 0) := by
  induction k generalizing i with
  | zero =>
    simp only [equalASCIINameFrom, true_iff]
    intro j h1 h2
    omega
  | succ k ih =>
    simp only [equalASCIINameFrom]
    by_cases hi : foldASCII (x.Data.getD i 0) = foldASCII (y.Data.getD i 0)
    · simp only [ne_eq, hi, not_true_eq_false, if_false]
      rw [ih (i + 1)]
      constructor
      · intro h j h1 h2
        rcases Nat.eq_or_lt_of_le h1 with rfl | hlt
        · exact hi
        · exact h j hlt (by omega)
      · intro h j h1 h2
        exact h j (by omega) (by omega)
    · simp only [ne_eq, hi, not_false_eq_true, if_true, Bool.false_eq_true, false_iff]
      intro h
      exact hi (h i (le_refl i) (by omega))

/-- `equalASCIIName` returns true exactly when the lengths are equal and the
names agree byte for byte after folding. -/
theorem equalASCIIName_iff (x y : Name) :
    equalASCIIName x y = true ↔
      x.Length = y.Length ∧ ∀ i, i < x.Length →
        foldASCII (x.Data.getD i 0) = foldASCII (y.Data.getD i 0) := by
  simp only [equalASCIIName]
  by_cases hlen : x.Length = y.Length
  · simp only [ne_eq, hlen, not_true_eq_false, if_false, true_and]
    rw [← hlen, equalASCIINameFrom_iff]
    constructor
    · intro h i hi
      exact h i (Nat.zero_le i) (by omega)
    · intro h j _ hj
      exact h j (by omega)
  · simp [hlen]

/-- C7: `checkResponse` returns true exactly when the response bit is set,
the response ID equals the request ID, the two questions have the same type
and the same class, and the two names have the same length and agree byte for
byte after folding `A`-`Z` to lower case (adding 32 to those bytes and to no
other).  Hence a response whose ID, echoed name, type or class differs from
the query is not accepted. -/
theorem checkResponse_iff (reqID : Nat) (reqQues : Question) (respHdr : Header)
    (respQues : Question) :
    (checkResponse reqID reqQues respHdr respQues = true ↔
        respHdr.Response = true ∧ reqID = respHdr.ID
          ∧ reqQues.Typ = respQues.Typ ∧ reqQues.Class = respQues.Class
          ∧ reqQues.Name.Length = respQues.Name.Length
          ∧ ∀ i, i < reqQues.Name.Length →
              foldASCII (reqQues.Name.Data.getD i 0)
                = foldASCII (respQues.Name.Data.getD i 0))
      ∧ (∀ a, foldASCII a = if 65 ≤ a ∧ a ≤ 90 then a + 32 else a)
      ∧ ((reqID ≠ respHdr.ID ∨ reqQues.Typ ≠ respQues.Typ
            ∨ reqQues.Class ≠ respQues.Class
            ∨ equalASCIIName reqQues.Name respQues.Name = false) →
          checkResponse reqID reqQues respHdr respQues = false) := by
  have hiff : checkResponse reqID reqQues respHdr respQues = true ↔
      respHdr.Response = true ∧ reqID = respHdr.ID
        ∧ reqQues.Typ = respQues.Typ ∧ reqQues.Class = respQues.Class
        ∧ equalASCIIName reqQues.Name respQues.Name = true := by
    simp only [checkResponse]
    cases hr : respHdr.Response <;> cases he : equalASCIIName reqQues.Name respQues.Name <;>
      by_cases hid : reqID = respHdr.ID <;> by_cases ht : reqQues.Typ = respQues.Typ <;>
      by_cases hc : reqQues.Class = respQues.Class <;> simp [hid, ht, hc]
  refine ⟨?_, ?_, ?_⟩
  · rw [hiff, equalASCIIName_iff]
  · intro a
    simp only [foldASCII]
    split_ifs with h
    · exact Nat.mod_eq_of_lt (by omega)
    · rfl
  · intro h
    cases hcr : checkResponse reqID reqQues respHdr respQues with
    | false => rfl
    | true =>
      obtain ⟨-, hid, ht, hc, he⟩ := hiff.mp hcr
      rcases h with h | h | h | h
      · exact absurd hid h
      · exact absurd ht h
      · exact absurd hc h
      · rw [he] at h; exact absurd h (by simp)

/-! ## The loops in terms of the parser calls

The two loops over the answer section are written by recursion on the
records left.  One turn of each is the sequence of parser calls of the
source. -/

/-- One turn of `skipToAnswer` (network.go:655-669): `AnswerHeader`, the test
of the type, `SkipAnswer`. -/
theorem skipToAnswer_turn (p : Parser) (qtype : Nat) :
    skipToAnswer p qtype =
      match p.AnswerHeader with
      | .sectionDone => (p, some .errNoSuchHost)
      | .failed => (p, some .errCannotUnmarshalDNSMessage)
      | .ok typ =>
        if typ = qtype then (p, none)
        else
          match p.SkipAnswer with
          | none => (p, some .errCannotUnmarshalDNSMessage)
          | some p1 => skipToAnswer p1 qtype := by
  obtain ⟨answers, malformed⟩ := p
  cases answers with
  | nil =>
    cases malformed <;> simp [skipToAnswer, skipToAnswerLoop, Parser.AnswerHeader]
  | cons r rest =>
    simp only [skipToAnswer, skipToAnswerLoop, Parser.AnswerHeader, Parser.SkipAnswer]
    split_ifs <;> rfl

/-- One turn of the answer loop of `LookupContextHost` (network.go:236-284):
`AnswerHeader`, then `AResource`, `AAAAResource` or `SkipAnswer` by the type
of the record. -/
theorem collectAnswers_turn (host server : GoString) (p : Parser) (acc : Collected) :
    collectAnswers host server p.malformed p.answers acc =
      match p.AnswerHeader with
      | .sectionDone => acc
      | .failed => { acc with lastErr := some (marshalError host server) }
      | .ok typ =>
        if typ = TypeA then
          match p.AddrResource with
          | none => { acc with lastErr := some (marshalError host server) }
          | some (a, p1) =>
            collectAnswers host server p1.malformed p1.answers
              { acc with addrsV4 := acc.addrsV4 ++ [AddrFrom4 a] }
        else if typ = TypeAAAA then
          match p.AddrResource with
          | none => { acc with lastErr := some (marshalError host server) }
          | some (a, p1) =>
            collectAnswers host server p1.malformed p1.answers
              { acc with addrsV6 := acc.addrsV6 ++ [AddrFrom16 a] }
        else
          match p.SkipAnswer with
          | none => { acc with lastErr := some (marshalError host server) }
          | some p1 => collectAnswers host server p1.malformed p1.answers acc := by
  obtain ⟨answers, malformed⟩ := p
  cases answers with
  | nil =>
    cases malformed <;> simp [collectAnswers, Parser.AnswerHeader]
  | cons r rest =>
    simp only [collectAnswers, Parser.AnswerHeader, Parser.AddrResource, Parser.SkipAnswer]
    split_ifs
    · cases r.body <;> rfl
    · cases r.body <;> rfl
    · rfl
    · rfl

/-! ## Properties: the dual-stack lookup -/

/-- The answer loop puts IPv4 addresses in `addrsV4` and IPv6 addresses in
`addrsV6` only. -/
theorem collectAnswers_families (host server : GoString) (malformed : Bool)
    (rs : List Resource) (acc : Collected)
    (h4 : ∀ a ∈ acc.addrsV4, a.Is4 = true) (h6 : ∀ a ∈ acc.addrsV6, a.Is6 = true) :
    (∀ a ∈ (collectAnswers host server malformed rs acc).addrsV4, a.Is4 = true)
      ∧ (∀ a ∈ (collectAnswers host server malformed rs acc).addrsV6, a.Is6 = true) := by
  induction rs generalizing acc with
  | nil =>
    simp only [collectAnswers]
    split_ifs <;> exact ⟨h4, h6⟩
  | cons r rest ih =>
    simp only [collectAnswers]
    split_ifs
    · cases r.body with
      | none => exact ⟨h4, h6⟩
      | some a =>
        apply ih
        · intro b hb
          rcases List.mem_append.mp hb with hb | hb
          · exact h4 b hb
          · simp only [List.mem_singleton] at hb
            subst hb
            rfl
        · exact h6
    · cases r.body with
      | none => exact ⟨h4, h6⟩
      | some a =>
        apply ih
        · exact h4
        · intro b hb
          rcases List.mem_append.mp hb with hb | hb
          · exact h6 b hb
          · simp only [List.mem_singleton] at hb
            subst hb
            rfl
    · exact ih acc h4 h6
    · exact ⟨h4, h6⟩

/-- Receiving one result keeps each family in its own list. -/
theorem receive_families (host : GoString) (acc : Collected) (result : LaneResult)
    (h4 : ∀ a ∈ acc.addrsV4, a.Is4 = true) (h6 : ∀ a ∈ acc.addrsV6, a.Is6 = true) :
    (∀ a ∈ (receive host acc result).addrsV4, a.Is4 = true)
      ∧ (∀ a ∈ (receive host acc result).addrsV6, a.Is6 = true) := by
  simp only [receive]
  cases result.error with
  | some e =>
    simp only
    split_ifs <;> exact ⟨h4, h6⟩
  | none => exact collectAnswers_families host _ _ _ acc h4 h6

/-- Receiving all the results keeps each family in its own list. -/
theorem foldl_receive_families (host : GoString) (results : List LaneResult)
    (acc : Collected)
    (h4 : ∀ a ∈ acc.addrsV4, a.Is4 = true) (h6 : ∀ a ∈ acc.addrsV6, a.Is6 = true) :
    (∀ a ∈ (results.foldl (receive host) acc).addrsV4, a.Is4 = true)
      ∧ (∀ a ∈ (results.foldl (receive host) acc).addrsV6, a.Is6 = true) := by
  induction results generalizing acc with
  | nil => exact ⟨h4, h6⟩
  | cons r rest ih =>
    obtain ⟨h4', h6'⟩ := receive_families host acc r h4 h6
    exact ih _ h4' h6'

/-- The last lines of `LookupContextHost` (network.go:286-301) return the two
collected lists in the order the `hasV6` flag fixes. -/
theorem finish_order (str : Addr → GoString) (hasV6 : Bool) (acc : Collected)
    (asked : List (Addr × Question))
    (h4 : ∀ a ∈ acc.addrsV4, a.Is4 = true) (h6 : ∀ a ∈ acc.addrsV6, a.Is6 = true) :
    ∃ l6 l4 : List Addr, (∀ a ∈ l6, a.Is6 = true) ∧ (∀ a ∈ l4, a.Is4 = true)
      ∧ (if (if hasV6 = true then acc.addrsV6 ++ acc.addrsV4
              else acc.addrsV4 ++ acc.addrsV6).length = 0 ∧ acc.lastErr ≠ none
          then (⟨[], acc.lastErr, asked⟩ : LookupOutcome)
          else ⟨(if hasV6 = true then acc.addrsV6 ++ acc.addrsV4
              else acc.addrsV4 ++ acc.addrsV6).map str, none, asked⟩).addrs =
          (if hasV6 = true then l6 ++ l4 else l4 ++ l6).map str := by
  by_cases hc : (if hasV6 = true then acc.addrsV6 ++ acc.addrsV4
              else acc.addrsV4 ++ acc.addrsV6).length = 0 ∧ acc.lastErr ≠ none
  · rw [if_pos hc]
    exact ⟨[], [], by simp, by simp, by simp⟩
  · rw [if_neg hc]
    exact ⟨acc.addrsV6, acc.addrsV4, h6, h4, rfl⟩

/-- C8: the list `LookupContextHost` returns is a block of IPv6 addresses
followed by a block of IPv4 addresses when v6 is enabled, and a block of IPv4
addresses followed by a block of IPv6 addresses otherwise, whichever lookup
reports first (`w.aaaaFirst`) and whatever the servers answer; `ParseAddr` is
taken to return IPv4 or IPv6 addresses only. -/
theorem LookupContextHost_order (w : World) (tnet : Gvisor) (host : GoString)
    (hparse : ∀ s ip, w.netip.ParseAddr s = some ip → ip.Is4 = true ∨ ip.Is6 = true) :
    ∃ l6 l4 : List Addr, (∀ a ∈ l6, a.Is6 = true) ∧ (∀ a ∈ l4, a.Is4 = true)
      ∧ (LookupContextHost w tnet host).addrs =
          (if tnet.hasV6 = true then l6 ++ l4 else l4 ++ l6).map w.netip.String := by
  unfold LookupContextHost
  by_cases h1 : host = [] ∨ (!tnet.hasV6 && !tnet.hasV4) = true
  · rw [if_pos h1]
    exact ⟨[], [], by simp, by simp, by simp⟩
  · rw [if_neg h1]
    cases hp : w.netip.ParseAddr (host.take (zoneLen host)) with
    | some ip =>
      rcases hparse _ ip hp with h | h
      · refine ⟨[], [ip], by simp, by simpa using h, ?_⟩
        cases tnet.hasV6 <;> simp
      · refine ⟨[ip], [], by simpa using h, by simp, ?_⟩
        cases tnet.hasV6 <;> simp
    | none =>
      by_cases h2 : (!isDomainName host) = true
      · simp only [h2, if_true]
        exact ⟨[], [], by simp, by simp, by simp⟩
      · simp only [h2, if_false]
        obtain ⟨h4', h6'⟩ := foldl_receive_families host
          (List.map Prod.fst
            (if w.aaaaFirst = true then
              ((if tnet.hasV4 = true then [tryOneName w tnet (host ++ [46]) TypeA] else []) ++
                if tnet.hasV6 = true then [tryOneName w tnet (host ++ [46]) TypeAAAA] else []).reverse
            else
              (if tnet.hasV4 = true then [tryOneName w tnet (host ++ [46]) TypeA] else []) ++
                if tnet.hasV6 = true then [tryOneName w tnet (host ++ [46]) TypeAAAA] else []))
          ⟨[], [], none⟩ (by simp) (by simp)
        exact finish_order w.netip.String tnet.hasV6 _ _ h4' h6'

/-- Every call of `exchange` the server loop makes is for the question it was
given. -/
theorem tryServers_asked (w : World) (name : GoString) (q : Question) (qtype : Nat)
    (servers : List Addr) (st : TryState) (hst : ∀ e ∈ st.asked, e.2 = q) :
    match tryServers w name q qtype servers st with
    | Sum.inl r => ∀ e ∈ r.2, e.2 = q
    | Sum.inr st1 => ∀ e ∈ st1.asked, e.2 = q := by
  induction servers generalizing st with
  | nil => simpa [tryServers] using hst
  | cons server rest ih =>
    have hasked : ∀ e ∈ st.asked ++ [(server, q)], e.2 = q := by
      intro e he
      rcases List.mem_append.mp he with he | he
      · exact hst e he
      · simp only [List.mem_singleton] at he
        rw [he]
    simp only [tryServers]
    cases hex : w.exchange st.calls server q with
    | error err => exact ih _ hasked
    | ok ph =>
      obtain ⟨p, h⟩ := ph
      simp only
      cases hch : checkHeader p h with
      | some err =>
        simp only
        split_ifs
        · exact hasked
        · exact ih _ hasked
      | none =>
        simp only
        cases hsk : skipToAnswer p qtype with
        | mk p1 oerr =>
          cases oerr with
          | none => exact hasked
          | some err =>
            simp only
            split_ifs
            · exact hasked
            · exact ih _ hasked

/-- Every call of `exchange` made by the passes is for the question given. -/
theorem tryPasses_asked (w : World) (tnet : Gvisor) (name : GoString) (q : Question)
    (qtype : Nat) (passes : Nat) (st : TryState) (hst : ∀ e ∈ st.asked, e.2 = q) :
    ∀ e ∈ (tryPasses w tnet name q qtype passes st).2, e.2 = q := by
  induction passes generalizing st with
  | zero => simpa [tryPasses] using hst
  | succ n ih =>
    have h := tryServers_asked w name q qtype tnet.dnsServers st hst
    simp only [tryPasses]
    cases hts : tryServers w name q qtype tnet.dnsServers st with
    | inl r => rw [hts] at h; exact h
    | inr st1 => rw [hts] at h; exact ih st1 h

/-- Every query `tryOneName` sends has the type it was asked to look up. -/
theorem tryOneName_asked (w : World) (tnet : Gvisor) (name : GoString) (qtype : Nat) :
    ∀ e ∈ (tryOneName w tnet name qtype).2, e.2.Typ = qtype := by
  simp only [tryOneName]
  cases NewName name with
  | none => simp
  | some n =>
    intro e he
    have := tryPasses_asked w tnet name ⟨n, qtype, ClassINET⟩ qtype 2 ⟨0, none, []⟩
      (by simp) e he
    rw [this]

/-- The records `skipToAnswer` leaves in the parser are records it was given. -/
theorem skipToAnswerLoop_answers (malformed : Bool) (qtype : Nat) (rs : List Resource) :
    ∀ r ∈ (skipToAnswerLoop malformed qtype rs).1.answers, r ∈ rs := by
  induction rs with
  | nil => simp only [skipToAnswerLoop]; split_ifs <;> simp
  | cons r0 rest ih =>
    simp only [skipToAnswerLoop]
    split_ifs
    · exact fun r hr => hr
    · exact fun r hr => List.mem_cons_of_mem r0 (ih r hr)
    · exact fun r hr => hr

/-- The records in the parser a server loop returns come from a response of
`exchange`. -/
theorem tryServers_answers (w : World) (name : GoString) (q : Question) (qtype : Nat)
    (P : Resource → Prop)
    (hP : ∀ n server q1 p h, w.exchange n server q1 = .ok (p, h) → ∀ r ∈ p.answers, P r)
    (servers : List Addr) (st : TryState) :
    ∀ res, tryServers w name q qtype servers st = Sum.inl res →
      ∀ r ∈ res.1.p.answers, P r := by
  induction servers generalizing st with
  | nil => simp [tryServers]
  | cons server rest ih =>
    intro res
    simp only [tryServers]
    cases hex : w.exchange st.calls server q with
    | error err => exact ih _ res
    | ok ph =>
      obtain ⟨p, h⟩ := ph
      have hp := hP _ _ _ _ _ hex
      simp only
      cases hch : checkHeader p h with
      | some err =>
        simp only
        split_ifs
        · intro hres
          simp only [Sum.inl.injEq] at hres
          subst hres
          exact hp
        · exact ih _ res
      | none =>
        simp only
        have hsub := skipToAnswerLoop_answers p.malformed qtype p.answers
        cases hsk : skipToAnswer p qtype with
        | mk p1 oerr =>
          have hp1 : ∀ r ∈ p1.answers, P r := by
            intro r hr
            simp only [skipToAnswer] at hsk
            rw [hsk] at hsub
            exact hp r (hsub r hr)
          cases oerr with
          | none =>
            intro hres
            simp only [Sum.inl.injEq] at hres
            subst hres
            exact hp1
          | some err =>
            simp only
            split_ifs
            · intro hres
              simp only [Sum.inl.injEq] at hres
              subst hres
              exact hp1
            · exact ih _ res

/-- The records in the parser `tryOneName` returns come from a response of
`exchange`. -/
theorem tryOneName_answers (w : World) (tnet : Gvisor) (name : GoString) (qtype : Nat)
    (P : Resource → Prop)
    (hP : ∀ n server q1 p h, w.exchange n server q1 = .ok (p, h) → ∀ r ∈ p.answers, P r) :
    ∀ r ∈ (tryOneName w tnet name qtype).1.p.answers, P r := by
  have hpass : ∀ (q : Question) (passes : Nat) (st : TryState),
      ∀ r ∈ (tryPasses w tnet name q qtype passes st).1.p.answers, P r := by
    intro q passes
    induction passes with
    | zero => intro st; simp [tryPasses, Parser.zero]
    | succ n ih =>
      intro st
      simp only [tryPasses]
      cases hts : tryServers w name q qtype tnet.dnsServers st with
      | inl res => exact tryServers_answers w name q qtype P hP _ st res hts
      | inr st1 => exact ih st1
  simp only [tryOneName]
  cases NewName name with
  | none => simp [Parser.zero]
  | some n => exact hpass _ 2 _

/-- The answer loop adds nothing to `addrsV6` when no record is of type AAAA. -/
theorem collectAnswers_no_aaaa (host server : GoString) (malformed : Bool)
    (rs : List Resource) (acc : Collected) (h : ∀ r ∈ rs, r.typ ≠ TypeAAAA) :
    (collectAnswers host server malformed rs acc).addrsV6 = acc.addrsV6 := by
  induction rs generalizing acc with
  | nil => simp only [collectAnswers]; split_ifs <;> rfl
  | cons r rest ih =>
    have hr := h r (List.mem_cons_self r rest)
    have hrest : ∀ r1 ∈ rest, r1.typ ≠ TypeAAAA :=
      fun r1 h1 => h r1 (List.mem_cons_of_mem r h1)
    simp only [collectAnswers]
    split_ifs
    · cases r.body with
      | none => rfl
      | some a => exact ih _ hrest
    · exact ih _ hrest
    · rfl

/-- The sample parser accepts IPv4 and IPv6 addresses only. -/
theorem sampleNetIP_valid (s : GoString) (ip : Addr)
    (h : sampleNetIP.ParseAddr s = some ip) : ip.Is4 = true ∨ ip.Is6 = true := by
  simp only [sampleNetIP] at h
  split_ifs at h <;> simp only [Option.some.injEq] at h <;> subst h
  · exact Or.inl rfl
  · exact Or.inr rfl

/-- C8 in a world where both lookups return addresses, with both families
enabled: the list returned is a block of IPv6 addresses followed by a block
of IPv4 addresses, here `::1`, `::1`, `1.2.3.4` whichever lookup reports
first. -/
theorem LookupContextHost_order_witness :
    (∃ l6 l4 : List Addr, (∀ a ∈ l6, a.Is6 = true) ∧ (∀ a ∈ l4, a.Is4 = true)
      ∧ (LookupContextHost mixedWorld ⟨true, true, [Addr.v4 [8, 8, 8, 8]]⟩ hostAB).addrs =
          (if (⟨true, true, [Addr.v4 [8, 8, 8, 8]]⟩ : Gvisor).hasV6 = true then l6 ++ l4
            else l4 ++ l6).map mixedWorld.netip.String)
      ∧ (LookupContextHost mixedWorld ⟨true, true, [Addr.v4 [8, 8, 8, 8]]⟩ hostAB).addrs
          = [[58, 58, 49], [58, 58, 49], [49, 46, 50, 46, 51, 46, 52]]
      ∧ (LookupContextHost mixedWorldV6First ⟨true, true, [Addr.v4 [8, 8, 8, 8]]⟩ hostAB).addrs
          = [[58, 58, 49], [58, 58, 49], [49, 46, 50, 46, 51, 46, 52]] :=
  ⟨LookupContextHost_order mixedWorld ⟨true, true, [Addr.v4 [8, 8, 8, 8]]⟩ hostAB
    sampleNetIP_valid, by decide, by decide⟩

/-- C9 as stated fails.  With only IPv4 enabled, a response to the type-A
query that carries an AAAA record after its A record puts the IPv6 address
`::1` in the returned list; and for the literal `::1` the returned list
holds that IPv6 address with no query made. -/
theorem LookupContextHost_v4_only_counterexample :
    (LookupContextHost mixedWorld ⟨true, false, [Addr.v4 [8, 8, 8, 8]]⟩ hostAB).addrs
        = [mixedWorld.netip.String (Addr.v4 [1, 2, 3, 4]),
           mixedWorld.netip.String (Addr.v6 [0, 0, 0, 0, 0, 0, 0, 0, 0, 0, 0, 0, 0, 0, 0, 1] [])]
      ∧ (LookupContextHost mixedWorld ⟨true, false, [Addr.v4 [8, 8, 8, 8]]⟩ hostAB).err = none
      ∧ (LookupContextHost mixedWorld ⟨true, false, [Addr.v4 [8, 8, 8, 8]]⟩ hostAB).asked.map
          (fun e => e.2.Typ) = [TypeA]
      ∧ (Addr.v6 [0, 0, 0, 0, 0, 0, 0, 0, 0, 0, 0, 0, 0, 0, 0, 1] []).Is4 = false
      ∧ (LookupContextHost mixedWorld ⟨true, false, [Addr.v4 [8, 8, 8, 8]]⟩ [58, 58, 49]).addrs
        = [mixedWorld.netip.String (Addr.v6 [0, 0, 0, 0, 0, 0, 0, 0, 0, 0, 0, 0, 0, 0, 0, 1] [])] := by
  decide

/-- `lastIndexByte` finds nothing in a string without the byte. -/
theorem lastIndexByte_none (s : GoString) (c : Nat) (h : c ∉ s) :
    lastIndexByte s c = none := by
  induction s with
  | nil => rfl
  | cons d rest ih =>
    simp only [List.mem_cons, not_or] at h
    simp only [lastIndexByte, ih h.2]
    rw [if_neg (fun hd => h.1 hd.symm)]

/-- `lastIndexByte` finds the last occurrence of the byte. -/
theorem lastIndexByte_append (pre suf : GoString) (c : Nat) (h : c ∉ suf) :
    lastIndexByte (pre ++ c :: suf) c = some pre.length := by
  induction pre with
  | nil => simp [lastIndexByte, lastIndexByte_none suf c h]
  | cons d rest ih => simp [lastIndexByte, ih]

/-- C10 as stated fails: for a resolver with neither family enabled the
literal `1.2.3.4`, which parses as an address, gets the not-found error and
no address. -/
theorem LookupContextHost_literal_counterexample :
    mixedWorld.netip.ParseAddr
        (([49, 46, 50, 46, 51, 46, 52] : GoString).take (zoneLen [49, 46, 50, 46, 51, 46, 52]))
        = some (Addr.v4 [1, 2, 3, 4])
      ∧ (LookupContextHost mixedWorld ⟨false, false, [Addr.v4 [8, 8, 8, 8]]⟩
          [49, 46, 50, 46, 51, 46, 52]).addrs = []
      ∧ (LookupContextHost mixedWorld ⟨false, false, [Addr.v4 [8, 8, 8, 8]]⟩
          [49, 46, 50, 46, 51, 46, 52]).err
          = some (notFoundError [49, 46, 50, 46, 51, 46, 52]) := by
  decide

/-- C10, amended: for every resolver with at least one address family enabled
and every non-empty host that parses as an IP address once its zone suffix is
cut off, `LookupContextHost` returns the one-element list holding the text of
that address, no error, and makes no DNS exchange.  The zone suffix is the
text from the last `%`, cut off only when the host holds a `:`; otherwise the
whole host is parsed. -/
theorem LookupContextHost_literal (w : World) (tnet : Gvisor) (host : GoString) (ip : Addr)
    (hfam : tnet.hasV4 = true ∨ tnet.hasV6 = true) (hne : host ≠ [])
    (hip : w.netip.ParseAddr (host.take (zoneLen host)) = some ip) :
    (LookupContextHost w tnet host).addrs = [w.netip.String ip]
      ∧ (LookupContextHost w tnet host).err = none
      ∧ (LookupContextHost w tnet host).asked = []
      ∧ (58 ∈ host → ∀ pre suf, host = pre ++ 37 :: suf → 37 ∉ suf →
          host.take (zoneLen host) = pre)
      ∧ ((58 ∉ host ∨ 37 ∉ host) → host.take (zoneLen host) = host) := by
  have h1 : ¬ (host = [] ∨ (!tnet.hasV6 && !tnet.hasV4) = true) := by
    rintro (h | h)
    · exact hne h
    · rcases hfam with hf | hf <;> simp [hf] at h
  refine ⟨?_, ?_, ?_, ?_, ?_⟩
  · simp only [LookupContextHost, if_neg h1, hip]
  · simp only [LookupContextHost, if_neg h1, hip]
  · simp only [LookupContextHost, if_neg h1, hip]
  · intro hcolon pre suf hsplit hsuf
    simp only [zoneLen, if_pos hcolon]
    rw [hsplit, lastIndexByte_append pre suf 37 hsuf]
    simp
  · rintro (h | h)
    · simp [zoneLen, h]
    · simp only [zoneLen, lastIndexByte_none host 37 h]
      split_ifs <;> simp

/-- C10, amended, at the host `::1%a` with only IPv4 enabled: the zone is cut
off and the literal `::1` is returned. -/
theorem LookupContextHost_literal_witness :
    ([58, 58, 49, 37, 97] : GoString) ≠ []
      ∧ mixedWorld.netip.ParseAddr
          (([58, 58, 49, 37, 97] : GoString).take (zoneLen [58, 58, 49, 37, 97]))
          = some (Addr.v6 [0, 0, 0, 0, 0, 0, 0, 0, 0, 0, 0, 0, 0, 0, 0, 1] [])
      ∧ (LookupContextHost mixedWorld ⟨true, false, []⟩ [58, 58, 49, 37, 97]).addrs
          = [[58, 58, 49]]
      ∧ (LookupContextHost mixedWorld ⟨true, false, []⟩ [58, 58, 49, 37, 97]).asked = [] :=
  ⟨by decide, by decide,
    (LookupContextHost_literal mixedWorld ⟨true, false, []⟩ [58, 58, 49, 37, 97]
      (Addr.v6 [0, 0, 0, 0, 0, 0, 0, 0, 0, 0, 0, 0, 0, 0, 0, 1] []) (Or.inl rfl)
      (by decide) (by decide)).1,
    (LookupContextHost_literal mixedWorld ⟨true, false, []⟩ [58, 58, 49, 37, 97]
      (Addr.v6 [0, 0, 0, 0, 0, 0, 0, 0, 0, 0, 0, 0, 0, 0, 0, 1] []) (Or.inl rfl)
      (by decide) (by decide)).2.2.1⟩

/-! ## Properties: the per-family lookup -/

/-- The server loop, one turn at a time. -/
theorem tryServers_cons (w : World) (name : GoString) (q : Question) (qtype : Nat)
    (server : Addr) (rest : List Addr) (st : TryState) :
    tryServers w name q qtype (server :: rest) st =
      match attempt w name q qtype st.calls server with
      | Sum.inl r => Sum.inl (r, st.asked ++ [(server, q)])
      | Sum.inr e =>
        tryServers w name q qtype rest
          ⟨st.calls + 1, some (.dns e), st.asked ++ [(server, q)]⟩ := by
  simp only [tryServers, attempt]
  cases hex : w.exchange st.calls server q with
  | error err => rfl
  | ok ph =>
    obtain ⟨p, h⟩ := ph
    simp only
    cases hch : checkHeader p h with
    | some err =>
      simp only
      split_ifs <;> rfl
    | none =>
      simp only
      cases hsk : skipToAnswer p qtype with
      | mk p1 oerr =>
        cases oerr with
        | none => rfl
        | some err =>
          simp only
          split_ifs <;> rfl

/-- While the turns go on, the server loop only counts the calls, keeps the
last error and records the servers asked. -/
theorem tryServers_prefix (w : World) (name : GoString) (q : Question) (qtype : Nat)
    (e : Nat → DNSError) (k : Nat) (all : List Addr) (st : TryState) (hk : k ≤ all.length)
    (hcont : ∀ i (hi : i < all.length), i < k →
      attempt w name q qtype (st.calls + i) all[i] = Sum.inr (e i)) :
    tryServers w name q qtype all st =
      tryServers w name q qtype (all.drop k)
        ⟨st.calls + k, if k = 0 then st.lastErr else some (.dns (e (k - 1))),
          st.asked ++ (all.take k).map (fun s => (s, q))⟩ := by
  induction k generalizing all st e with
  | zero => simp
  | succ k ih =>
    cases all with
    | nil => simp at hk
    | cons server rest =>
      have h0 := hcont 0 (by simp) (by omega)
      simp only [Nat.add_zero, List.getElem_cons_zero] at h0
      rw [tryServers_cons, h0]
      simp only
      rw [ih (fun i => e (i + 1)) rest _ (by simpa using hk)]
      · simp only [List.drop_succ_cons, List.take_succ_cons, List.map_cons,
          List.append_assoc, List.singleton_append, Nat.add_succ_sub_one]
        congr 2
        · omega
        · cases k with
          | zero => rfl
          | succ k => simp
      · intro i hi hik
        have := hcont (i + 1) (by simpa using hi) (by omega)
        simp only [List.getElem_cons_succ] at this
        rw [← this]
        congr 1
        show st.calls + 1 + i = st.calls + (i + 1)
        omega

/-- The two passes of `tryOneName` are one run of the server loop over the
server list written twice. -/
theorem tryServers_append (w : World) (name : GoString) (q : Question) (qtype : Nat)
    (a b : List Addr) (st : TryState) :
    tryServers w name q qtype (a ++ b) st =
      match tryServers w name q qtype a st with
      | Sum.inl r => Sum.inl r
      | Sum.inr st1 => tryServers w name q qtype b st1 := by
  induction a generalizing st with
  | nil => simp [tryServers]
  | cons server rest ih =>
    simp only [List.cons_append, tryServers_cons]
    cases attempt w name q qtype st.calls server with
    | inl r => rfl
    | inr e => exact ih _

/-- `tryOneName` on a name of at most 255 bytes, as a run over the server
list written twice. -/
theorem tryOneName_eq (w : World) (tnet : Gvisor) (name : GoString) (qtype : Nat)
    (hlen : name.length ≤ 255) :
    tryOneName w tnet name qtype =
      match tryServers w name (questionOf name qtype) qtype
          (tnet.dnsServers ++ tnet.dnsServers) ⟨0, none, []⟩ with
      | Sum.inl r => r
      | Sum.inr st => (⟨Parser.zero, [], st.lastErr⟩, st.asked) := by
  have hn : NewName name = some ⟨name ++ List.replicate (255 - name.length) 0,
      name.length % 256⟩ := by
    simp only [NewName]
    rw [if_neg (by omega)]
  simp only [tryOneName, hn, tryPasses, questionOf, tryServers_append]
  cases tryServers w name ⟨⟨name ++ List.replicate (255 - name.length) 0,
      name.length % 256⟩, qtype, ClassINET⟩ qtype tnet.dnsServers ⟨0, none, []⟩ with
  | inl r => rfl
  | inr st1 => rfl

/-- C11 as stated fails: with an empty server list no attempt is made and
`tryOneName` returns the zero parser with a nil error. -/
theorem tryOneName_no_server_counterexample :
    (tryOneName mixedWorld ⟨true, false, []⟩ (hostAB ++ [46]) TypeA).1.error = none
      ∧ (tryOneName mixedWorld ⟨true, false, []⟩ (hostAB ++ [46]) TypeA).1.p = Parser.zero
      ∧ (tryOneName mixedWorld ⟨true, false, []⟩ (hostAB ++ [46]) TypeA).2 = [] := by
  decide

/-- C11, amended: for every non-empty server list and every name of at most
255 bytes, when every attempt of the two passes (attempt `i` of the list
written twice) goes on to the next one, neither returning an answer of the
type asked nor no-such-host, `tryOneName` returns the zero parser and a
non-nil error, the one left by the last attempt, at the last server of the
second pass; every server was asked twice. -/
theorem tryOneName_last_error (w : World) (tnet : Gvisor) (name : GoString) (qtype : Nat)
    (e : Nat → DNSError) (hne : tnet.dnsServers ≠ []) (hlen : name.length ≤ 255)
    (hcont : ∀ i (hi : i < (tnet.dnsServers ++ tnet.dnsServers).length),
      attempt w name (questionOf name qtype) qtype i
        (tnet.dnsServers ++ tnet.dnsServers)[i] = Sum.inr (e i)) :
    (tryOneName w tnet name qtype).1.error
        = some (.dns (e (2 * tnet.dnsServers.length - 1)))
      ∧ (tryOneName w tnet name qtype).1.p = Parser.zero
      ∧ (tryOneName w tnet name qtype).2
        = (tnet.dnsServers ++ tnet.dnsServers).map (fun s => (s, questionOf name qtype)) := by
  have hpos : 0 < tnet.dnsServers.length := List.length_pos.mpr hne
  have hrun := tryServers_prefix w name (questionOf name qtype) qtype e
    (tnet.dnsServers ++ tnet.dnsServers).length (tnet.dnsServers ++ tnet.dnsServers)
    ⟨0, none, []⟩ (le_refl _) (fun i hi _ => by simpa using hcont i hi)
  have hlast : (tnet.dnsServers ++ tnet.dnsServers).length - 1
      = 2 * tnet.dnsServers.length - 1 := by
    simp only [List.length_append]; omega
  have hres : tryOneName w tnet name qtype =
      (⟨Parser.zero, [], some (.dns (e (2 * tnet.dnsServers.length - 1)))⟩,
        (tnet.dnsServers ++ tnet.dnsServers).map (fun s => (s, questionOf name qtype))) := by
    rw [tryOneName_eq w tnet name qtype hlen, hrun, List.drop_length, List.take_length,
      if_neg (by simp only [List.length_append]; omega), hlast]
    simp only [tryServers, List.nil_append]
  rw [hres]
  exact ⟨rfl, rfl, rfl⟩

/-- C11, amended, in a world where every exchange times out, with one
server: the error returned is the timeout of the second attempt. -/
theorem tryOneName_last_error_witness :
    (⟨true, false, [Addr.v4 [8, 8, 8, 8]]⟩ : Gvisor).dnsServers ≠ []
      ∧ (hostAB ++ [46]).length ≤ 255
      ∧ (tryOneName deadWorld ⟨true, false, [Addr.v4 [8, 8, 8, 8]]⟩ (hostAB ++ [46]) TypeA).1.error
        = some (.dns ⟨"i/o timeout", hostAB ++ [46], [], true, false, false⟩) :=
  ⟨by decide, by decide,
    (tryOneName_last_error deadWorld ⟨true, false, [Addr.v4 [8, 8, 8, 8]]⟩ (hostAB ++ [46])
      TypeA (fun _ => ⟨"i/o timeout", hostAB ++ [46], [], true, false, false⟩)
      (by decide) (by decide) (fun i hi => by
        simp only [List.cons_append, List.nil_append, List.length_cons, List.length_nil] at hi
        have hi2 : i = 0 ∨ i = 1 := by omega
        rcases hi2 with rfl | rfl <;> rfl)).1⟩

/-- Taking one more element adds the element at that index. -/
theorem take_succ_map {α β : Type} (f : α → β) (l : List α) (k : Nat) (hk : k < l.length) :
    (l.take k).map f ++ [f l[k]] = (l.take (k + 1)).map f := by
  rw [List.take_succ, List.getElem?_eq_getElem hk]
  simp only [Option.toList_some, List.map_append, List.map_cons, List.map_nil]

/-- C12: as soon as the response of a server carries RCODE NXDOMAIN, the
attempts before it having gone on, `tryOneName` returns the parser of that
response, the text of that server and a DNS error "no such host" marked
not-found that names the server; the servers asked are those up to this one,
whatever the later exchanges would give. -/
theorem tryOneName_nxdomain (w : World) (tnet : Gvisor) (name : GoString) (qtype : Nat)
    (e : Nat → DNSError) (k : Nat) (p : Parser) (h : Header) (hlen : name.length ≤ 255)
    (hk : k < (tnet.dnsServers ++ tnet.dnsServers).length)
    (hcont : ∀ i (hi : i < (tnet.dnsServers ++ tnet.dnsServers).length), i < k →
      attempt w name (questionOf name qtype) qtype i
        (tnet.dnsServers ++ tnet.dnsServers)[i] = Sum.inr (e i))
    (hex : w.exchange k (tnet.dnsServers ++ tnet.dnsServers)[k] (questionOf name qtype)
      = .ok (p, h))
    (hrc : h.RCode = RCodeNameError) :
    checkHeader p h = some .errNoSuchHost
      ∧ tryOneName w tnet name qtype =
        (⟨p, w.netip.String (tnet.dnsServers ++ tnet.dnsServers)[k],
            some (.dns ⟨"no such host", name,
              w.netip.String (tnet.dnsServers ++ tnet.dnsServers)[k], false, false, true⟩)⟩,
          ((tnet.dnsServers ++ tnet.dnsServers).take (k + 1)).map
            (fun s => (s, questionOf name qtype))) := by
  have hch : checkHeader p h = some .errNoSuchHost := by simp [checkHeader, hrc]
  refine ⟨hch, ?_⟩
  have hrun := tryServers_prefix w name (questionOf name qtype) qtype e k
    (tnet.dnsServers ++ tnet.dnsServers) ⟨0, none, []⟩ (le_of_lt hk)
    (fun i hi hik => by simpa using hcont i hi hik)
  rw [tryOneName_eq w tnet name qtype hlen, hrun, List.drop_eq_getElem_cons hk,
    tryServers_cons]
  have hat : attempt w name (questionOf name qtype) qtype (0 + k)
      (tnet.dnsServers ++ tnet.dnsServers)[k]
      = Sum.inl ⟨p, w.netip.String (tnet.dnsServers ++ tnet.dnsServers)[k],
          some (.dns ⟨"no such host", name,
            w.netip.String (tnet.dnsServers ++ tnet.dnsServers)[k], false, false, true⟩)⟩ := by
    simp only [attempt, Nat.zero_add, hex, hch]
    simp [mkDNSError, Err.Error]
  have htake : ((tnet.dnsServers ++ tnet.dnsServers).take k).map
        (fun s => (s, questionOf name qtype))
        ++ [((tnet.dnsServers ++ tnet.dnsServers)[k], questionOf name qtype)]
      = ((tnet.dnsServers ++ tnet.dnsServers).take (k + 1)).map
        (fun s => (s, questionOf name qtype)) := by
    exact take_succ_map _ _ k hk
  rw [hat]
  simp only [List.nil_append]
  rw [htake]

/-- C12 in a world whose first exchange times out and whose second answers
NXDOMAIN, with two servers: the second server is named and no third exchange
is made. -/
theorem tryOneName_nxdomain_witness :
    (tryOneName nxWorld ⟨true, false, [Addr.v4 [8, 8, 8, 8], Addr.v4 [1, 2, 3, 4]]⟩
        (hostAB ++ [46]) TypeA).1.error
        = some (.dns ⟨"no such host", hostAB ++ [46], [49, 46, 50, 46, 51, 46, 52],
            false, false, true⟩)
      ∧ (tryOneName nxWorld ⟨true, false, [Addr.v4 [8, 8, 8, 8], Addr.v4 [1, 2, 3, 4]]⟩
        (hostAB ++ [46]) TypeA).2.length = 2 := by
  have h := (tryOneName_nxdomain nxWorld
    ⟨true, false, [Addr.v4 [8, 8, 8, 8], Addr.v4 [1, 2, 3, 4]]⟩ (hostAB ++ [46]) TypeA
    (fun _ => ⟨"i/o timeout", hostAB ++ [46], [], true, false, false⟩) 1
    ⟨[], false⟩ nxHeader (by decide) (by decide)
    (fun i hi hik => by
      have hi0 : i = 0 := by omega
      subst hi0
      rfl)
    rfl rfl).2
  rw [h]
  exact ⟨rfl, rfl⟩

/-- C13 as stated fails: for a header with RCODE success and the
authoritative bit unset but recursion available, and an empty answer section,
`checkHeader` returns nil; `tryOneName` then returns that response at once
as not-found and does not ask the second server. -/
theorem checkHeader_lame_counterexample :
    sampleHeader.RCode = RCodeSuccess ∧ sampleHeader.Authoritative = false
      ∧ (⟨[], false⟩ : Parser).AnswerHeader = .sectionDone
      ∧ checkHeader ⟨[], false⟩ sampleHeader = none
      ∧ (tryOneName emptyAnswerWorld ⟨true, false, [Addr.v4 [8, 8, 8, 8], Addr.v4 [1, 2, 3, 4]]⟩
          (hostAB ++ [46]) TypeA).1.error
        = some (.dns ⟨"no such host", hostAB ++ [46], [], false, false, true⟩)
      ∧ (tryOneName emptyAnswerWorld ⟨true, false, [Addr.v4 [8, 8, 8, 8], Addr.v4 [1, 2, 3, 4]]⟩
          (hostAB ++ [46]) TypeA).2.length = 1 := by
  decide

/-- C13, amended: for every response header with RCODE success and both the
authoritative bit and the recursion-available bit unset, whose answer section
is empty, `checkHeader` returns `errLameReferral`; the server loop of
`tryOneName` does not return that response: it records the error "lame
referral" for that server and goes on with the next server. -/
theorem checkHeader_lame (p : Parser) (h : Header) (hrc : h.RCode = RCodeSuccess)
    (haa : h.Authoritative = false) (hra : h.RecursionAvailable = false)
    (hempty : p.AnswerHeader = .sectionDone) :
    checkHeader p h = some .errLameReferral
      ∧ ∀ (w : World) (name : GoString) (q : Question) (qtype : Nat) (server : Addr)
          (rest : List Addr) (st : TryState),
          w.exchange st.calls server q = .ok (p, h) →
          tryServers w name q qtype (server :: rest) st =
            tryServers w name q qtype rest
              ⟨st.calls + 1,
                some (.dns ⟨"lame referral", name, w.netip.String server, false, false, false⟩),
                st.asked ++ [(server, q)]⟩ := by
  have hch : checkHeader p h = some .errLameReferral := by
    simp [checkHeader, hrc, haa, hra, hempty, RCodeSuccess, RCodeNameError]
  refine ⟨hch, ?_⟩
  intro w name q qtype server rest st hex
  have hat : attempt w name q qtype st.calls server
      = Sum.inr ⟨"lame referral", name, w.netip.String server, false, false, false⟩ := by
    simp only [attempt, hex, hch]
    simp [mkDNSError, Err.Error]
  rw [tryServers_cons, hat]

/-- C13, amended, in a world whose servers all answer with a lame referral:
the server loop runs past the server and leaves the error "lame referral". -/
theorem checkHeader_lame_witness :
    checkHeader ⟨[], false⟩ lameHeader = some .errLameReferral
      ∧ tryServers lameWorld (hostAB ++ [46]) (questionOf (hostAB ++ [46]) TypeA) TypeA
          [Addr.v4 [8, 8, 8, 8]] ⟨0, none, []⟩
        = Sum.inr ⟨1, some (.dns ⟨"lame referral", hostAB ++ [46], [], false, false, false⟩),
            [(Addr.v4 [8, 8, 8, 8], questionOf (hostAB ++ [46]) TypeA)]⟩ :=
  ⟨(checkHeader_lame ⟨[], false⟩ lameHeader rfl rfl rfl rfl).1,
   (checkHeader_lame ⟨[], false⟩ lameHeader rfl rfl rfl rfl).2 lameWorld (hostAB ++ [46])
      (questionOf (hostAB ++ [46]) TypeA) TypeA (Addr.v4 [8, 8, 8, 8]) [] ⟨0, none, []⟩ rfl⟩

/-! ## Properties: address translation -/

/-- C17: `convertToFullAddr` round-trips.  For every valid IPv4 or IPv6
address `a` without zone and every port `p` up to 65535 the full address has
NIC 1, port `p` and the raw bytes from which `netip.AddrFromSlice` gives `a`
back; the protocol number is the IPv4 one exactly when `a` is an IPv4
address and the IPv6 one otherwise. -/
theorem convertToFullAddr_roundtrip (a : Addr) (p : Nat) (hvalid : a.validNoZone = true)
    (_hp : p ≤ 65535) :
    (convertToFullAddr ⟨a, p⟩).1.NIC = 1
      ∧ (convertToFullAddr ⟨a, p⟩).1.Port = p
      ∧ AddrFromSlice (convertToFullAddr ⟨a, p⟩).1.Addr.bytes = some a
      ∧ ((convertToFullAddr ⟨a, p⟩).2 = ipv4ProtocolNumber ↔ a.Is4 = true)
      ∧ ((convertToFullAddr ⟨a, p⟩).2 = ipv6ProtocolNumber ↔ a.Is4 = false) := by
  cases a with
  | zero => simp [Addr.validNoZone] at hvalid
  | v4 b =>
    simp only [Addr.validNoZone, decide_eq_true_eq] at hvalid
    simp [convertToFullAddr, tcpipAddrFromSlice, AddrFromSlice, Addr.AsSlice, Addr.Is4,
      hvalid, ipv4ProtocolNumber, ipv6ProtocolNumber]
  | v6 b zone =>
    simp only [Addr.validNoZone, Bool.and_eq_true, decide_eq_true_eq] at hvalid
    obtain ⟨hlen, rfl⟩ := hvalid
    simp [convertToFullAddr, tcpipAddrFromSlice, AddrFromSlice, Addr.AsSlice, Addr.Is4,
      hlen, ipv4ProtocolNumber, ipv6ProtocolNumber]

/-- C17 at the address 1.2.3.4 and the port 80. -/
theorem convertToFullAddr_roundtrip_witness :
    (Addr.v4 [1, 2, 3, 4]).validNoZone = true ∧ 80 ≤ 65535
      ∧ convertToFullAddr ⟨Addr.v4 [1, 2, 3, 4], 80⟩ = (⟨1, ⟨[1, 2, 3, 4]⟩, 80⟩, 2048)
      ∧ AddrFromSlice (convertToFullAddr ⟨Addr.v4 [1, 2, 3, 4], 80⟩).1.Addr.bytes
        = some (Addr.v4 [1, 2, 3, 4]) :=
  ⟨by decide, by decide, by decide,
    (convertToFullAddr_roundtrip (Addr.v4 [1, 2, 3, 4]) 80 (by decide) (by decide)).2.2.1⟩

/-! ## Properties: the dial engine -/

/-- `partialDeadline` panics for a count of zero only. -/
theorem partialDeadline_ne_none (now deadline : Time) (n : Int) (hn : n ≠ 0) :
    partialDeadline now deadline n ≠ none := by
  simp only [partialDeadline]
  split_ifs <;> simp

/-- The only error of `partialDeadline` is `errTimeout`. -/
theorem partialDeadline_err (now deadline pd : Time) (n : Int) (err : Err)
    (h : partialDeadline now deadline n = some (pd, some err)) : err = .errTimeout := by
  simp only [partialDeadline] at h
  split_ifs at h <;> simp at h
  exact h.2.symm

/-- Inside the candidate loop the deadline computation does not panic. -/
theorem dialDeadline_ne_none (dw : DialWorld) (ctx : Ctx) (total i : Nat) (h : i < total) :
    dialDeadline dw ctx total i ≠ none := by
  simp only [dialDeadline]
  cases ctx.deadline with
  | none => simp
  | some deadline =>
    simp only
    have hn : ((total : Int) - (i : Int)) ≠ 0 := by omega
    cases hpd : partialDeadline (dw.now i) deadline ((total : Int) - (i : Int)) with
    | none => exact absurd hpd (partialDeadline_ne_none _ _ _ hn)
    | some r =>
      obtain ⟨pd, oerr⟩ := r
      cases oerr with
      | some err => simp
      | none => simp only; split_ifs <;> simp

/-- The only error of the deadline computation is `errTimeout`. -/
theorem dialDeadline_err (dw : DialWorld) (ctx : Ctx) (total i : Nat) (err : Err)
    (h : dialDeadline dw ctx total i = some (.error err)) : err = .errTimeout := by
  simp only [dialDeadline] at h
  cases hd : ctx.deadline with
  | none => simp [hd] at h
  | some deadline =>
    simp only [hd] at h
    cases hpd : partialDeadline (dw.now i) deadline ((total : Int) - (i : Int)) with
    | none => simp [hpd] at h
    | some r =>
      obtain ⟨pd, oerr⟩ := r
      cases oerr with
      | some e =>
        simp only [hpd, Option.some.injEq, Except.error.injEq] at h
        subst h
        exact partialDeadline_err _ _ _ _ _ hpd
      | none =>
        simp only [hpd] at h
        split_ifs at h <;> simp at h

/-- The candidate loop returns: it does not panic when `i` is the index of the
first candidate left. -/
theorem dialLoop_returns (dw : DialWorld) (ctx : Ctx) (scheme : Scheme) (total : Nat)
    (cands : List AddrPort) (i : Nat) (firstErr : Option DialError) (tr : List Attempt)
    (h : i + cands.length = total) :
    ∃ r, dialLoop dw ctx scheme total cands i firstErr tr = some r := by
  induction cands generalizing i firstErr tr with
  | nil => exact ⟨_, rfl⟩
  | cons addr rest ih =>
    simp only [dialLoop]
    cases dw.done i with
    | some e => exact ⟨_, rfl⟩
    | none =>
      simp only
      have hi : i < total := by simp only [List.length_cons] at h; omega
      cases hd : dialDeadline dw ctx total i with
      | none => exact absurd hd (dialDeadline_ne_none dw ctx total i hi)
      | some d =>
        cases d with
        | error err => exact ⟨_, rfl⟩
        | ok deadline =>
          simp only
          cases dw.connect i scheme addr (if scheme = .tcp then deadline else none) with
          | ok c => exact ⟨_, rfl⟩
          | error err =>
            exact ih (i + 1) _ _ (by simp only [List.length_cons] at h; omega)

/-- The package-level errors the candidate loop wraps: cancellation, timeout
and missing address. -/
theorem dialLoop_causes (dw : DialWorld) (ctx : Ctx) (scheme : Scheme) (total : Nat)
    (cands : List AddrPort) (i : Nat) (firstErr : Option DialError) (tr : List Attempt)
    (hfirst : ∀ s, firstErr = some (.opError (.sentinel s)) →
      s = .errCanceled ∨ s = .errTimeout ∨ s = .errMissingAddress)
    (c : Option Nat) (e : Option DialError) (tr1 : List Attempt)
    (h : dialLoop dw ctx scheme total cands i firstErr tr = some (c, e, tr1)) :
    ∀ s, e = some (.opError (.sentinel s)) →
      s = .errCanceled ∨ s = .errTimeout ∨ s = .errMissingAddress := by
  induction cands generalizing i firstErr tr with
  | nil =>
    simp only [dialLoop, Option.some.injEq, Prod.mk.injEq] at h
    obtain ⟨-, he, -⟩ := h
    subst he
    intro s hs
    cases firstErr with
    | none =>
      simp only [Option.getD_none, Option.some.injEq, DialError.opError.injEq,
        DialCause.sentinel.injEq] at hs
      exact Or.inr (Or.inr hs.symm)
    | some fe => exact hfirst s (by simpa using hs)
  | cons addr rest ih =>
    simp only [dialLoop] at h
    cases hdone : dw.done i with
    | some ce =>
      simp only [hdone, Option.some.injEq, Prod.mk.injEq] at h
      obtain ⟨-, he, -⟩ := h
      subst he
      intro s hs
      cases ce with
      | Canceled => simp only [ctxCause, Option.some.injEq, DialError.opError.injEq,
          DialCause.sentinel.injEq] at hs; exact Or.inl hs.symm
      | DeadlineExceeded => simp only [ctxCause, Option.some.injEq, DialError.opError.injEq,
          DialCause.sentinel.injEq] at hs; exact Or.inr (Or.inl hs.symm)
      | other ne => simp [ctxCause] at hs
    | none =>
      simp only [hdone] at h
      cases hd : dialDeadline dw ctx total i with
      | none => simp [hd] at h
      | some d =>
        cases d with
        | error err =>
          simp only [hd, Option.some.injEq, Prod.mk.injEq] at h
          obtain ⟨-, he, -⟩ := h
          subst he
          have herr := dialDeadline_err dw ctx total i err hd
          intro s hs
          cases firstErr with
          | none =>
            simp only [Option.getD_none, Option.some.injEq, DialError.opError.injEq,
              DialCause.sentinel.injEq] at hs
            exact Or.inr (Or.inl (by rw [← hs, herr]))
          | some fe => exact hfirst s (by simpa using hs)
        | ok deadline =>
          simp only [hd] at h
          cases hc : dw.connect i scheme addr (if scheme = .tcp then deadline else none) with
          | ok conn =>
            simp only [hc, Option.some.injEq, Prod.mk.injEq] at h
            obtain ⟨-, he, -⟩ := h
            subst he
            intro s hs
            simp at hs
          | error err =>
            simp only [hc] at h
            refine ih (i + 1) _ _ ?_ h
            intro s hs
            cases firstErr with
            | none => simp at hs
            | some fe => exact hfirst s (by simpa using hs)

/-- No candidate is kept when no resolved address parses to an address of an
accepted family. -/
theorem filterAddrs_nil (lib : NetIP) (acceptV4 acceptV6 : Bool) (port : Int)
    (addrs : List GoString)
    (h : ∀ s ∈ addrs, ∀ ip, lib.ParseAddr s = some ip →
      ((ip.Is4 && acceptV4) || (ip.Is6 && acceptV6)) = false) :
    filterAddrs lib acceptV4 acceptV6 port addrs = [] := by
  induction addrs with
  | nil => rfl
  | cons s rest ih =>
    have hrest := ih (fun s1 h1 => h s1 (List.mem_cons_of_mem s h1))
    simp only [filterAddrs]
    cases hp : lib.ParseAddr s with
    | none => exact hrest
    | some ip =>
      have := h s (List.mem_cons_self s rest) ip hp
      simp only [this, Bool.false_eq_true, if_false]
      exact hrest

/-- With both families accepted, a resolved address that parses to an IPv4 or
IPv6 address gives a candidate. -/
theorem filterAddrs_ne_nil (lib : NetIP) (port : Int) (addrs : List GoString)
    (h : ∃ s ∈ addrs, ∃ ip, lib.ParseAddr s = some ip ∧ (ip.Is4 = true ∨ ip.Is6 = true)) :
    filterAddrs lib true true port addrs ≠ [] := by
  induction addrs with
  | nil => obtain ⟨s, hs, -⟩ := h; simp at hs
  | cons s0 rest ih =>
    obtain ⟨s, hs, ip, hp, hfam⟩ := h
    simp only [filterAddrs]
    rcases List.mem_cons.mp hs with rfl | hs
    · rw [hp]
      simp only [Bool.and_true]
      rcases hfam with h4 | h6
      · simp [h4]
      · simp [h6]
    · have hrest := ih ⟨s, hs, ip, hp, hfam⟩
      cases lib.ParseAddr s0 with
      | none => exact hrest
      | some ip0 =>
        simp only
        split_ifs
        · simp
        · exact hrest

/-- C14: for every network with a family suffix and every target whose
resolution succeeds with a non-empty list none of whose members parses to an
address of the family the suffix selects, `DialContext` returns the dial
error wrapping "no suitable address found" and makes no connection attempt.
With no suffix both families are accepted: a target whose resolution holds
an IPv4 or IPv6 address never fails with that error. -/
theorem DialContext_no_suitable (w : World) (dw : DialWorld) (tnet : Gvisor) (c : Ctx)
    (network address : GoString) (scheme : Scheme) (suffix host : GoString) (port : Int)
    (hnet : protoSplitter network = some (scheme, suffix))
    (hsuf : suffix = [52] ∨ suffix = [54])
    (htarget : dialTarget dw scheme address = .ok (host, port))
    (herr : (LookupContextHost w tnet host).err = none)
    (hne : (LookupContextHost w tnet host).addrs ≠ [])
    (hfam : ∀ s ∈ (LookupContextHost w tnet host).addrs, ∀ ip,
      w.netip.ParseAddr s = some ip →
        if suffix = [52] then ip.Is4 = false else ip.Is6 = false) :
    DialContext w dw tnet (some c) network address =
        some ⟨none, some (.opError (.sentinel .errNoSuitableAddress)), [host],
          (LookupContextHost w tnet host).asked, []⟩
      ∧ Err.errNoSuitableAddress.Error = "no suitable address found"
      ∧ ∀ (network2 address2 host2 : GoString) (scheme2 : Scheme) (port2 : Int),
          protoSplitter network2 = some (scheme2, []) →
          dialTarget dw scheme2 address2 = .ok (host2, port2) →
          (LookupContextHost w tnet host2).err = none →
          (∃ s ∈ (LookupContextHost w tnet host2).addrs, ∃ ip,
            w.netip.ParseAddr s = some ip ∧ (ip.Is4 = true ∨ ip.Is6 = true)) →
          ∃ out, DialContext w dw tnet (some c) network2 address2 = some out
            ∧ out.err ≠ some (.opError (.sentinel .errNoSuitableAddress)) := by
  refine ⟨?_, rfl, ?_⟩
  · have hnil : filterAddrs w.netip (acceptFamilies suffix).1 (acceptFamilies suffix).2 port
        (LookupContextHost w tnet host).addrs = [] := by
      apply filterAddrs_nil
      intro s hs ip hp
      have := hfam s hs ip hp
      rcases hsuf with rfl | rfl
      · simp only [if_true] at this
        simp [acceptFamilies, this]
      · simp only [List.cons.injEq, and_true, show ¬ (54 = 52) by decide, if_false] at this
        simp [acceptFamilies, this]
    have hlen : (LookupContextHost w tnet host).addrs.length ≠ 0 :=
      fun h0 => hne (List.length_eq_zero.mp h0)
    simp only [DialContext, hnet, htarget, herr, hnil, List.length_nil, true_and, ne_eq, hlen,
      not_false_eq_true, if_true]
  · intro network2 address2 host2 scheme2 port2 hnet2 htarget2 herr2 hmem
    have hcand := filterAddrs_ne_nil w.netip port2 _ hmem
    have hlen : ¬ ((filterAddrs w.netip true true port2
        (LookupContextHost w tnet host2).addrs).length = 0
        ∧ (LookupContextHost w tnet host2).addrs.length ≠ 0) :=
      fun h0 => hcand (List.length_eq_zero.mp h0.1)
    obtain ⟨r, hr⟩ := dialLoop_returns dw c scheme2
      (filterAddrs w.netip true true port2 (LookupContextHost w tnet host2).addrs).length
      (filterAddrs w.netip true true port2 (LookupContextHost w tnet host2).addrs) 0 none []
      (by simp)
    obtain ⟨conn, e, tr⟩ := r
    refine ⟨⟨conn, e, [host2], (LookupContextHost w tnet host2).asked, tr⟩, ?_, ?_⟩
    · simp only [DialContext, hnet2, htarget2, herr2, acceptFamilies, List.length_nil, if_true,
        hlen, if_false, hr]
    · intro he
      have := dialLoop_causes dw c scheme2 _ _ 0 none [] (by simp) conn e tr hr
        .errNoSuitableAddress he
      simp at this

/-- C14 at the network `tcp6` and the literal `1.2.3.4:80`. -/
theorem DialContext_no_suitable_witness :
    DialContext mixedWorld refusingDial sampleGvisor (some ⟨none⟩) netTcp6 addrLiteral80 =
      some ⟨none, some (.opError (.sentinel .errNoSuitableAddress)),
        [[49, 46, 50, 46, 51, 46, 52]], [], []⟩ :=
  (DialContext_no_suitable mixedWorld refusingDial sampleGvisor ⟨none⟩ netTcp6 addrLiteral80
    Scheme.tcp [54] [49, 46, 50, 46, 51, 46, 52] 80 (by decide) (Or.inr rfl) rfl
    (by decide) (by decide)
    (fun s hs ip hp => by
      have hs1 : s = [49, 46, 50, 46, 51, 46, 52] := by
        have : (LookupContextHost mixedWorld sampleGvisor [49, 46, 50, 46, 51, 46, 52]).addrs
            = [[49, 46, 50, 46, 51, 46, 52]] := by decide
        rw [this] at hs
        simpa using hs
      subst hs1
      have hip : ip = Addr.v4 [1, 2, 3, 4] := by
        have : mixedWorld.netip.ParseAddr [49, 46, 50, 46, 51, 46, 52]
            = some (Addr.v4 [1, 2, 3, 4]) := by decide
        rw [this] at hp
        exact (Option.some.inj hp).symm
      subst hip
      decide)).1

/-- `DialContext` with a context returns: it does not panic. -/
theorem DialContext_returns (w : World) (dw : DialWorld) (tnet : Gvisor) (c : Ctx)
    (network address : GoString) :
    ∃ out, DialContext w dw tnet (some c) network address = some out := by
  simp only [DialContext]
  cases protoSplitter network with
  | none => exact ⟨_, rfl⟩
  | some m =>
    obtain ⟨scheme, suffix⟩ := m
    simp only
    cases dialTarget dw scheme address with
    | error e => exact ⟨_, rfl⟩
    | ok t =>
      obtain ⟨host, port⟩ := t
      simp only
      cases (LookupContextHost w tnet host).err with
      | some e => exact ⟨_, rfl⟩
      | none =>
        simp only
        split_ifs
        · exact ⟨_, rfl⟩
        · obtain ⟨r, hr⟩ := dialLoop_returns dw c scheme
            (filterAddrs w.netip (acceptFamilies suffix).1 (acceptFamilies suffix).2 port
              (LookupContextHost w tnet host).addrs).length
            (filterAddrs w.netip (acceptFamilies suffix).1 (acceptFamilies suffix).2 port
              (LookupContextHost w tnet host).addrs) 0 none [] (by simp)
          rw [hr]
          exact ⟨_, rfl⟩

/-- Once the host and the port are worked out, `DialContext` resolves that
host and never reports "port must be numeric". -/
theorem DialContext_after_target (w : World) (dw : DialWorld) (tnet : Gvisor) (c : Ctx)
    (network address : GoString) (scheme : Scheme) (suffix host : GoString) (port : Int)
    (hnet : protoSplitter network = some (scheme, suffix))
    (htarget : dialTarget dw scheme address = .ok (host, port))
    (out : DialOutcome) (hout : DialContext w dw tnet (some c) network address = some out) :
    out.resolved = [host] ∧ out.err ≠ some (.opError (.sentinel .errNumericPort)) := by
  simp only [DialContext, hnet, htarget] at hout
  cases herr : (LookupContextHost w tnet host).err with
  | some e =>
    simp only [herr, Option.some.injEq] at hout
    subst hout
    exact ⟨rfl, by simp⟩
  | none =>
    simp only [herr] at hout
    split_ifs at hout
    · simp only [Option.some.injEq] at hout
      subst hout
      exact ⟨rfl, by simp⟩
    · cases hr : dialLoop dw c scheme
          (filterAddrs w.netip (acceptFamilies suffix).1 (acceptFamilies suffix).2 port
            (LookupContextHost w tnet host).addrs).length
          (filterAddrs w.netip (acceptFamilies suffix).1 (acceptFamilies suffix).2 port
            (LookupContextHost w tnet host).addrs) 0 none [] with
      | none => simp [hr] at hout
      | some r =>
        obtain ⟨conn, e, tr⟩ := r
        simp only [hr, Option.some.injEq] at hout
        subst hout
        refine ⟨rfl, ?_⟩
        intro he
        have := dialLoop_causes dw c scheme _ _ 0 none [] (by simp) conn e tr hr
          .errNumericPort he
        simp at this

/-- C16: for the tcp and udp schemes, with or without suffix, and an address
that splits into host and port, `DialContext` returns the dial error wrapping
"port must be numeric", with no host resolved, no DNS exchange and no
connection attempt, exactly when `strconv.Atoi` fails on the port text or
gives a value outside 0..65535.  For the ping schemes the whole address is
the host that is resolved, and that error is never returned. -/
theorem DialContext_numeric_port (w : World) (dw : DialWorld) (tnet : Gvisor) (c : Ctx)
    (network address : GoString) (scheme : Scheme) (suffix host sport : GoString)
    (hnet : protoSplitter network = some (scheme, suffix))
    (hscheme : scheme = .tcp ∨ scheme = .udp)
    (hsplit : dw.SplitHostPort address = .ok (host, sport)) :
    (∃ out, DialContext w dw tnet (some c) network address = some out
        ∧ (out.err = some (.opError (.sentinel .errNumericPort)) ↔
            (Atoi sport = none ∨ ∃ v, Atoi sport = some v ∧ (v < 0 ∨ 65535 < v)))
        ∧ (out.err = some (.opError (.sentinel .errNumericPort)) →
            out.conn = none ∧ out.resolved = [] ∧ out.asked = [] ∧ out.attempts = []))
      ∧ Err.errNumericPort.Error = "port must be numeric"
      ∧ ∀ (network2 address2 suffix2 : GoString),
          protoSplitter network2 = some (Scheme.ping, suffix2) →
          ∃ out, DialContext w dw tnet (some c) network2 address2 = some out
            ∧ out.resolved = [address2]
            ∧ out.err ≠ some (.opError (.sentinel .errNumericPort)) := by
  have hping : scheme ≠ .ping := by rcases hscheme with h | h <;> rw [h] <;> decide
  refine ⟨?_, rfl, ?_⟩
  · by_cases hbad : Atoi sport = none ∨ ∃ v, Atoi sport = some v ∧ (v < 0 ∨ 65535 < v)
    · have htarget : dialTarget dw scheme address
          = .error (.opError (.sentinel .errNumericPort)) := by
        simp only [dialTarget, if_neg hping, hsplit]
        rcases hbad with h | ⟨v, hv, hrange⟩
        · rw [h]
        · rw [hv]
          simp only
          rw [if_pos (by omega)]
      refine ⟨⟨none, some (.opError (.sentinel .errNumericPort)), [], [], []⟩, ?_, ?_, ?_⟩
      · simp only [DialContext, hnet, htarget]
      · exact ⟨fun _ => hbad, fun _ => rfl⟩
      · exact fun _ => ⟨rfl, rfl, rfl, rfl⟩
    · obtain ⟨v, hv⟩ : ∃ v, Atoi sport = some v := by
        cases h : Atoi sport with
        | none => exact absurd (Or.inl h) hbad
        | some v => exact ⟨v, rfl⟩
      have hrange : ¬ (v < 0 ∨ v > 65535) := fun h => hbad (Or.inr ⟨v, hv, h⟩)
      have htarget : dialTarget dw scheme address = .ok (host, v) := by
        simp only [dialTarget, if_neg hping, hsplit, hv]
        rw [if_neg hrange]
      obtain ⟨out, hout⟩ := DialContext_returns w dw tnet c network address
      have h := DialContext_after_target w dw tnet c network address scheme suffix host v
        hnet htarget out hout
      exact ⟨out, hout, ⟨fun he => absurd he h.2, fun hb => absurd hb hbad⟩,
        fun he => absurd he h.2⟩
  · intro network2 address2 suffix2 hnet2
    obtain ⟨out, hout⟩ := DialContext_returns w dw tnet c network2 address2
    have h := DialContext_after_target w dw tnet c network2 address2 Scheme.ping suffix2
      address2 0 hnet2 (by simp [dialTarget]) out hout
    exact ⟨out, hout, h.1, h.2⟩

/-- C16 at the network `tcp` and the address `a.b:70000`: the port parses to
70000, which is above 65535. -/
theorem DialContext_numeric_port_witness :
    Atoi [55, 48, 48, 48, 48] = some 70000
      ∧ ∃ out, DialContext mixedWorld refusingDial sampleGvisor (some ⟨none⟩) netTcp addrAB70000
            = some out
          ∧ out.err = some (.opError (.sentinel .errNumericPort))
          ∧ out.resolved = [] ∧ out.attempts = [] := by
  obtain ⟨out, hout, hiff, hnone⟩ :=
    (DialContext_numeric_port mixedWorld refusingDial sampleGvisor ⟨none⟩ netTcp addrAB70000
      Scheme.tcp [] hostAB [55, 48, 48, 48, 48] (by decide) (Or.inl rfl) rfl).1
  have he : out.err = some (.opError (.sentinel .errNumericPort)) :=
    hiff.mpr (Or.inr ⟨70000, by decide, by decide⟩)
  exact ⟨by decide, out, hout, he, (hnone he).2.1, (hnone he).2.2.2⟩

/-- With no deadline and a context that is not done, the candidate loop goes
past every attempt that fails: it keeps the first error and records the
attempts. -/
theorem dialLoop_prefix (dw : DialWorld) (c : Ctx) (scheme : Scheme) (total : Nat)
    (hdl : c.deadline = none) (hdone : ∀ i, dw.done i = none) (e : Nat → NetErr) (k : Nat)
    (cands : List AddrPort) (i : Nat) (firstErr : Option DialError) (tr : List Attempt)
    (hk : k ≤ cands.length)
    (hfail : ∀ j (hj : j < cands.length), j < k →
      dw.connect (i + j) scheme cands[j] none = .error (e j)) :
    dialLoop dw c scheme total cands i firstErr tr =
      dialLoop dw c scheme total (cands.drop k) (i + k)
        (if k = 0 then firstErr else some (firstErr.getD (.conn (e 0))))
        (tr ++ (cands.take k).map (fun a => ⟨scheme, a, none⟩)) := by
  induction k generalizing cands i firstErr tr e with
  | zero => simp
  | succ k ih =>
    cases cands with
    | nil => simp at hk
    | cons addr rest =>
      have h0 := hfail 0 (by simp) (by omega)
      simp only [Nat.add_zero, List.getElem_cons_zero] at h0
      have hstep : dialLoop dw c scheme total (addr :: rest) i firstErr tr =
          dialLoop dw c scheme total rest (i + 1) (some (firstErr.getD (.conn (e 0))))
            (tr ++ [⟨scheme, addr, none⟩]) := by
        simp only [dialLoop, hdone, dialDeadline, hdl, ite_self, h0]
      rw [hstep, ih (fun j => e (j + 1)) rest (i + 1) _ _ (by simpa using hk)]
      · simp only [List.drop_succ_cons, List.take_succ_cons, List.map_cons,
          List.append_assoc, List.singleton_append]
        congr 1
        · omega
        · cases k with
          | zero => rfl
          | succ k => simp
      · intro j hj hjk
        have := hfail (j + 1) (by simpa using hj) (by omega)
        simp only [List.getElem_cons_succ] at this
        rw [← this]
        congr 1
        omega

/-- The candidates are the resolved addresses that parse and belong to an
accepted family, in the order of the resolver. -/
theorem filterAddrs_eq (lib : NetIP) (acceptV4 acceptV6 : Bool) (port : Int)
    (addrs : List GoString) :
    filterAddrs lib acceptV4 acceptV6 port addrs =
      ((addrs.filterMap lib.ParseAddr).filter
        (fun ip => (ip.Is4 && acceptV4) || (ip.Is6 && acceptV6))).map
        (fun ip => ⟨ip, (port % 65536).toNat⟩) := by
  induction addrs with
  | nil => rfl
  | cons s rest ih =>
    simp only [filterAddrs, List.filterMap_cons]
    cases lib.ParseAddr s with
    | none => exact ih
    | some ip =>
      simp only [List.filter_cons]
      split_ifs
      · simp [ih]
      · exact ih

/-- C15: in `DialContext` with a context that has no deadline and is never
done, the candidates kept of the resolved addresses are attempted in the
order the resolver returned them.  When the attempt at candidate `k` is the
first to succeed, its connection is returned and the attempts made are those
at the candidates 0 to `k`; when every attempt fails, the error returned is
the error of the first attempt and every candidate was attempted once.  The
candidates are the resolved addresses of an accepted family, in the order of
the resolver. -/
theorem DialContext_order (w : World) (dw : DialWorld) (tnet : Gvisor) (c : Ctx)
    (network address : GoString) (scheme : Scheme) (suffix host : GoString) (port : Int)
    (cands : List AddrPort)
    (hdl : c.deadline = none) (hdone : ∀ i, dw.done i = none)
    (hnet : protoSplitter network = some (scheme, suffix))
    (htarget : dialTarget dw scheme address = .ok (host, port))
    (herr : (LookupContextHost w tnet host).err = none)
    (hcands : filterAddrs w.netip (acceptFamilies suffix).1 (acceptFamilies suffix).2 port
      (LookupContextHost w tnet host).addrs = cands)
    (hne : cands ≠ []) :
    (∀ (k conn : Nat) (e : Nat → NetErr) (hk : k < cands.length),
        (∀ j (hj : j < cands.length), j < k →
          dw.connect j scheme cands[j] none = .error (e j)) →
        dw.connect k scheme cands[k] none = .ok conn →
        DialContext w dw tnet (some c) network address =
          some ⟨some conn, none, [host], (LookupContextHost w tnet host).asked,
            (cands.take (k + 1)).map (fun a => ⟨scheme, a, none⟩)⟩)
      ∧ (∀ (e : Nat → NetErr),
        (∀ j (hj : j < cands.length), dw.connect j scheme cands[j] none = .error (e j)) →
        DialContext w dw tnet (some c) network address =
          some ⟨none, some (.conn (e 0)), [host], (LookupContextHost w tnet host).asked,
            cands.map (fun a => ⟨scheme, a, none⟩)⟩)
      ∧ cands = (((LookupContextHost w tnet host).addrs.filterMap w.netip.ParseAddr).filter
          (fun ip => (ip.Is4 && (acceptFamilies suffix).1)
            || (ip.Is6 && (acceptFamilies suffix).2))).map
          (fun ip => ⟨ip, (port % 65536).toNat⟩) := by
  have hlen : ¬ (cands.length = 0 ∧ (LookupContextHost w tnet host).addrs.length ≠ 0) :=
    fun h0 => hne (List.length_eq_zero.mp h0.1)
  have hdial : DialContext w dw tnet (some c) network address =
      match dialLoop dw c scheme cands.length cands 0 none [] with
      | none => none
      | some (conn, e, tr) =>
        some ⟨conn, e, [host], (LookupContextHost w tnet host).asked, tr⟩ := by
    simp only [DialContext, hnet, htarget, herr, hcands, hlen, if_false]
  refine ⟨?_, ?_, by rw [← hcands, filterAddrs_eq]⟩
  · intro k conn e hk hfail hok
    have hrun := dialLoop_prefix dw c scheme cands.length hdl hdone e k cands 0 none []
      (le_of_lt hk) (fun j hj hjk => by simpa using hfail j hj hjk)
    have hlast : dialLoop dw c scheme cands.length (cands.drop k) (0 + k)
        (if k = 0 then none else some ((none : Option DialError).getD (.conn (e 0))))
        ([] ++ (cands.take k).map (fun a => (⟨scheme, a, none⟩ : Attempt)))
        = some (some conn, none,
            (cands.take (k + 1)).map (fun a => (⟨scheme, a, none⟩ : Attempt))) := by
      rw [List.drop_eq_getElem_cons hk]
      simp only [dialLoop, hdone, dialDeadline, hdl, ite_self, Nat.zero_add, hok,
        List.nil_append]
      rw [take_succ_map (fun a => (⟨scheme, a, none⟩ : Attempt)) cands k hk]
    rw [hdial, hrun, hlast]
  · intro e hfail
    have hrun := dialLoop_prefix dw c scheme cands.length hdl hdone e cands.length cands 0
      none [] (le_refl _) (fun j hj _ => by simpa using hfail j hj)
    have hpos : cands.length ≠ 0 := fun h0 => hne (List.length_eq_zero.mp h0)
    rw [hdial, hrun, List.drop_length, List.take_length, if_neg hpos]
    simp only [dialLoop, Option.getD_none, Option.getD_some, List.nil_append]

/-- C15 in a world where the first attempt is refused and the second
succeeds: the candidates are `::1`, `::1`, `1.2.3.4` in the order of the
resolver, the connection of the second attempt is returned and the third
candidate is not attempted. -/
theorem DialContext_order_witness :
    filterAddrs mixedWorld.netip true true 80
        (LookupContextHost mixedWorld sampleGvisor hostAB).addrs
        = [⟨Addr.v6 [0, 0, 0, 0, 0, 0, 0, 0, 0, 0, 0, 0, 0, 0, 0, 1] [], 80⟩,
           ⟨Addr.v6 [0, 0, 0, 0, 0, 0, 0, 0, 0, 0, 0, 0, 0, 0, 0, 1] [], 80⟩,
           ⟨Addr.v4 [1, 2, 3, 4], 80⟩]
      ∧ DialContext mixedWorld secondDial sampleGvisor (some ⟨none⟩) netTcp addrAB80 =
        some ⟨some 1, none, [hostAB], (LookupContextHost mixedWorld sampleGvisor hostAB).asked,
          [⟨Scheme.tcp, ⟨Addr.v6 [0, 0, 0, 0, 0, 0, 0, 0, 0, 0, 0, 0, 0, 0, 0, 1] [], 80⟩, none⟩,
           ⟨Scheme.tcp, ⟨Addr.v6 [0, 0, 0, 0, 0, 0, 0, 0, 0, 0, 0, 0, 0, 0, 0, 1] [], 80⟩, none⟩]⟩ :=
  ⟨by decide,
    (DialContext_order mixedWorld secondDial sampleGvisor ⟨none⟩ netTcp addrAB80 Scheme.tcp []
      hostAB 80
      [⟨Addr.v6 [0, 0, 0, 0, 0, 0, 0, 0, 0, 0, 0, 0, 0, 0, 0, 1] [], 80⟩,
       ⟨Addr.v6 [0, 0, 0, 0, 0, 0, 0, 0, 0, 0, 0, 0, 0, 0, 0, 1] [], 80⟩,
       ⟨Addr.v4 [1, 2, 3, 4], 80⟩]
      rfl (fun _ => rfl) (by decide) rfl (by decide) (by decide) (by decide)).1 1 1
      (fun _ => ⟨"connection refused", false, true⟩) (by decide)
      (fun j hj hjk => by
        have hj0 : j = 0 := by omega
        subst hj0
        rfl)
      rfl⟩

/-! ## Properties: forwarding start-up -/

/-- C20 on the code: for the rules `tcp`/`a.b:70000` and `tcp`/`a.b:abc`,
whose port texts are not base-10 integers in 0..65535, `Start` returns no
error and opens listeners on the ports 4464 and 0; for the rule
`tcp`/`a.b:80` the listener is opened on port 80. -/
theorem Start_port_not_checked :
    Atoi [55, 48, 48, 48, 48] = some 70000 ∧ Atoi [97, 98, 99] = none
      ∧ Start openStartWorld [⟨netTcp, addrAB70000⟩]
        = ⟨none, [⟨0, netTcp, 4464⟩], [], false, true, [0]⟩
      ∧ Start openStartWorld [⟨netTcp, addrABabc⟩]
        = ⟨none, [⟨0, netTcp, 0⟩], [], false, true, [0]⟩
      ∧ Start openStartWorld [⟨netTcp, addrAB80⟩]
        = ⟨none, [⟨0, netTcp, 80⟩], [], false, true, [0]⟩ := by
  decide

/-! ## Properties: the LRU cache -/

section LRUElements

variable {K V : Type}

/-- The element found at an address is in the list and has that address. -/
theorem findElem_some (l : List (Element K V)) (id : Nat) (e : Element K V)
    (h : findElem l id = some e) : e ∈ l ∧ e.id = id := by
  refine ⟨List.mem_of_find?_eq_some h, ?_⟩
  have := List.find?_some h
  simpa using this

/-- Two elements of the list with the same address are the same element. -/
theorem elem_eq_of_id (l : List (Element K V)) (hid : (l.map (fun e => e.id)).Nodup)
    (e1 e2 : Element K V) (h1 : e1 ∈ l) (h2 : e2 ∈ l) (h : e1.id = e2.id) : e1 = e2 :=
  List.inj_on_of_nodup_map hid h1 h2 h

/-- Two elements of the list with the same key are the same element. -/
theorem elem_eq_of_key (l : List (Element K V)) (hkey : (l.map (fun e => e.key)).Nodup)
    (e1 e2 : Element K V) (h1 : e1 ∈ l) (h2 : e2 ∈ l) (h : e1.key = e2.key) : e1 = e2 :=
  List.inj_on_of_nodup_map hkey h1 h2 h

/-- The elements left after a removal. -/
theorem mem_listRemove (l : List (Element K V)) (hid : (l.map (fun e => e.id)).Nodup)
    (id : Nat) (x : Element K V) : x ∈ listRemove l id ↔ x ∈ l ∧ x.id ≠ id := by
  induction l with
  | nil => simp [listRemove]
  | cons y rest ih =>
    simp only [List.map_cons, List.nodup_cons] at hid
    simp only [listRemove] at ih ⊢
    by_cases hy : y.id = id
    · rw [List.eraseP_cons_of_pos (by simpa using hy)]
      constructor
      · intro hx
        refine ⟨List.mem_cons_of_mem y hx, ?_⟩
        intro hxid
        exact hid.1 (List.mem_map.mpr ⟨x, hx, by rw [hxid, hy]⟩)
      · rintro ⟨hx, hxid⟩
        rcases List.mem_cons.mp hx with rfl | hx
        · exact absurd hy hxid
        · exact hx
    · rw [List.eraseP_cons_of_neg (by simpa using hy)]
      simp only [List.mem_cons, ih hid.2]
      constructor
      · rintro (rfl | ⟨hx, hxid⟩)
        · exact ⟨Or.inl rfl, hy⟩
        · exact ⟨Or.inr hx, hxid⟩
      · rintro ⟨rfl | hx, hxid⟩
        · exact Or.inl rfl
        · exact Or.inr ⟨hx, hxid⟩

/-- An element of the list is found at its address. -/
theorem findElem_of_mem (l : List (Element K V)) (hid : (l.map (fun e => e.id)).Nodup)
    (e : Element K V) (he : e ∈ l) : findElem l e.id = some e := by
  cases hf : findElem l e.id with
  | none =>
    simp only [findElem, List.find?_eq_none, decide_eq_true_eq] at hf
    exact absurd rfl (hf e he)
  | some e1 =>
    obtain ⟨h1, h2⟩ := findElem_some l e.id e1 hf
    rw [elem_eq_of_id l hid e1 e h1 he h2]

end LRUElements

section LRUProofs

variable {K V : Type} [DecidableEq K]

/-- Reading the map after a deletion. -/
theorem mapGet_mapDelete (m : List (K × Nat)) (key k : K) :
    mapGet (mapDelete m key) k = if k = key then none else mapGet m k := by
  induction m with
  | nil => simp [mapDelete, mapGet]
  | cons p rest ih =>
    obtain ⟨k0, id0⟩ := p
    simp only [mapDelete, List.filter_cons] at ih ⊢
    by_cases h0 : k0 = key
    · subst h0
      simp only [ne_eq, not_true_eq_false, decide_False, Bool.false_eq_true, if_false, ih, mapGet]
      by_cases hk : k = k0
      · simp [hk]
      · simp [hk, Ne.symm hk]
    · simp only [ne_eq, h0, not_false_eq_true, decide_True, if_true, mapGet, ih]
      by_cases hk : k = key
      · subst hk
        simp [h0]
      · simp [hk]

/-- Reading the map after a write. -/
theorem mapGet_mapSet (m : List (K × Nat)) (key k : K) (id : Nat) :
    mapGet (mapSet m key id) k = if k = key then some id else mapGet m k := by
  simp only [mapSet, mapGet, mapGet_mapDelete]
  by_cases hk : k = key
  · simp [hk]
  · simp [hk, Ne.symm hk]

/-- A deletion leaves no key twice in the map. -/
theorem mapDelete_nodup (m : List (K × Nat)) (key : K) (h : (m.map Prod.fst).Nodup) :
    ((mapDelete m key).map Prod.fst).Nodup :=
  List.Nodup.sublist (List.Sublist.map _ (List.filter_sublist _)) h

/-- The key deleted is no longer in the map. -/
theorem not_mem_mapDelete (m : List (K × Nat)) (key : K) :
    key ∉ (mapDelete m key).map Prod.fst := by
  simp [mapDelete]

/-- A write leaves no key twice in the map. -/
theorem mapSet_nodup (m : List (K × Nat)) (key : K) (id : Nat) (h : (m.map Prod.fst).Nodup) :
    ((mapSet m key id).map Prod.fst).Nodup := by
  simp only [mapSet, List.map_cons, List.nodup_cons]
  exact ⟨not_mem_mapDelete m key, mapDelete_nodup m key h⟩

/-- The entries left after the removal of the element with a key: those with
another key, in their order. -/
theorem listRemove_view (l : List (Element K V)) (hkey : (l.map (fun e => e.key)).Nodup)
    (hid : (l.map (fun e => e.id)).Nodup) (e : Element K V) (he : e ∈ l) :
    (listRemove l e.id).map (fun x => (x.key, x.value))
      = (l.map (fun x => (x.key, x.value))).filter (fun p => decide (p.1 ≠ e.key)) := by
  induction l with
  | nil => simp at he
  | cons y rest ih =>
    simp only [List.map_cons, List.nodup_cons] at hkey hid
    simp only [listRemove] at ih ⊢
    by_cases hy : y.id = e.id
    · have hye : y = e := by
        rcases List.mem_cons.mp he with h | h
        · exact h.symm
        · exact absurd (List.mem_map.mpr ⟨e, h, hy.symm⟩) hid.1
      subst hye
      rw [List.eraseP_cons_of_pos (by simp)]
      simp only [List.map_cons, List.filter_cons, ne_eq, not_true_eq_false, decide_False,
        Bool.false_eq_true, if_false]
      symm
      rw [List.filter_eq_self]
      intro p hp
      obtain ⟨x, hx, rfl⟩ := List.mem_map.mp hp
      simp only [ne_eq, decide_eq_true_eq]
      intro hxk
      exact hkey.1 (List.mem_map.mpr ⟨x, hx, hxk⟩)
    · have hrest : e ∈ rest := by
        rcases List.mem_cons.mp he with h | h
        · exact absurd (by rw [h]) hy
        · exact h
      have hyk : y.key ≠ e.key := by
        intro hk
        exact hkey.1 (List.mem_map.mpr ⟨e, hrest, hk.symm⟩)
      rw [List.eraseP_cons_of_neg (by simpa using hy)]
      simp only [List.map_cons, List.filter_cons, ne_eq, hyk, not_false_eq_true, decide_True,
        if_true, List.cons.injEq, true_and]
      exact ih hkey.2 hid.2 hrest

end LRUProofs

section LRUOperations

variable {K V : Type} [DecidableEq K]

/-- A key that is not in the list is not in the map. -/
theorem mapGet_none_of_not_mem (c : Cache K V) (hwf : c.WF) (k : K)
    (hk : k ∉ c.list.map (fun e => e.key)) : mapGet c.cache k = none := by
  obtain ⟨-, -, -, hmap, -, -, -⟩ := hwf
  cases h : mapGet c.cache k with
  | none => rfl
  | some id =>
    obtain ⟨e, he, hek, -⟩ := (hmap k id).mp h
    exact absurd (List.mem_map.mpr ⟨e, he, hek⟩) hk

/-- The map sends the key of an element of the list to its address. -/
theorem mapGet_of_mem (c : Cache K V) (hwf : c.WF) (e : Element K V) (he : e ∈ c.list) :
    mapGet c.cache e.key = some e.id := by
  obtain ⟨-, -, -, hmap, -, -, -⟩ := hwf
  exact (hmap e.key e.id).mpr ⟨e, he, rfl, rfl⟩

/-- Moving an element of the list to the front, its value being kept or
written anew, keeps the invariant. -/
theorem WF_touch (c : Cache K V) (hwf : c.WF) (e : Element K V) (he : e ∈ c.list) (v : V) :
    ({ c with list := ⟨e.id, e.key, v⟩ :: listRemove c.list e.id } : Cache K V).WF := by
  obtain ⟨hkey, hid, hmk, hmap, hfresh, hlen, hcap⟩ := hwf
  have hmem := mem_listRemove c.list hid e.id
  refine ⟨?_, ?_, hmk, ?_, ?_, ?_, hcap⟩
  · simp only [List.map_cons, List.nodup_cons]
    refine ⟨?_, List.Nodup.sublist (List.Sublist.map _ (List.eraseP_sublist _)) hkey⟩
    intro hin
    obtain ⟨x, hx, hxk⟩ := List.mem_map.mp hin
    obtain ⟨hxl, hxid⟩ := (hmem x).mp hx
    exact hxid (by rw [elem_eq_of_key c.list hkey x e hxl he hxk])
  · simp only [List.map_cons, List.nodup_cons]
    refine ⟨?_, List.Nodup.sublist (List.Sublist.map _ (List.eraseP_sublist _)) hid⟩
    intro hin
    obtain ⟨x, hx, hxi⟩ := List.mem_map.mp hin
    exact ((hmem x).mp hx).2 hxi
  · intro k id
    rw [hmap k id]
    constructor
    · rintro ⟨x, hx, hxk, hxi⟩
      by_cases hxe : x.id = e.id
      · have := elem_eq_of_id c.list hid x e hx he hxe
        subst this
        exact ⟨⟨x.id, x.key, v⟩, List.mem_cons_self _ _, hxk, hxi⟩
      · exact ⟨x, List.mem_cons_of_mem _ ((hmem x).mpr ⟨hx, hxe⟩), hxk, hxi⟩
    · rintro ⟨x, hx, hxk, hxi⟩
      rcases List.mem_cons.mp hx with rfl | hx
      · exact ⟨e, he, hxk, hxi⟩
      · exact ⟨x, ((hmem x).mp hx).1, hxk, hxi⟩
  · intro x hx
    rcases List.mem_cons.mp hx with rfl | hx
    · exact hfresh e he
    · exact hfresh x ((hmem x).mp hx).1
  · have : (listRemove c.list e.id).length = c.list.length - 1 :=
      List.length_eraseP_of_mem he (by simp)
    have hpos : 0 < c.list.length := List.length_pos_of_mem he
    simp only [List.length_cons, this]
    omega

/-- The entries after an element was moved to the front. -/
theorem view_touch (c : Cache K V) (hwf : c.WF) (e : Element K V) (he : e ∈ c.list) (v : V) :
    ({ c with list := ⟨e.id, e.key, v⟩ :: listRemove c.list e.id } : Cache K V).view
      = (e.key, v) :: c.view.filter (fun p => decide (p.1 ≠ e.key)) := by
  obtain ⟨hkey, hid, -, -, -, -, -⟩ := hwf
  simp only [Cache.view, List.map_cons, listRemove_view c.list hkey hid e he]

/-- `Get` on a key held by the cache moves its element to the front and
returns its value. -/
theorem Get_of_mem (c : Cache K V) (hwf : c.WF) (e : Element K V) (he : e ∈ c.list) :
    c.Get e.key = ({ c with list := ⟨e.id, e.key, e.value⟩ :: listRemove c.list e.id },
      some e.value) := by
  have hfind := findElem_of_mem c.list hwf.2.1 e he
  simp only [Cache.Get, mapGet_of_mem c hwf e he, hfind, moveToFront]

/-- `Get` on a key the cache does not hold changes nothing and returns
nothing. -/
theorem Get_of_not_mem (c : Cache K V) (hwf : c.WF) (k : K)
    (hk : k ∉ c.list.map (fun e => e.key)) : c.Get k = (c, none) := by
  simp only [Cache.Get, mapGet_none_of_not_mem c hwf k hk]

/-- `Put` on a key held by the cache moves its element to the front and
writes the value. -/
theorem Put_of_mem (c : Cache K V) (hwf : c.WF) (e : Element K V) (he : e ∈ c.list) (v : V) :
    c.Put e.key v = { c with list := ⟨e.id, e.key, v⟩ :: listRemove c.list e.id } := by
  have hfind := findElem_of_mem c.list hwf.2.1 e he
  have hmem := mem_listRemove c.list hwf.2.1 e.id
  have hrest : (listRemove c.list e.id).map
      (fun x => if x.id = e.id then { x with value := v } else x) = listRemove c.list e.id := by
    conv_rhs => rw [← List.map_id (listRemove c.list e.id)]
    apply List.map_congr_left
    intro x hx
    simp [((hmem x).mp hx).2]
  simp only [Cache.Put, mapGet_of_mem c hwf e he, moveToFront, hfind, setValue, List.map_cons,
    if_true, hrest]

/-- Dropping the last element of a full list and its key from the map keeps
the invariant and leaves room for one element. -/
theorem WF_evict (c : Cache K V) (hwf : c.WF) (init : List (Element K V))
    (oldest : Element K V) (hl : c.list = init ++ [oldest]) :
    listRemove c.list oldest.id = init
      ∧ ({ c with list := init, cache := mapDelete c.cache oldest.key } : Cache K V).WF
      ∧ (init.length : Int) < c.capacity := by
  obtain ⟨hkey, hid, hmk, hmap, hfresh, hlen, hcap⟩ := hwf
  have hold : oldest ∈ c.list := by rw [hl]; simp
  have hinit : ∀ x ∈ init, x ∈ c.list := fun x hx => by rw [hl]; simp [hx]
  have hrem : listRemove c.list oldest.id = init := by
    have hno : ∀ x ∈ init, ¬ (decide (x.id = oldest.id) = true) := by
      intro x hx hxid
      simp only [decide_eq_true_eq] at hxid
      rw [hl, List.map_append, List.nodup_append] at hid
      exact hid.2.2 (List.mem_map.mpr ⟨x, hx, rfl⟩) (by simp [hxid])
    simp only [listRemove, hl]
    rw [List.eraseP_append_right _ hno]
    simp
  have hsub : List.Sublist init c.list := by rw [hl]; exact List.sublist_append_left _ _
  have hnotin : ∀ x ∈ init, x.key ≠ oldest.key := by
    intro x hx hxk
    rw [hl, List.map_append, List.nodup_append] at hkey
    exact hkey.2.2 (List.mem_map.mpr ⟨x, hx, rfl⟩) (by simp [hxk])
  refine ⟨hrem, ⟨?_, ?_, mapDelete_nodup _ _ hmk, ?_, ?_, ?_, hcap⟩, ?_⟩
  · exact List.Nodup.sublist (List.Sublist.map _ hsub) hkey
  · exact List.Nodup.sublist (List.Sublist.map _ hsub) hid
  · intro k id
    simp only [mapGet_mapDelete]
    by_cases hk : k = oldest.key
    · simp only [hk, if_true]
      constructor
      · intro h
        simp at h
      · rintro ⟨x, hx, hxk, -⟩
        exact absurd hxk (hnotin x hx)
    · simp only [hk, if_false, hmap k id]
      constructor
      · rintro ⟨x, hx, hxk, hxi⟩
        rw [hl] at hx
        rcases List.mem_append.mp hx with hx | hx
        · exact ⟨x, hx, hxk, hxi⟩
        · simp only [List.mem_singleton] at hx
          subst hx
          exact absurd hxk.symm hk
      · rintro ⟨x, hx, hxk, hxi⟩
        exact ⟨x, hinit x hx, hxk, hxi⟩
  · exact fun x hx => hfresh x (hinit x hx)
  · have : c.list.length = init.length + 1 := by rw [hl]; simp
    simp only
    omega
  · have : c.list.length = init.length + 1 := by rw [hl]; simp
    omega

/-- Pushing a new key on a cache that has room keeps the invariant. -/
theorem WF_push (c : Cache K V) (hwf : c.WF) (k : K) (v : V)
    (hk : k ∉ c.list.map (fun e => e.key)) (hroom : (c.list.length : Int) < c.capacity) :
    ({ c with list := ⟨c.fresh, k, v⟩ :: c.list, cache := mapSet c.cache k c.fresh,
              fresh := c.fresh + 1 } : Cache K V).WF := by
  obtain ⟨hkey, hid, hmk, hmap, hfresh, hlen, hcap⟩ := hwf
  refine ⟨?_, ?_, mapSet_nodup _ _ _ hmk, ?_, ?_, ?_, hcap⟩
  · simp only [List.map_cons, List.nodup_cons]
    exact ⟨hk, hkey⟩
  · simp only [List.map_cons, List.nodup_cons]
    refine ⟨?_, hid⟩
    intro hin
    obtain ⟨x, hx, hxi⟩ := List.mem_map.mp hin
    have := hfresh x hx
    omega
  · intro k1 id
    simp only [mapGet_mapSet]
    by_cases hk1 : k1 = k
    · subst hk1
      simp only [if_true, Option.some.injEq]
      constructor
      · rintro rfl
        exact ⟨_, List.mem_cons_self _ _, rfl, rfl⟩
      · rintro ⟨x, hx, hxk, hxi⟩
        rcases List.mem_cons.mp hx with rfl | hx
        · exact hxi
        · exact absurd (List.mem_map.mpr ⟨x, hx, hxk⟩) hk
    · simp only [hk1, if_false, hmap k1 id]
      constructor
      · rintro ⟨x, hx, hxk, hxi⟩
        exact ⟨x, List.mem_cons_of_mem _ hx, hxk, hxi⟩
      · rintro ⟨x, hx, hxk, hxi⟩
        rcases List.mem_cons.mp hx with rfl | hx
        · exact absurd hxk.symm hk1
        · exact ⟨x, hx, hxk, hxi⟩
  · intro x hx
    rcases List.mem_cons.mp hx with rfl | hx
    · simp
    · have := hfresh x hx
      simp only
      omega
  · simp only [List.length_cons, Nat.cast_add, Nat.cast_one]
    omega

end LRUOperations

section LRUView

variable {K V : Type}

/-- The keys of the recency list are the keys of the entries. -/
theorem keys_eq_view (c : Cache K V) :
    c.list.map (fun e => e.key) = c.view.map Prod.fst := by
  simp only [Cache.view, List.map_map]
  rfl

end LRUView

section LRUPut

variable {K V : Type} [DecidableEq K]

/-- `Put` of a key the cache does not hold: the new entry goes to the front,
and the last entry is dropped when the cache was full. -/
theorem Put_new (c : Cache K V) (hwf : c.WF) (k : K) (v : V)
    (hk : k ∉ c.list.map (fun e => e.key)) :
    (c.Put k v).WF ∧ (c.Put k v).capacity = c.capacity
      ∧ (c.Put k v).view
        = (k, v) :: (if (c.list.length : Int) = c.capacity then c.view.dropLast else c.view) := by
  have hget := mapGet_none_of_not_mem c hwf k hk
  by_cases hfull : (c.list.length : Int) = c.capacity
  · have hpos : 0 < c.list.length := by
      have := hwf.2.2.2.2.2.2
      omega
    obtain ⟨oldest, hlast⟩ : ∃ oldest, c.list.getLast? = some oldest := by
      cases h : c.list.getLast? with
      | none =>
        rw [List.getLast?_eq_none_iff] at h
        rw [h] at hpos
        simp at hpos
      | some o => exact ⟨o, rfl⟩
    obtain ⟨init, hl⟩ := List.getLast?_eq_some_iff.mp hlast
    obtain ⟨hrem, hwf1, hroom⟩ := WF_evict c hwf init oldest hl
    have hk1 : k ∉ init.map (fun e => e.key) := by
      intro hin
      apply hk
      rw [hl, List.map_append]
      exact List.mem_append_left _ hin
    have hput : c.Put k v =
        { capacity := c.capacity, list := ⟨c.fresh, k, v⟩ :: init,
          cache := mapSet (mapDelete c.cache oldest.key) k c.fresh, fresh := c.fresh + 1 } := by
      simp only [Cache.Put, hget, hfull, if_true, hlast, hrem]
    have hpush := WF_push
      ({ c with list := init, cache := mapDelete c.cache oldest.key } : Cache K V)
      hwf1 k v hk1 hroom
    rw [hput]
    refine ⟨hpush, rfl, ?_⟩
    rw [if_pos hfull]
    simp only [Cache.view, List.map_cons, hl, List.map_append, List.map_nil,
      List.dropLast_concat]
  · have hroom : (c.list.length : Int) < c.capacity := by
      have := hwf.2.2.2.2.2.1
      omega
    have hput : c.Put k v =
        { c with list := ⟨c.fresh, k, v⟩ :: c.list, cache := mapSet c.cache k c.fresh,
                 fresh := c.fresh + 1 } := by
      simp only [Cache.Put, hget, hfull, if_false]
    rw [hput]
    refine ⟨WF_push c hwf k v hk hroom, rfl, ?_⟩
    simp only [Cache.view, List.map_cons, hfull, if_false]

/-- The cache `New` returns is empty and satisfies the invariant. -/
theorem New_WF (capacity : Int) (c : Cache K V) (h : New capacity = some c) :
    c.WF ∧ c.capacity = capacity ∧ c.view = [] := by
  simp only [New] at h
  split_ifs at h with hcap
  simp only [Option.some.injEq] at h
  subst h
  refine ⟨⟨by simp, by simp, by simp, ?_, by simp, ?_, by simpa using hcap⟩, rfl, rfl⟩
  · intro k id
    simp [mapGet]
  · simp only [List.length_nil, Nat.cast_zero]
    omega

/-- `Get` returns the value of an entry of the cache. -/
theorem Get_of_view (c : Cache K V) (hwf : c.WF) (k : K) (v : V) (h : (k, v) ∈ c.view) :
    (c.Get k).2 = some v := by
  obtain ⟨e, he, hkv⟩ := List.mem_map.mp h
  simp only [Prod.mk.injEq] at hkv
  obtain ⟨rfl, rfl⟩ := hkv
  rw [Get_of_mem c hwf e he]

/-- `Get` reports a key that is in no entry of the cache absent. -/
theorem Get_of_not_view (c : Cache K V) (hwf : c.WF) (k : K)
    (h : k ∉ c.view.map Prod.fst) : (c.Get k).2 = none := by
  have hk : k ∉ c.list.map (fun e => e.key) := by
    intro hin
    apply h
    simp only [Cache.view, List.map_map]
    exact hin
  rw [Get_of_not_mem c hwf k hk]

/-- After `Put` calls with pairwise distinct keys on an empty cache of
capacity `N`, the cache holds the last `N` pairs put, the latest first. -/
theorem putAll_view (N : Nat) (hN : 1 ≤ N) (c0 : Cache K V) (hwf : c0.WF)
    (hcap : c0.capacity = N) (hempty : c0.view = []) (ps : List (K × V))
    (hnd : (ps.map Prod.fst).Nodup) :
    (putAll c0 ps).WF ∧ (putAll c0 ps).capacity = N
      ∧ (putAll c0 ps).view = ps.reverse.take N := by
  induction ps using List.reverseRecOn with
  | nil => exact ⟨hwf, hcap, by simpa using hempty⟩
  | append_singleton qs p ih =>
    rw [List.map_append, List.nodup_append] at hnd
    obtain ⟨hwf1, hcap1, hview1⟩ := ih hnd.1
    have hk : p.1 ∉ (putAll c0 qs).list.map (fun e => e.key) := by
      rw [keys_eq_view, hview1]
      intro hin
      obtain ⟨x, hx, hxk⟩ := List.mem_map.mp hin
      have hxq : x ∈ qs := List.mem_reverse.mp (List.mem_of_mem_take hx)
      exact hnd.2.2 (List.mem_map.mpr ⟨x, hxq, hxk⟩) (by simp)
    obtain ⟨hwf2, hcap2, hview2⟩ := Put_new (putAll c0 qs) hwf1 p.1 p.2 hk
    have hstep : putAll c0 (qs ++ [p]) = (putAll c0 qs).Put p.1 p.2 := by
      simp [putAll]
    rw [hstep]
    refine ⟨hwf2, by rw [hcap2, hcap1], ?_⟩
    rw [hview2, List.reverse_append, List.reverse_singleton, List.singleton_append]
    obtain ⟨M, rfl⟩ : ∃ M, N = M + 1 := ⟨N - 1, by omega⟩
    rw [List.take_succ_cons]
    have hlen : (putAll c0 qs).list.length = min (M + 1) qs.length := by
      have : (putAll c0 qs).view.length = (putAll c0 qs).list.length := by
        simp [Cache.view]
      rw [← this, hview1, List.length_take, List.length_reverse]
    rw [hlen, hcap1, hview1]
    by_cases hfull : M + 1 ≤ qs.length
    · rw [if_pos (by rw [Nat.min_eq_left hfull])]
      rw [List.dropLast_eq_take, List.take_take, List.length_take, List.length_reverse,
        Nat.min_eq_left hfull]
      simp
    · rw [if_neg (by
        intro h
        have h2 : min (M + 1) qs.length = M + 1 := by exact_mod_cast h
        omega)]
      rw [List.take_of_length_le (by simp; omega), List.take_of_length_le (by simp; omega)]

end LRUPut

section LRUClaims

variable {K V : Type} [DecidableEq K]

/-- C18: for every capacity `N ≥ 1` and every `N+1` pairs with pairwise
distinct keys, after `New(N)` and the `Put` calls for these pairs in order,
`Get` of the first key reports it absent and `Get` of every other key
returns the value put for it. -/
theorem Put_evicts_oldest (N : Nat) (hN : 1 ≤ N) (ps : List (K × V))
    (hlen : ps.length = N + 1) (hnd : (ps.map Prod.fst).Nodup) :
    ∃ c0 : Cache K V, New (N : Int) = some c0
      ∧ ∀ i (hi : i < ps.length),
          (i = 0 → ((putAll c0 ps).Get ps[i].1).2 = none)
            ∧ (1 ≤ i → ((putAll c0 ps).Get ps[i].1).2 = some ps[i].2) := by
  have hnew : New (N : Int) = some (⟨N, [], [], 0⟩ : Cache K V) := by
    simp only [New]
    rw [if_neg (by omega)]
  obtain ⟨hwf0, hcap0, hview0⟩ := New_WF (N : Int) _ hnew
  refine ⟨_, hnew, ?_⟩
  obtain ⟨hwf, -, hview⟩ := putAll_view N hN _ hwf0 hcap0 hview0 ps hnd
  cases ps with
  | nil => simp at hlen
  | cons p0 rest =>
    have hrest : rest.length = N := by simpa using hlen
    have hv : (putAll (⟨N, [], [], 0⟩ : Cache K V) (p0 :: rest)).view = rest.reverse := by
      rw [hview, List.reverse_cons, List.take_left' (by simpa using hrest)]
    simp only [List.map_cons, List.nodup_cons] at hnd
    intro i hi
    constructor
    · rintro rfl
      apply Get_of_not_view _ hwf
      rw [hv, List.map_reverse, List.mem_reverse]
      exact hnd.1
    · intro h1
      obtain ⟨j, rfl⟩ : ∃ j, i = j + 1 := ⟨i - 1, by omega⟩
      apply Get_of_view _ hwf
      rw [hv, List.mem_reverse]
      simp only [List.getElem_cons_succ]
      exact List.getElem_mem _

end LRUClaims

/-- C18 at capacity 2 with the pairs (1, 10), (2, 20), (3, 30): the key 1 is
absent, the keys 2 and 3 give 20 and 30. -/
theorem Put_evicts_oldest_witness :
    ∃ c0 : Cache Nat Nat, New (2 : Int) = some c0
      ∧ ((putAll c0 [(1, 10), (2, 20), (3, 30)]).Get 1).2 = none
      ∧ ((putAll c0 [(1, 10), (2, 20), (3, 30)]).Get 2).2 = some 20
      ∧ ((putAll c0 [(1, 10), (2, 20), (3, 30)]).Get 3).2 = some 30 := by
  obtain ⟨c0, hnew, h⟩ := Put_evicts_oldest 2 (by decide) [((1 : Nat), (10 : Nat)), (2, 20), (3, 30)]
    (by decide) (by decide)
  exact ⟨c0, hnew, (h 0 (by decide)).1 rfl, (h 1 (by decide)).2 (by decide),
    (h 2 (by decide)).2 (by decide)⟩

section LRUTouch

variable {K V : Type} [DecidableEq K]

/-- A `Find` that returns an entry has moved the element of that entry to the
front, the entries visited being entries of the map. -/
theorem findLoop_some (c : Cache K V) (hwf : c.WF) (filter : K → V → Bool)
    (order : List (K × Nat)) (horder : ∀ p ∈ order, mapGet c.cache p.1 = some p.2)
    (c1 : Cache K V) (k : K) (v : V) (h : findLoop c filter order = (c1, some (k, v))) :
    ∃ e ∈ c.list, e.key = k ∧ e.value = v
      ∧ c1 = { c with list := ⟨e.id, e.key, e.value⟩ :: listRemove c.list e.id } := by
  induction order with
  | nil => simp [findLoop] at h
  | cons p rest ih =>
    obtain ⟨k0, id⟩ := p
    have hrest : ∀ p ∈ rest, mapGet c.cache p.1 = some p.2 :=
      fun p hp => horder p (List.mem_cons_of_mem _ hp)
    have hp := horder (k0, id) (List.mem_cons_self _ _)
    obtain ⟨e, he, hek, hei⟩ := (hwf.2.2.2.1 k0 id).mp hp
    have hfind : findElem c.list id = some e := by
      rw [← hei]
      exact findElem_of_mem c.list hwf.2.1 e he
    simp only [findLoop, hfind] at h
    split_ifs at h with hf
    · simp only [Prod.mk.injEq, Option.some.injEq] at h
      obtain ⟨hc1, hk, hv⟩ := h
      subst hei
      refine ⟨e, he, by rw [hek, hk], hv, ?_⟩
      rw [← hc1]
      simp only [moveToFront, hfind]
    · exact ih hrest h

/-- After an entry of a full cache of capacity two at least was moved to the
front, the `Put` of a new key drops the last of the other entries. -/
theorem Put_after_touch (c : Cache K V) (hwf : c.WF)
    (hfull : (c.list.length : Int) = c.capacity) (hN : 2 ≤ c.capacity)
    (e : Element K V) (he : e ∈ c.list) (x : V) (k1 : K) (v1 : V)
    (hk1 : k1 ∉ c.view.map Prod.fst) :
    c.view.filter (fun p => decide (p.1 ≠ e.key)) ≠ []
      ∧ (({ c with list := ⟨e.id, e.key, x⟩ :: listRemove c.list e.id } : Cache K V).Put
          k1 v1).WF
      ∧ (({ c with list := ⟨e.id, e.key, x⟩ :: listRemove c.list e.id } : Cache K V).Put
          k1 v1).view
        = (k1, v1) :: (e.key, x) :: (c.view.filter (fun p => decide (p.1 ≠ e.key))).dropLast := by
  have hwf1 := WF_touch c hwf e he x
  have hview1 := view_touch c hwf e he x
  have hremlen : (listRemove c.list e.id).length = c.list.length - 1 :=
    List.length_eraseP_of_mem he (by simp)
  have hothers : c.view.filter (fun p => decide (p.1 ≠ e.key)) ≠ [] := by
    rw [Cache.view, ← listRemove_view c.list hwf.1 hwf.2.1 e he]
    intro h0
    have := congrArg List.length h0
    simp only [List.length_map, List.length_nil, hremlen] at this
    omega
  have hk : k1 ∉ ({ c with list := ⟨e.id, e.key, x⟩ :: listRemove c.list e.id }
      : Cache K V).list.map (fun e => e.key) := by
    rw [keys_eq_view, hview1]
    simp only [List.map_cons, List.mem_cons, not_or]
    constructor
    · intro hke
      apply hk1
      rw [← keys_eq_view, hke]
      exact List.mem_map.mpr ⟨e, he, rfl⟩
    · intro hin
      apply hk1
      obtain ⟨p, hp, hpk⟩ := List.mem_map.mp hin
      exact List.mem_map.mpr ⟨p, (List.mem_filter.mp hp).1, hpk⟩
  obtain ⟨hwf2, -, hview2⟩ := Put_new _ hwf1 k1 v1 hk
  refine ⟨hothers, hwf2, ?_⟩
  have hlen1 : ((((⟨e.id, e.key, x⟩ : Element K V) :: listRemove c.list e.id).length : Nat)
      : Int) = c.capacity := by
    have hpos : 0 < c.list.length := List.length_pos_of_mem he
    simp only [List.length_cons, hremlen]
    omega
  rw [hview2]
  simp only [hlen1, if_true, hview1]
  rw [List.dropLast_cons_of_ne_nil hothers]

end LRUTouch

section LRUTouchClaim

variable {K V : Type} [DecidableEq K]

/-- C19: touching protects from the next eviction.  For every full cache of
capacity two at least that satisfies the cache invariant and every entry
`(k, v)` it holds, after `Get(k)`, or a `Put` that overwrites `k` with `x`,
or a `Find` that returns `k`, the next `Put` of a key not in the cache evicts
the least recently used key other than `k` (the last of the other entries):
that key is then absent, `k` is present with its value, the new key is
present, and so is every other entry. -/
theorem touch_protects (c : Cache K V) (hwf : c.WF)
    (hfull : (c.list.length : Int) = c.capacity) (hN : 2 ≤ c.capacity)
    (k : K) (v : V) (hk : (k, v) ∈ c.view) (k1 : K) (v1 : V)
    (hk1 : k1 ∉ c.view.map Prod.fst) (c1 : Cache K V) (x : V)
    (htouch : (c1 = (c.Get k).1 ∧ x = v) ∨ c1 = c.Put k x
      ∨ ∃ (filter : K → V → Bool) (order : List (K × Nat)),
          (∀ p ∈ order, mapGet c.cache p.1 = some p.2)
            ∧ c.Find filter order = (c1, some (k, v)) ∧ x = v) :
    ∃ ev, (c.view.filter (fun p => decide (p.1 ≠ k))).getLast? = some ev
      ∧ (c1.Put k1 v1).view
          = (k1, v1) :: (k, x) :: (c.view.filter (fun p => decide (p.1 ≠ k))).dropLast
      ∧ ((c1.Put k1 v1).Get ev.1).2 = none
      ∧ ((c1.Put k1 v1).Get k).2 = some x
      ∧ ((c1.Put k1 v1).Get k1).2 = some v1
      ∧ ∀ p ∈ (c.view.filter (fun p => decide (p.1 ≠ k))).dropLast,
          ((c1.Put k1 v1).Get p.1).2 = some p.2 := by
  obtain ⟨e, he, hkv⟩ := List.mem_map.mp hk
  simp only [Prod.mk.injEq] at hkv
  obtain ⟨hek, hev⟩ := hkv
  have hc1 : c1 = { c with list := ⟨e.id, e.key, x⟩ :: listRemove c.list e.id } := by
    rcases htouch with ⟨h, hx⟩ | h | ⟨filter, order, horder, h, hx⟩
    · rw [h, hx, ← hek, Get_of_mem c hwf e he, hev]
    · rw [h, ← hek, Put_of_mem c hwf e he x]
    · obtain ⟨e2, he2, hek2, -, hc⟩ := findLoop_some c hwf filter order horder c1 k v h
      have : e2 = e := elem_eq_of_key c.list hwf.1 e2 e he2 he (by rw [hek2, hek])
      subst this
      rw [hc, hx, ← hev]
  obtain ⟨hothers, hwf2, hview2⟩ := Put_after_touch c hwf hfull hN e he x k1 v1 hk1
  rw [← hc1] at hwf2 hview2
  rw [hek] at hothers hview2
  obtain ⟨ev, hlast⟩ : ∃ ev, (c.view.filter (fun p => decide (p.1 ≠ k))).getLast? = some ev := by
    cases h : (c.view.filter (fun p => decide (p.1 ≠ k))).getLast? with
    | none => exact absurd (List.getLast?_eq_none_iff.mp h) hothers
    | some ev => exact ⟨ev, rfl⟩
  obtain ⟨dl, hdl⟩ := List.getLast?_eq_some_iff.mp hlast
  have hdrop : (c.view.filter (fun p => decide (p.1 ≠ k))).dropLast = dl := by
    rw [hdl, List.dropLast_concat]
  have hevmem : ev ∈ c.view.filter (fun p => decide (p.1 ≠ k)) := by rw [hdl]; simp
  have hevk : ev.1 ≠ k := by simpa using (List.mem_filter.mp hevmem).2
  have hkeys : ((c.view.filter (fun p => decide (p.1 ≠ k))).map Prod.fst).Nodup := by
    have hnd : (c.view.map Prod.fst).Nodup := by rw [← keys_eq_view]; exact hwf.1
    exact List.Nodup.sublist (List.Sublist.map _ (List.filter_sublist _)) hnd
  refine ⟨ev, hlast, hview2, ?_, ?_, ?_, ?_⟩
  · apply Get_of_not_view _ hwf2
    rw [hview2, hdrop]
    simp only [List.map_cons, List.mem_cons, not_or]
    refine ⟨?_, hevk, ?_⟩
    · intro h
      apply hk1
      rw [← h]
      exact List.mem_map.mpr ⟨ev, (List.mem_filter.mp hevmem).1, rfl⟩
    · intro hin
      rw [hdl, List.map_append, List.nodup_append] at hkeys
      exact hkeys.2.2 hin (by simp)
  · exact Get_of_view _ hwf2 k x (by rw [hview2]; simp)
  · exact Get_of_view _ hwf2 k1 v1 (by rw [hview2]; simp)
  · intro p hp
    refine Get_of_view _ hwf2 p.1 p.2 ?_
    rw [hview2]
    exact List.mem_cons_of_mem _ (List.mem_cons_of_mem _ hp)

end LRUTouchClaim

/-- C19 at the full cache of capacity 2 holding the keys 1 and 2, the key 1
being the least recently used: after `Get(1)` the `Put` of the key 3 evicts
the key 2, and the key 1 is still present with its value 10. -/
theorem touch_protects_witness :
    (((putAll (⟨2, [], [], 0⟩ : Cache Nat Nat) [(1, 10), (2, 20)]).Get 1).1.Put 3 30).view
        = [(3, 30), (1, 10)]
      ∧ ((((putAll (⟨2, [], [], 0⟩ : Cache Nat Nat) [(1, 10), (2, 20)]).Get 1).1.Put 3 30).Get
          2).2 = none
      ∧ ((((putAll (⟨2, [], [], 0⟩ : Cache Nat Nat) [(1, 10), (2, 20)]).Get 1).1.Put 3 30).Get
          1).2 = some 10 := by
  have hnew : New (2 : Int) = some (⟨2, [], [], 0⟩ : Cache Nat Nat) := rfl
  obtain ⟨hwf0, hcap0, hview0⟩ := New_WF (2 : Int) _ hnew
  obtain ⟨hwf, -, -⟩ := putAll_view 2 (by decide) _ hwf0 (by simp) hview0
    [((1 : Nat), (10 : Nat)), (2, 20)] (by decide)
  obtain ⟨ev, hlast, hview, hgone, hkept, -, -⟩ :=
    touch_protects (putAll (⟨2, [], [], 0⟩ : Cache Nat Nat) [(1, 10), (2, 20)]) hwf
      (by decide) (by decide) 1 10 (by decide) 3 30 (by decide)
      ((putAll (⟨2, [], [], 0⟩ : Cache Nat Nat) [(1, 10), (2, 20)]).Get 1).1 10
      (Or.inl ⟨rfl, rfl⟩)
  have hev : ev = (2, 20) := by
    have : (List.filter (fun p => decide (p.1 ≠ 1))
        (putAll (⟨2, [], [], 0⟩ : Cache Nat Nat) [(1, 10), (2, 20)]).view).getLast?
        = some (2, 20) := by decide
    rw [this] at hlast
    exact (Option.some.inj hlast).symm
  subst hev
  exact ⟨by rw [hview]; decide, hgone, hkept⟩

/-! ## Properties: all-or-nothing start-up -/

/-- In the world `secondListenFails`, `Start` on three rules returns the
listen error at the second rule, having opened and closed the listener of
the first rule and closed the engine, with no supervisor and no serving
loop; on one rule it returns nil with the listener open and served. -/
theorem Start_second_rule_fails :
    Start secondListenFails
        [⟨netTcp, addrAB80⟩, ⟨netTcp, addrAB80⟩, ⟨netTcp, addrAB80⟩]
      = ⟨some (.gvisorListen ⟨"port is in use", false, true⟩),
          [⟨0, netTcp, 80⟩], [0], true, false, []⟩
      ∧ Start secondListenFails [⟨netTcp, addrAB80⟩]
        = ⟨none, [⟨0, netTcp, 80⟩], [], false, true, [0]⟩ := by
  decide

/-- C25 on the code: a packet fresh from `NewPacket(4, 32)` has an empty
payload, and `Ver` on it does not return 0 but fails with an index out of
range; so does `Ver` on a packet that was written and then reset, and on
the fresh packet of `NewPacket(0, 0)`.  After a write of an IPv4 header
byte `Ver` returns 4, and on the zero value `Packet{}` it returns 0. -/
theorem Ver_empty_payload :
    (NewPacket 4 32).map Packet.payload = some []
      ∧ (NewPacket 4 32).bind Packet.Ver = none
      ∧ ((NewPacket 4 32).bind
          (fun p => p.applyAll [.Write [69, 0, 0, 20], .Reset])).map
            Packet.payload = some []
      ∧ ((NewPacket 4 32).bind
          (fun p => p.applyAll [.Write [69, 0, 0, 20], .Reset])).bind
            Packet.Ver = none
      ∧ (NewPacket 0 0).bind Packet.Ver = none
      ∧ ((NewPacket 4 32).bind
          (fun p => p.applyAll [.Write [69, 0, 0, 20]])).bind
            Packet.Ver = some 4
      ∧ Packet.zero.Ver = some 0 := by
  decide
/-- A packet of `NewPacket` is built. -/
theorem NewPacket_built (offset cap : Int) (p : Packet)
    (h : NewPacket offset cap = some p) : p.Built := by
  unfold NewPacket at h
  split_ifs at h with h1 h2
  simp only [Option.some.injEq] at h
  subst h
  refine ⟨rfl, le_refl _, ?_⟩
  simp only [List.length_replicate]
  omega

/-- Every call on a built packet returns, and leaves a built packet. -/
theorem apply_built (p : Packet) (op : PacketOp) (h : p.Built) :
    ∃ q, p.apply op = some q ∧ q.Built := by
  obtain ⟨hnil, hoff, hlen⟩ := h
  cases op with
  | Write b =>
    refine ⟨p.Write b, rfl, ?_⟩
    unfold Packet.Write Slice.append
    by_cases hb : b = []
    · simp only [hb, if_true]
      exact ⟨hnil, hoff, hlen⟩
    · simp only [hb, if_false]
      by_cases hc : p.buf.len + b.length ≤ p.buf.cap
      · simp only [hc, if_true]
        refine ⟨rfl, by show p.offset ≤ p.buf.len + b.length; omega, ?_⟩
        simp only [List.length_append, List.length_take, List.length_drop]
        unfold Slice.cap at hc
        omega
      · simp only [hc, if_false]
        refine ⟨rfl, by show p.offset ≤ p.buf.len + b.length; omega, ?_⟩
        simp only [List.length_append, List.length_take]
        omega
  | SetHeader header =>
    unfold Packet.apply Packet.SetHeader
    by_cases hh : header.length > p.offset
    · simp only [hh, if_true, Option.map_some']
      exact ⟨p, rfl, hnil, hoff, hlen⟩
    · have hup : p.buf.upTo p.offset = some ⟨p.buf.isNil, p.buf.arr, p.offset⟩ := by
        unfold Slice.upTo Slice.cap
        rw [if_pos (by omega)]
      simp only [hh, if_false, hup, Option.map_some']
      refine ⟨_, rfl, hnil, hoff, ?_⟩
      simp only [List.length_append, List.length_drop]
      omega
  | Reset =>
    have hup : p.buf.upTo p.offset = some ⟨p.buf.isNil, p.buf.arr, p.offset⟩ := by
      unfold Slice.upTo Slice.cap
      rw [if_pos (by omega)]
    unfold Packet.apply Packet.Reset
    simp only [hup]
    exact ⟨_, rfl, hnil, le_refl _, by show p.offset ≤ p.buf.arr.length; omega⟩

/-- Every sequence of calls on a built packet returns, and leaves a built
packet. -/
theorem applyAll_built (ops : List PacketOp) :
    ∀ p : Packet, p.Built → ∃ q, p.applyAll ops = some q ∧ q.Built := by
  induction ops with
  | nil => exact fun p h => ⟨p, rfl, h⟩
  | cons op ops ih =>
    intro p h
    obtain ⟨q, hq, hqb⟩ := apply_built p op h
    obtain ⟨r, hr, hrb⟩ := ih q hqb
    exact ⟨r, by simp [Packet.applyAll, hq, hr], hrb⟩

/-- On a built packet `Ver` fails with an index out of range when the
payload is empty, and otherwise returns the upper four bits of the first
byte of the payload. -/
theorem Ver_built (p : Packet) (h : p.Built) :
    p.Ver = match p.payload with
      | [] => none
      | b :: _ => some (b / 16) := by
  obtain ⟨hnil, hoff, -⟩ := h
  have hpay : p.payload = (p.buf.arr.drop p.offset).take (p.buf.len - p.offset) := by
    unfold Packet.payload Slice.bytes
    rw [List.drop_take]
  unfold Packet.Ver Packet.AsBytes Slice.from
  rw [if_pos hoff]
  simp only [hnil, Bool.false_eq_true, if_false]
  rw [hpay]
  rfl

/-- For every packet built by `NewPacket` and changed by any sequence of
`Write`, `SetHeader` and `Reset` calls, the calls return, and `Ver` fails
with an index out of range when the payload is empty and otherwise returns
the upper four bits of the first byte of the payload. -/
theorem Ver_of_built (offset cap : Int) (p0 : Packet) (ops : List PacketOp)
    (h : NewPacket offset cap = some p0) :
    ∃ p, p0.applyAll ops = some p
      ∧ p.Ver = match p.payload with
        | [] => none
        | b :: _ => some (b / 16) := by
  obtain ⟨p, hp, hb⟩ := applyAll_built ops p0 (NewPacket_built offset cap p0 h)
  exact ⟨p, hp, Ver_built p hb⟩

/-! ## Properties: the family check of a ping write -/

/-- C22 on the code: on a connection bound to the IPv4 address 10.0.0.1,
the IPv4 destination 10.0.0.2 carried by a `*net.IPAddr` in the 16-byte form
(the form `net.ParseIP` gives) is not passed to the endpoint: `WriteTo`
returns "ping write: mismatched protocols" and nothing is written.  The same
destination is written to the endpoint when the 4-byte form or a
`*_PingAddr` carries it. -/
theorem WriteTo_16_byte_refused :
    WriteTo takingEndpoint (Addr.v4 [10, 0, 0, 1]) [8, 0, 0, 0]
        (.ipAddr [0, 0, 0, 0, 0, 0, 0, 0, 0, 0, 255, 255, 10, 0, 0, 2])
      = ⟨0, some "ping write: mismatched protocols", []⟩
    ∧ WriteTo takingEndpoint (Addr.v4 [10, 0, 0, 1]) [8, 0, 0, 0]
        (.ipAddr [10, 0, 0, 2])
      = ⟨4, none, [([8, 0, 0, 0], ⟨1, ⟨[10, 0, 0, 2]⟩, 0⟩)]⟩
    ∧ WriteTo takingEndpoint (Addr.v4 [10, 0, 0, 1]) [8, 0, 0, 0]
        (.pingAddr (Addr.v4 [10, 0, 0, 2]))
      = ⟨4, none, [([8, 0, 0, 0], ⟨1, ⟨[10, 0, 0, 2]⟩, 0⟩)]⟩ := by
  exact ⟨rfl, rfl, rfl⟩

/-- `WriteTo` on a destination with the `netip.Addr` `na`: the mismatch
error and no write when the families differ, otherwise one write of the
payload to the full address of `na`, whose count and error are returned. -/
theorem WriteTo_of_destAddr
    (epWrite : List Nat → FullAddress → Int × Option String)
    (laddr na : Addr) (p : List Nat) (addr : NetAddr)
    (h : destAddr addr = some na) :
    (((na.Is4 && laddr.Is4) || (na.Is6 && laddr.Is6)) = false →
        WriteTo epWrite laddr p addr
          = ⟨0, some "ping write: mismatched protocols", []⟩)
      ∧ (((na.Is4 && laddr.Is4) || (na.Is6 && laddr.Is6)) = true →
        WriteTo epWrite laddr p addr
          = ⟨(epWrite p (convertToFullAddr ⟨na, 0⟩).1).1,
              (epWrite p (convertToFullAddr ⟨na, 0⟩).1).2.map
                (fun e => "ping write: " ++ e),
              [(p, (convertToFullAddr ⟨na, 0⟩).1)]⟩) := by
  constructor
  · intro hf
    simp [WriteTo, h, hf]
  · intro hf
    unfold WriteTo
    simp only [h, hf, Bool.not_true, Bool.false_eq_true, if_false]
    cases hw : epWrite p (convertToFullAddr ⟨na, 0⟩).1 with
    | mk n64 e =>
      cases e with
      | none => rfl
      | some t => rfl
/-- The family check of `WriteTo` as the code makes it.  For a destination
given as a `*_PingAddr` or a `*net.IPAddr`, with `na` the `netip.Addr` the
type switch gives it, `WriteTo` returns "ping write: mismatched protocols"
without a write to the endpoint exactly when `na` and the local address are
not both IPv4 and not both IPv6; otherwise it makes one write of the payload
to the endpoint, to the full address of `na` with port 0, and returns the
count and the error of that write.  The switch takes a 4-byte `IP` as IPv4
and, calling `netip.AddrFromSlice` with no unmapping, every 16-byte `IP` as
IPv6, so on an IPv4-bound connection every 16-byte `IP` is refused. -/
theorem WriteTo_family
    (epWrite : List Nat → FullAddress → Int × Option String)
    (laddr na : Addr) (p : List Nat) (addr : NetAddr)
    (h : destAddr addr = some na) :
    (((WriteTo epWrite laddr p addr).err
          = some "ping write: mismatched protocols"
        ∧ (WriteTo epWrite laddr p addr).writes = [])
      ↔ ¬ ((na.Is4 = true ∧ laddr.Is4 = true)
            ∨ (na.Is6 = true ∧ laddr.Is6 = true)))
    ∧ (((na.Is4 = true ∧ laddr.Is4 = true)
          ∨ (na.Is6 = true ∧ laddr.Is6 = true)) →
        WriteTo epWrite laddr p addr
          = ⟨(epWrite p (convertToFullAddr ⟨na, 0⟩).1).1,
              (epWrite p (convertToFullAddr ⟨na, 0⟩).1).2.map
                (fun e => "ping write: " ++ e),
              [(p, (convertToFullAddr ⟨na, 0⟩).1)]⟩)
    ∧ (∀ a, destAddr (.pingAddr a) = some a)
    ∧ (∀ ip, ip.length = 4 → destAddr (.ipAddr ip) = some (Addr.v4 ip))
    ∧ (∀ ip, ip.length = 16 → destAddr (.ipAddr ip) = some (Addr.v6 ip []))
    ∧ (∀ ip, ip.length ≠ 4 → ip.length ≠ 16 →
        destAddr (.ipAddr ip) = some Addr.zero)
    ∧ (∀ a, laddr.Is4 = true → a.Is4 = true →
        (WriteTo epWrite laddr p (.pingAddr a)).writes
          = [(p, (convertToFullAddr ⟨a, 0⟩).1)])
    ∧ (∀ ip, laddr.Is4 = true → ip.length = 4 →
        (WriteTo epWrite laddr p (.ipAddr ip)).writes = [(p, ⟨1, ⟨ip⟩, 0⟩)])
    ∧ (∀ ip, laddr.Is4 = true → ip.length = 16 →
        WriteTo epWrite laddr p (.ipAddr ip)
          = ⟨0, some "ping write: mismatched protocols", []⟩) := by
  have hfam : ∀ x : Addr,
      ((x.Is4 = true ∧ laddr.Is4 = true) ∨ (x.Is6 = true ∧ laddr.Is6 = true))
        ↔ ((x.Is4 && laddr.Is4) || (x.Is6 && laddr.Is6)) = true := by
    intro x
    simp
  have d4 : ∀ ip : List Nat, ip.length = 4 →
      destAddr (.ipAddr ip) = some (Addr.v4 ip) := by
    intro ip h4
    simp [destAddr, AddrFromSlice, h4]
  have d16 : ∀ ip : List Nat, ip.length = 16 →
      destAddr (.ipAddr ip) = some (Addr.v6 ip []) := by
    intro ip h16
    simp [destAddr, AddrFromSlice, h16]
  refine ⟨?_, ?_, fun _ => rfl, d4, d16, ?_, ?_, ?_, ?_⟩
  · constructor
    · rintro ⟨-, hw⟩ hf
      rw [(WriteTo_of_destAddr epWrite laddr na p addr h).2 ((hfam na).mp hf)] at hw
      simp at hw
    · intro hf
      have hf2 : ((na.Is4 && laddr.Is4) || (na.Is6 && laddr.Is6)) = false := by
        cases hb : ((na.Is4 && laddr.Is4) || (na.Is6 && laddr.Is6)) with
        | false => rfl
        | true => exact absurd ((hfam na).mpr hb) hf
      rw [(WriteTo_of_destAddr epWrite laddr na p addr h).1 hf2]
      exact ⟨rfl, rfl⟩
  · intro hf
    exact (WriteTo_of_destAddr epWrite laddr na p addr h).2 ((hfam na).mp hf)
  · intro ip h4 h16
    simp [destAddr, AddrFromSlice, h4, h16]
  · intro a hl ha
    rw [(WriteTo_of_destAddr epWrite laddr a p (.pingAddr a) rfl).2
      (by simp [hl, ha])]
  · intro ip hl h4
    rw [(WriteTo_of_destAddr epWrite laddr (Addr.v4 ip) p (.ipAddr ip) (d4 ip h4)).2
      (by rw [hl]; rfl)]
    simp [convertToFullAddr, Addr.AsSlice, tcpipAddrFromSlice, h4]
  · intro ip hl h16
    have hl6 : laddr.Is6 = false := by
      cases laddr <;> simp_all [Addr.Is4, Addr.Is6]
    exact (WriteTo_of_destAddr epWrite laddr (Addr.v6 ip []) p (.ipAddr ip)
      (d16 ip h16)).1 (by simp [hl6, Addr.Is4])

/-- The family check on a `*_PingAddr` holding the IPv6 address `::1`, on a
connection bound to the IPv4 address 10.0.0.1: the write is refused. -/
theorem WriteTo_family_witness :
    destAddr (.pingAddr (Addr.v6 [0, 0, 0, 0, 0, 0, 0, 0, 0, 0, 0, 0, 0, 0, 0, 1] []))
        = some (Addr.v6 [0, 0, 0, 0, 0, 0, 0, 0, 0, 0, 0, 0, 0, 0, 0, 1] [])
      ∧ (WriteTo takingEndpoint (Addr.v4 [10, 0, 0, 1]) [8, 0, 0, 0]
          (.pingAddr (Addr.v6 [0, 0, 0, 0, 0, 0, 0, 0, 0, 0, 0, 0, 0, 0, 0, 1] []))).err
        = some "ping write: mismatched protocols"
      ∧ (WriteTo takingEndpoint (Addr.v4 [10, 0, 0, 1]) [8, 0, 0, 0]
          (.pingAddr (Addr.v6 [0, 0, 0, 0, 0, 0, 0, 0, 0, 0, 0, 0, 0, 0, 0, 1] []))).writes
        = [] :=
  ⟨rfl, (WriteTo_family takingEndpoint (Addr.v4 [10, 0, 0, 1])
      (Addr.v6 [0, 0, 0, 0, 0, 0, 0, 0, 0, 0, 0, 0, 0, 0, 0, 1] []) [8, 0, 0, 0]
      (.pingAddr (Addr.v6 [0, 0, 0, 0, 0, 0, 0, 0, 0, 0, 0, 0, 0, 0, 0, 1] [])) rfl).1.mpr
    (by decide)⟩

/-! ## Properties: the bounds of the deadline split -/

/-- The value of `partialDeadline` for a non-zero deadline later than `now`
and a count of at least one. -/
theorem partialDeadline_eq (now deadline : Time) (n : Int)
    (hz : deadline.IsZero = false) (hlater : deadline.After now = true) (hn : 1 ≤ n) :
    partialDeadline now deadline n =
      some (now.Add
        (if saneMinimum ≤ deadline.Sub now / n then deadline.Sub now / n
         else if deadline.Sub now < saneMinimum then deadline.Sub now
         else saneMinimum), none) := by
  have hpos := sub_pos_of_after now deadline hlater
  have hdiv : Int.tdiv (deadline.Sub now) n = deadline.Sub now / n :=
    Int.tdiv_eq_ediv (le_of_lt hpos) (by omega)
  have hn0 : n ≠ 0 := by omega
  simp only [partialDeadline, hz, Bool.false_eq_true, if_false, not_le.mpr hpos, hn0, hdiv]
  by_cases hq : saneMinimum ≤ deadline.Sub now / n
  · simp [hq, not_lt.mpr hq]
  · simp [hq, not_le.mp hq]

/-- The remainder `deadline.Sub(now)` is at most the difference of the two
instants when the deadline is later than `now`. -/
theorem sub_le_of_after (now deadline : Time) (h : deadline.After now = true) :
    deadline.Sub now ≤ deadline.ns - now.ns := by
  simp only [Time.After, decide_eq_true_eq] at h
  simp only [Time.Sub, minDuration, maxDuration]
  split_ifs <;> omega

/-- C23, counterexample: with `now` 63.9e18 ns after the zero time, the
deadline 1e19 ns (about 317 years) later and one candidate,
`partialDeadline` returns `now` plus the largest `time.Duration`, which is
before the deadline. -/
theorem partialDeadline_far_counterexample :
    (⟨73900000000000000000⟩ : Time).IsZero = false
      ∧ (⟨73900000000000000000⟩ : Time).After ⟨63900000000000000000⟩ = true
      ∧ partialDeadline ⟨63900000000000000000⟩ ⟨73900000000000000000⟩ 1
        = some (⟨73123372036854775807⟩, none) := by
  decide

/-- The counts handed to `partialDeadline` lie between 1 and the number of
candidates when `i` is the index of the first candidate left. -/
theorem dialCounts_range (dw : DialWorld) (ctx : Ctx) (scheme : Scheme) (total : Nat)
    (cands : List AddrPort) (i : Nat) (h : i + cands.length = total) :
    ∀ cnt ∈ dialCounts dw ctx scheme total cands i, 1 ≤ cnt ∧ cnt ≤ (total : Int) := by
  induction cands generalizing i with
  | nil => intro cnt hc; simp [dialCounts] at hc
  | cons addr rest ih =>
    intro cnt hc
    simp only [List.length_cons] at h
    unfold dialCounts at hc
    cases hdone : dw.done i with
    | some e => simp [hdone] at hc
    | none =>
      simp only [hdone, List.mem_append] at hc
      rcases hc with hc | hc
      · cases hd : ctx.deadline with
        | none => simp [hd] at hc
        | some d =>
          simp only [hd, List.mem_singleton] at hc
          subst hc
          omega
      · cases hd : dialDeadline dw ctx total i with
        | none => simp [hd] at hc
        | some r =>
          cases r with
          | error err => simp [hd] at hc
          | ok deadline =>
            simp only [hd] at hc
            cases hconn : dw.connect i scheme addr (if scheme = .tcp then deadline else none) with
            | ok c => simp [hconn] at hc
            | error err =>
              simp only [hconn] at hc
              exact ih (i + 1) (by omega) cnt hc
/-- With three candidates that all refuse, under a deadline 10 s ahead, the
counts handed to `partialDeadline` are 3, 2 and 1. -/
theorem dialCounts_three :
    dialCounts refusingDial tenSecondCtx .tcp 3
        [⟨Addr.v4 [10, 0, 0, 1], 80⟩, ⟨Addr.v4 [10, 0, 0, 2], 80⟩,
          ⟨Addr.v4 [10, 0, 0, 3], 80⟩] 0
      = [3, 2, 1] := by
  rfl

/-- C23, amended: for every instant `now`, every non-zero deadline later
than `now` and every candidate count `n ≥ 1`, `partialDeadline` returns a
time `r` without an error, with `now < r ≤ deadline`, and with `r =
deadline` when `n = 1` and the difference of deadline and `now` fits a
`time.Duration`.  In the candidate loop of `DialContext` every count handed
to `partialDeadline` lies between 1 and the number of candidates, and
`DialContext` with a context returns, so the division is never by zero. -/
theorem partialDeadline_bounds (now deadline : Time) (n : Int)
    (hz : deadline.IsZero = false) (hlater : deadline.After now = true) (hn : 1 ≤ n) :
    (∃ r, partialDeadline now deadline n = some (r, none)
        ∧ now.ns < r.ns ∧ r.ns ≤ deadline.ns
        ∧ (n = 1 → deadline.ns - now.ns ≤ maxDuration → r = deadline))
      ∧ (∀ (dw : DialWorld) (ctx : Ctx) (scheme : Scheme) (cands : List AddrPort),
          ∀ cnt ∈ dialCounts dw ctx scheme cands.length cands 0,
            1 ≤ cnt ∧ cnt ≤ (cands.length : Int))
      ∧ (∀ (w : World) (dw : DialWorld) (tnet : Gvisor) (c : Ctx)
          (network address : GoString),
          ∃ out, DialContext w dw tnet (some c) network address = some out) := by
  have hpos := sub_pos_of_after now deadline hlater
  have hle := sub_le_of_after now deadline hlater
  refine ⟨⟨_, partialDeadline_eq now deadline n hz hlater hn, ?_, ?_, ?_⟩,
    fun dw ctx scheme cands => dialCounts_range dw ctx scheme cands.length cands 0 (by omega),
    fun w dw tnet c network address => DialContext_returns w dw tnet c network address⟩
  · show now.ns < now.ns + _
    have hs : (0 : Int) < saneMinimum := by decide
    split_ifs <;> omega
  · show now.ns + _ ≤ deadline.ns
    have hq : deadline.Sub now / n ≤ deadline.Sub now :=
      Int.ediv_le_self n (le_of_lt hpos)
    split_ifs <;> omega
  · intro h1 hfit
    subst h1
    have hsub : deadline.Sub now = deadline.ns - now.ns := by
      simp only [Time.After, decide_eq_true_eq] at hlater
      simp only [Time.Sub, minDuration, maxDuration] at hfit ⊢
      split_ifs <;> omega
    have ht : (if saneMinimum ≤ deadline.Sub now / 1 then deadline.Sub now / 1
        else if deadline.Sub now < saneMinimum then deadline.Sub now
        else saneMinimum) = deadline.Sub now := by
      rw [Int.ediv_one]
      split_ifs <;> omega
    rw [ht, hsub]
    cases deadline
    simp [Time.Add]

/-- C23, witness: `now` the zero time, the deadline 10 s later and one
candidate; the result is the deadline. -/
theorem partialDeadline_bounds_witness :
    (⟨10000000000⟩ : Time).IsZero = false
      ∧ (⟨10000000000⟩ : Time).After ⟨0⟩ = true
      ∧ (1 : Int) ≤ 1
      ∧ ∃ r, partialDeadline ⟨0⟩ ⟨10000000000⟩ 1 = some (r, none)
          ∧ (⟨0⟩ : Time).ns < r.ns ∧ r.ns ≤ (⟨10000000000⟩ : Time).ns
          ∧ ((1 : Int) = 1 →
              (⟨10000000000⟩ : Time).ns - (⟨0⟩ : Time).ns ≤ maxDuration →
                r = ⟨10000000000⟩) :=
  ⟨by decide, by decide, by decide,
    (partialDeadline_bounds ⟨0⟩ ⟨10000000000⟩ 1 (by decide) (by decide) (by decide)).1⟩

/-! ## Properties: the cache invariant under every call -/

section LRUInvariant

variable {K V : Type} [DecidableEq K]

/-- In a map without a repeated key, the pairs held are the pairs read. -/
theorem mem_iff_mapGet (m : List (K × Nat)) (h : (m.map Prod.fst).Nodup) (k : K) (id : Nat) :
    (k, id) ∈ m ↔ mapGet m k = some id := by
  induction m with
  | nil => simp [mapGet]
  | cons p rest ih =>
    obtain ⟨k0, id0⟩ := p
    simp only [List.map_cons, List.nodup_cons] at h
    obtain ⟨hnot, hrest⟩ := h
    simp only [mapGet, List.mem_cons, Prod.mk.injEq]
    by_cases hk : k0 = k
    · subst hk
      simp only [if_true, Option.some.injEq, true_and]
      constructor
      · rintro (h1 | h1)
        · exact h1.symm
        · exact absurd (List.mem_map_of_mem Prod.fst h1) hnot
      · intro h1
        exact Or.inl h1.symm
    · simp only [hk, if_false]
      rw [← ih hrest]
      constructor
      · rintro (h1 | h1)
        · exact absurd h1.1.symm hk
        · exact h1
      · exact fun h1 => Or.inr h1

/-- Removing the element with a key from the list and the key from the map
keeps the invariant. -/
theorem WF_remove (c : Cache K V) (hwf : c.WF) (e : Element K V) (he : e ∈ c.list) :
    ({ c with list := listRemove c.list e.id,
              cache := mapDelete c.cache e.key } : Cache K V).WF := by
  obtain ⟨hkey, hid, hmap, hrel, hfresh, hlen, hcap⟩ := hwf
  have hsub : List.Sublist (listRemove c.list e.id) c.list := List.eraseP_sublist _
  refine ⟨(hsub.map _).nodup hkey, (hsub.map _).nodup hid,
    mapDelete_nodup _ _ hmap, ?_, ?_, ?_, hcap⟩
  · intro k id
    show mapGet (mapDelete c.cache e.key) k = some id
      ↔ ∃ x ∈ listRemove c.list e.id, x.key = k ∧ x.id = id
    rw [mapGet_mapDelete]
    by_cases hk : k = e.key
    · rw [if_pos hk]
      constructor
      · intro h; simp at h
      · rintro ⟨x, hx, hxk, -⟩
        rw [mem_listRemove c.list hid] at hx
        have := elem_eq_of_key c.list hkey x e hx.1 he (hxk.trans hk)
        exact absurd (congrArg (fun y => y.id) this) hx.2
    · rw [if_neg hk, hrel]
      constructor
      · rintro ⟨x, hx, hxk, hxi⟩
        refine ⟨x, (mem_listRemove c.list hid _ _).mpr ⟨hx, ?_⟩, hxk, hxi⟩
        intro hxe
        have := elem_eq_of_id c.list hid x e hx he hxe
        exact hk (by rw [← hxk, this])
      · rintro ⟨x, hx, hxk, hxi⟩
        exact ⟨x, ((mem_listRemove c.list hid _ _).mp hx).1, hxk, hxi⟩
  · intro x hx
    exact hfresh x (hsub.subset hx)
  · have := hsub.length_le
    show ((listRemove c.list e.id).length : Int) ≤ c.capacity
    omega

/-- Moving the element at an address to the front keeps the invariant. -/
theorem WF_moveToFront (c : Cache K V) (hwf : c.WF) (id : Nat) :
    ({ c with list := moveToFront c.list id } : Cache K V).WF := by
  unfold moveToFront
  cases hf : findElem c.list id with
  | none => exact hwf
  | some e =>
    obtain ⟨he, hid⟩ := findElem_some c.list id e hf
    subst hid
    exact WF_touch c hwf e he e.value

/-- `Get` keeps the invariant and the capacity. -/
theorem WF_Get (c : Cache K V) (hwf : c.WF) (key : K) :
    (c.Get key).1.WF ∧ (c.Get key).1.capacity = c.capacity := by
  unfold Cache.Get
  cases mapGet c.cache key with
  | none => exact ⟨hwf, rfl⟩
  | some id =>
    simp only
    cases hf : findElem c.list id with
    | none => exact ⟨hwf, rfl⟩
    | some e => exact ⟨WF_moveToFront c hwf id, rfl⟩

/-- `Find` keeps the invariant and the capacity, whatever the order in which
the map is ranged over. -/
theorem WF_Find (c : Cache K V) (hwf : c.WF) (filter : K → V → Bool)
    (order : List (K × Nat)) :
    (c.Find filter order).1.WF ∧ (c.Find filter order).1.capacity = c.capacity := by
  unfold Cache.Find
  induction order with
  | nil => exact ⟨hwf, rfl⟩
  | cons p rest ih =>
    obtain ⟨k, id⟩ := p
    unfold findLoop
    cases hf : findElem c.list id with
    | none => exact ih
    | some e =>
      by_cases hflt : filter k e.value = true
      · simp only
        rw [if_pos hflt]
        exact ⟨WF_moveToFront c hwf id, rfl⟩
      · simp only
        rw [if_neg hflt]
        exact ih

/-- `Put` keeps the invariant and the capacity. -/
theorem WF_Put (c : Cache K V) (hwf : c.WF) (key : K) (value : V) :
    (c.Put key value).WF ∧ (c.Put key value).capacity = c.capacity := by
  by_cases hk : key ∈ c.list.map (fun e => e.key)
  · obtain ⟨e, he, hek⟩ := List.mem_map.mp hk
    subst hek
    rw [Put_of_mem c hwf e he value]
    exact ⟨WF_touch c hwf e he value, rfl⟩
  · exact ⟨(Put_new c hwf key value hk).1, (Put_new c hwf key value hk).2.1⟩

/-- `Del` keeps the invariant and the capacity. -/
theorem WF_Del (c : Cache K V) (hwf : c.WF) (key : K) :
    (c.Del key).WF ∧ (c.Del key).capacity = c.capacity := by
  unfold Cache.Del
  cases hm : mapGet c.cache key with
  | none => exact ⟨hwf, rfl⟩
  | some id =>
    obtain ⟨e, he, hek, hei⟩ := (hwf.2.2.2.1 key id).mp hm
    subst hek hei
    exact ⟨WF_remove c hwf e he, rfl⟩

/-- `Clear` keeps the invariant and the capacity. -/
theorem WF_Clear (c : Cache K V) (hwf : c.WF) :
    c.Clear.WF ∧ c.Clear.capacity = c.capacity := by
  obtain ⟨-, -, -, -, -, -, hcap⟩ := hwf
  refine ⟨⟨List.nodup_nil, List.nodup_nil, List.nodup_nil, ?_, ?_, ?_, hcap⟩, rfl⟩
  · intro k id
    simp [Cache.Clear, mapGet]
  · intro e he
    simp [Cache.Clear] at he
  · show ((([] : List (Element K V)).length : Nat) : Int) ≤ c.capacity
    simp only [List.length_nil, Nat.cast_zero]
    omega

/-- Every call keeps the invariant and the capacity. -/
theorem WF_step (c : Cache K V) (hwf : c.WF) (op : CacheOp K V) :
    (c.step op).WF ∧ (c.step op).capacity = c.capacity := by
  cases op with
  | Put key value => exact WF_Put c hwf key value
  | Get key => exact WF_Get c hwf key
  | Find filter order => exact WF_Find c hwf filter order
  | Del key => exact WF_Del c hwf key
  | Clear => exact WF_Clear c hwf

/-- Every sequence of calls keeps the invariant and the capacity. -/
theorem WF_run (ops : List (CacheOp K V)) :
    ∀ c : Cache K V, c.WF → (c.run ops).WF ∧ (c.run ops).capacity = c.capacity := by
  induction ops with
  | nil => exact fun c hwf => ⟨hwf, rfl⟩
  | cons op ops ih =>
    intro c hwf
    obtain ⟨h1, h2⟩ := WF_step c hwf op
    obtain ⟨h3, h4⟩ := ih (c.step op) h1
    exact ⟨h3, h4.trans h2⟩

end LRUInvariant

section LRUDumpKeys

variable {K V : Type}

/-- The keys of `Dump` are keys of the map, in the order of the map. -/
theorem Dump_keys_sublist (m : List (K × Nat)) (l : List (Element K V)) :
    List.Sublist
      ((m.filterMap
        (fun p => (findElem l p.2).map (fun e => (p.1, e.value)))).map Prod.fst)
      (m.map Prod.fst) := by
  induction m with
  | nil => exact List.Sublist.slnil
  | cons p rest ih =>
    cases hf : findElem l p.2 with
    | none =>
      simp only [List.filterMap_cons, hf, Option.map_none', List.map_cons]
      exact List.Sublist.cons _ ih
    | some e =>
      simp only [List.filterMap_cons, hf, Option.map_some', List.map_cons]
      exact List.Sublist.cons₂ _ ih

end LRUDumpKeys

section LRUDump

variable {K V : Type} [DecidableEq K]

/-- The keys of the map and the keys of the recency list are the same
keys, and the map and the list have the same number of entries. -/
theorem keys_same (c : Cache K V) (hwf : c.WF) :
    (∀ k, k ∈ c.cache.map Prod.fst ↔ k ∈ c.list.map (fun e => e.key))
      ∧ c.cache.length = c.list.length := by
  obtain ⟨hkey, hid, hmap, hrel, -, -, -⟩ := hwf
  have hmem : ∀ k, k ∈ c.cache.map Prod.fst ↔ k ∈ c.list.map (fun e => e.key) := by
    intro k
    constructor
    · intro hk
      obtain ⟨p, hp, hpk⟩ := List.mem_map.mp hk
      obtain ⟨k0, id⟩ := p
      simp only at hpk
      subst hpk
      obtain ⟨e, he, hek, -⟩ := (hrel k0 id).mp ((mem_iff_mapGet c.cache hmap k0 id).mp hp)
      exact List.mem_map.mpr ⟨e, he, hek⟩
    · intro hk
      obtain ⟨e, he, hek⟩ := List.mem_map.mp hk
      have := (hrel k e.id).mpr ⟨e, he, hek, rfl⟩
      exact List.mem_map.mpr ⟨(k, e.id), (mem_iff_mapGet c.cache hmap k e.id).mpr this, rfl⟩
  refine ⟨hmem, ?_⟩
  have hperm : (c.cache.map Prod.fst).Perm (c.list.map (fun e => e.key)) :=
    (List.perm_ext_iff_of_nodup hmap hkey).mpr hmem
  simpa using hperm.length_eq

/-- The pairs of `Dump` are the entries of the recency list. -/
theorem mem_Dump (c : Cache K V) (hwf : c.WF) (k : K) (v : V) :
    (k, v) ∈ c.Dump ↔ (k, v) ∈ c.view := by
  obtain ⟨hkey, hid, hmap, hrel, -, -, -⟩ := hwf
  unfold Cache.Dump Cache.view
  simp only [List.mem_filterMap, List.mem_map, Option.map_eq_some', Prod.mk.injEq]
  constructor
  · rintro ⟨p, hp, e, hf, hk, hv⟩
    obtain ⟨k0, id⟩ := p
    simp only at hk hf
    subst hk
    obtain ⟨he, hei⟩ := findElem_some c.list id e hf
    obtain ⟨x, hx, hxk, hxi⟩ := (hrel k0 id).mp ((mem_iff_mapGet c.cache hmap k0 id).mp hp)
    have hxe : x = e := elem_eq_of_id c.list hid x e hx he (hxi.trans hei.symm)
    subst hxe
    exact ⟨x, hx, hxk, hv⟩
  · rintro ⟨e, he, hk, hv⟩
    have hget := (hrel k e.id).mpr ⟨e, he, hk, rfl⟩
    exact ⟨(k, e.id), (mem_iff_mapGet c.cache hmap k e.id).mpr hget, e,
      findElem_of_mem c.list hid e he, rfl, hv⟩

/-- The entries of the recency list are the pairs `Get` retrieves. -/
theorem mem_view_iff_Get (c : Cache K V) (hwf : c.WF) (k : K) (v : V) :
    (k, v) ∈ c.view ↔ (c.Get k).2 = some v := by
  constructor
  · exact Get_of_view c hwf k v
  · intro hg
    by_cases hk : k ∈ c.list.map (fun e => e.key)
    · obtain ⟨e, he, hek⟩ := List.mem_map.mp hk
      subst hek
      rw [Get_of_mem c hwf e he] at hg
      simp only [Option.some.injEq] at hg
      subst hg
      exact List.mem_map.mpr ⟨e, he, rfl⟩
    · rw [Get_of_not_mem c hwf k hk] at hg
      simp at hg

/-- C24: starting from `New(capacity)` with `capacity ≥ 1`, after every
finite sequence of `Put`, `Get`, `Find`, `Del` and `Clear` calls (whatever
the order in which `Find` ranges over the map), the recency list holds at
most `capacity` entries and the map as many as the list, the list holds no
key twice, the keys of the map are the keys of the list, the map sends a
key to an address exactly when the list holds the entry with that key at
that address, and `Dump` holds no key twice and holds exactly the key/value
pairs that `Get` retrieves. -/
theorem cache_invariant (capacity : Int) (hcap : 1 ≤ capacity)
    (ops : List (CacheOp K V)) :
    ∃ c0 : Cache K V, New capacity = some c0
      ∧ ((c0.run ops).list.length : Int) ≤ capacity
      ∧ (c0.run ops).cache.length = (c0.run ops).list.length
      ∧ ((c0.run ops).list.map (fun e => e.key)).Nodup
      ∧ (∀ k, k ∈ (c0.run ops).cache.map Prod.fst
          ↔ k ∈ (c0.run ops).list.map (fun e => e.key))
      ∧ (∀ k id, mapGet (c0.run ops).cache k = some id
          ↔ ∃ e ∈ (c0.run ops).list, e.key = k ∧ e.id = id)
      ∧ ((c0.run ops).Dump.map Prod.fst).Nodup
      ∧ (∀ k v, (k, v) ∈ (c0.run ops).Dump ↔ ((c0.run ops).Get k).2 = some v) := by
  have hnew : New capacity = some (⟨capacity, [], [], 0⟩ : Cache K V) := by
    unfold New
    rw [if_neg (by omega)]
  obtain ⟨hwf0, hc0, -⟩ := New_WF capacity _ hnew
  obtain ⟨hwf, hc⟩ := WF_run ops _ hwf0
  refine ⟨_, hnew, ?_, (keys_same _ hwf).2, hwf.1, (keys_same _ hwf).1, hwf.2.2.2.1,
    (Dump_keys_sublist _ _).nodup hwf.2.2.1, ?_⟩
  · have := hwf.2.2.2.2.2.1
    rw [hc, hc0] at this
    exact this
  · intro k v
    rw [mem_Dump _ hwf, mem_view_iff_Get _ hwf]

/-- C24, witness: capacity 2 and the calls `Put(1, 10)`, `Put(2, 20)`,
`Get(1)`, `Put(3, 30)`, `Find` for a value above 25, `Del(1)`, `Clear`,
`Put(4, 40)`. -/
theorem cache_invariant_witness :
    (1 : Int) ≤ 2
      ∧ ∃ c0 : Cache Nat Nat, New 2 = some c0
        ∧ ((c0.run [.Put 1 10, .Put 2 20, .Get 1, .Put 3 30,
              .Find (fun _ v => decide (25 < v)) [(1, 0), (3, 2)], .Del 1, .Clear,
              .Put 4 40]).list.length : Int) ≤ 2 := by
  refine ⟨by decide, ?_⟩
  obtain ⟨c0, h0, h1, -⟩ := cache_invariant (2 : Int) (by decide)
    ([.Put 1 10, .Put 2 20, .Get 1, .Put 3 30,
      .Find (fun _ v => decide (25 < v)) [(1, 0), (3, 2)], .Del 1, .Clear,
      .Put 4 40] : List (CacheOp Nat Nat))
  exact ⟨c0, h0, h1⟩

/-- The calls `Put(1, 10)`, `Put(2, 20)`, `Get(1)`, `Put(3, 30)`, `Del(1)` on
a cache of capacity 2 leave the entry of key 3 alone, in the list, in the
map and in `Dump`. -/
theorem cache_run_sample :
    (New 2 : Option (Cache Nat Nat)).map
        (fun c0 => ((c0.run [.Put 1 10, .Put 2 20, .Get 1, .Put 3 30, .Del 1]).view,
          (c0.run [.Put 1 10, .Put 2 20, .Get 1, .Put 3 30, .Del 1]).cache,
          (c0.run [.Put 1 10, .Put 2 20, .Get 1, .Put 3 30, .Del 1]).Dump))
      = some ([(3, 30)], [(3, 2)], [(3, 30)]) := by
  decide

end LRUDump

/-! ## Properties: the addresses of a type-A lookup -/

/-- The answer loop adds to `addrsV4` the addresses of the A records and to
`addrsV6` the addresses of the AAAA records it reads before the first record
it cannot read. -/
theorem collectAnswers_eq (host server : GoString) (malformed : Bool)
    (rs : List Resource) (acc : Collected) :
    (collectAnswers host server malformed rs acc).addrsV4
        = acc.addrsV4 ++ aAddrs (readPrefix rs)
      ∧ (collectAnswers host server malformed rs acc).addrsV6
        = acc.addrsV6 ++ aaaaAddrs (readPrefix rs) := by
  induction rs generalizing acc with
  | nil =>
    simp only [collectAnswers, readPrefix, aAddrs, aaaaAddrs, List.takeWhile_nil,
      List.filterMap_nil, List.append_nil]
    split_ifs <;> exact ⟨rfl, rfl⟩
  | cons r rest ih =>
    have hne : TypeA ≠ TypeAAAA := by decide
    have hne2 : TypeAAAA ≠ TypeA := by decide
    unfold collectAnswers
    by_cases hA : r.typ = TypeA
    · have hnot : r.typ ≠ TypeAAAA := by rw [hA]; decide
      rw [if_pos hA]
      cases hb : r.body with
      | none =>
        simp [readPrefix, aAddrs, aaaaAddrs, List.takeWhile_cons, List.filterMap_cons, hne, hne2, Resource.reads, hA, hb]
      | some a =>
        obtain ⟨h1, h2⟩ := ih { acc with addrsV4 := acc.addrsV4 ++ [AddrFrom4 a] }
        simp only [h1, h2]
        simp [readPrefix, aAddrs, aaaaAddrs, List.takeWhile_cons, List.filterMap_cons, hne, hne2, Resource.reads, hA, hb,
          hnot]
    · rw [if_neg hA]
      by_cases h6 : r.typ = TypeAAAA
      · rw [if_pos h6]
        cases hb : r.body with
        | none =>
          simp [readPrefix, aAddrs, aaaaAddrs, List.takeWhile_cons, List.filterMap_cons, hne, hne2, Resource.reads, h6, hb]
        | some a =>
          obtain ⟨h1, h2⟩ := ih { acc with addrsV6 := acc.addrsV6 ++ [AddrFrom16 a] }
          simp only [h1, h2]
          simp [readPrefix, aAddrs, aaaaAddrs, List.takeWhile_cons, List.filterMap_cons, hne, hne2, Resource.reads, hA, hb,
            h6]
      · rw [if_neg h6]
        by_cases hs : r.skip = true
        · rw [if_pos hs]
          obtain ⟨h1, h2⟩ := ih acc
          simp only [h1, h2]
          simp [readPrefix, aAddrs, aaaaAddrs, List.takeWhile_cons, List.filterMap_cons, hne, hne2, Resource.reads, hA, hs,
            h6]
        · rw [if_neg hs]
          simp [readPrefix, aAddrs, aaaaAddrs, List.takeWhile_cons, List.filterMap_cons, hne, hne2, Resource.reads, hA, hs,
            h6]

/-- `skipToAnswer` gets past the records of another type and stops at the
first record of the type asked for. -/
theorem skipToAnswerLoop_split (malformed : Bool) (qtype : Nat)
    (pre : List Resource) (r : Resource) (rest : List Resource)
    (hpre : ∀ x ∈ pre, x.typ ≠ qtype ∧ x.skip = true) (hr : r.typ = qtype) :
    skipToAnswerLoop malformed qtype (pre ++ r :: rest) = (⟨r :: rest, malformed⟩, none) := by
  induction pre with
  | nil => simp [skipToAnswerLoop, hr]
  | cons x xs ih =>
    have hx := hpre x (List.mem_cons_self x xs)
    simp only [List.cons_append, skipToAnswerLoop]
    rw [if_neg hx.1, if_pos hx.2]
    exact ih (fun y hy => hpre y (List.mem_cons_of_mem x hy))

/-- When the turns before turn `k` go on and turn `k` returns, `tryOneName`
returns what turn `k` returns, having asked the servers up to that one. -/
theorem tryOneName_returns_at (w : World) (tnet : Gvisor) (name : GoString) (qtype : Nat)
    (e : Nat → DNSError) (k : Nat) (res : LaneResult) (hlen : name.length ≤ 255)
    (hk : k < (tnet.dnsServers ++ tnet.dnsServers).length)
    (hcont : ∀ i (hi : i < (tnet.dnsServers ++ tnet.dnsServers).length), i < k →
      attempt w name (questionOf name qtype) qtype i
        (tnet.dnsServers ++ tnet.dnsServers)[i] = Sum.inr (e i))
    (hat : attempt w name (questionOf name qtype) qtype k
      (tnet.dnsServers ++ tnet.dnsServers)[k] = Sum.inl res) :
    tryOneName w tnet name qtype =
      (res, ((tnet.dnsServers ++ tnet.dnsServers).take (k + 1)).map
        (fun s => (s, questionOf name qtype))) := by
  have hrun := tryServers_prefix w name (questionOf name qtype) qtype e k
    (tnet.dnsServers ++ tnet.dnsServers) ⟨0, none, []⟩ (le_of_lt hk)
    (fun i hi hik => by simpa using hcont i hi hik)
  rw [tryOneName_eq w tnet name qtype hlen, hrun, List.drop_eq_getElem_cons hk,
    tryServers_cons]
  have hat2 : attempt w name (questionOf name qtype) qtype (0 + k)
      (tnet.dnsServers ++ tnet.dnsServers)[k] = Sum.inl res := by
    rw [Nat.zero_add]; exact hat
  rw [hat2]
  simp only [List.nil_append]
  rw [take_succ_map _ _ k hk]

/-- The empty name is not a domain name. -/
theorem isDomainName_nil : isDomainName [] = false := by
  decide

/-- With only IPv4 enabled and a host that is not an IP literal,
`LookupContextHost` returns no address and asks nothing when the host is not
a domain name; otherwise it returns the addresses the receiving loop
gathers from the one type-A lookup, IPv4 first, and has asked what that
lookup asked. -/
theorem LookupContextHost_v4_run (w : World) (tnet : Gvisor) (host : GoString)
    (h4 : tnet.hasV4 = true) (h6 : tnet.hasV6 = false)
    (hname : w.netip.ParseAddr (host.take (zoneLen host)) = none) :
    (isDomainName host = false →
        (LookupContextHost w tnet host).addrs = []
          ∧ (LookupContextHost w tnet host).asked = [])
      ∧ (isDomainName host = true →
        (LookupContextHost w tnet host).addrs
            = ((receive host ⟨[], [], none⟩
                  (tryOneName w tnet (host ++ [46]) TypeA).1).addrsV4
                ++ (receive host ⟨[], [], none⟩
                  (tryOneName w tnet (host ++ [46]) TypeA).1).addrsV6).map w.netip.String
          ∧ (LookupContextHost w tnet host).asked
            = (tryOneName w tnet (host ++ [46]) TypeA).2) := by
  unfold LookupContextHost
  by_cases h1 : host = [] ∨ (!tnet.hasV6 && !tnet.hasV4) = true
  · rw [if_pos h1]
    have hnil : host = [] := by
      rcases h1 with h1 | h1
      · exact h1
      · simp [h4] at h1
    subst hnil
    exact ⟨fun _ => ⟨rfl, rfl⟩, fun hd => by rw [isDomainName_nil] at hd; simp at hd⟩
  · rw [if_neg h1, hname]
    by_cases h2 : (!isDomainName host) = true
    · rw [if_pos h2]
      refine ⟨fun _ => ⟨rfl, rfl⟩, fun hd => ?_⟩
      rw [hd] at h2
      simp at h2
    · simp only [h2, if_false, h4, h6, if_true, Bool.false_eq_true, List.append_nil,
        List.reverse_singleton, ite_self, List.map_cons, List.map_nil, List.foldl_cons,
        List.foldl_nil, List.flatten_cons, List.flatten_nil]
      refine ⟨fun hd => ?_, fun _ => ?_⟩
      · rw [hd] at h2
        simp at h2
      · split_ifs with hc
        · refine ⟨?_, rfl⟩
          have := List.length_eq_zero.mp hc.1
          rw [this]
          rfl
        · exact ⟨rfl, rfl⟩
/-- An address the loop takes from the A records it reads is the address of
an A record of the section. -/
theorem mem_aAddrs (rs : List Resource) (a : Addr) (h : a ∈ aAddrs (readPrefix rs)) :
    ∃ r ∈ rs, ∃ b, r.body = some b ∧ r.typ = TypeA ∧ a = AddrFrom4 b := by
  simp only [aAddrs, readPrefix, List.mem_filterMap] at h
  obtain ⟨r, hr, hra⟩ := h
  have hmem : r ∈ rs := (List.takeWhile_sublist _).subset hr
  by_cases ht : r.typ = TypeA
  · rw [if_pos ht] at hra
    cases hb : r.body with
    | none => simp [hb] at hra
    | some b =>
      simp only [hb, Option.map_some', Option.some.injEq] at hra
      exact ⟨r, hmem, b, hb, ht, hra.symm⟩
  · rw [if_neg ht] at hra
    simp at hra

/-- An address the loop takes from the AAAA records it reads is the address
of an AAAA record of the section. -/
theorem mem_aaaaAddrs (rs : List Resource) (a : Addr) (h : a ∈ aaaaAddrs (readPrefix rs)) :
    ∃ r ∈ rs, ∃ b, r.body = some b ∧ r.typ = TypeAAAA ∧ a = AddrFrom16 b := by
  simp only [aaaaAddrs, readPrefix, List.mem_filterMap] at h
  obtain ⟨r, hr, hra⟩ := h
  have hmem : r ∈ rs := (List.takeWhile_sublist _).subset hr
  by_cases ht : r.typ = TypeAAAA
  · rw [if_pos ht] at hra
    cases hb : r.body with
    | none => simp [hb] at hra
    | some b =>
      simp only [hb, Option.map_some', Option.some.injEq] at hra
      exact ⟨r, hmem, b, hb, ht, hra.symm⟩
  · rw [if_neg ht] at hra
    simp at hra

/-- What the receiving loop gathers from one lookup, starting with nothing:
nothing when the lookup failed, otherwise the addresses of the A records and
of the AAAA records read in the parser the lookup returned. -/
theorem receive_eq (host : GoString) (res : LaneResult) :
    (res.error ≠ none →
        (receive host ⟨[], [], none⟩ res).addrsV4 = []
          ∧ (receive host ⟨[], [], none⟩ res).addrsV6 = [])
      ∧ (res.error = none →
        (receive host ⟨[], [], none⟩ res).addrsV4 = aAddrs (readPrefix res.p.answers)
          ∧ (receive host ⟨[], [], none⟩ res).addrsV6
            = aaaaAddrs (readPrefix res.p.answers)) := by
  unfold receive
  cases he : res.error with
  | some e => exact ⟨fun _ => ⟨rfl, rfl⟩, fun h => by simp at h⟩
  | none =>
    refine ⟨fun h => absurd rfl h, fun _ => ?_⟩
    have := collectAnswers_eq host res.server res.p.malformed res.p.answers ⟨[], [], none⟩
    simpa using this

/-- A domain name with a dot added has at most 255 bytes. -/
theorem length_of_isDomainName (host : GoString) (h : isDomainName host = true) :
    (host ++ [46]).length ≤ 255 := by
  by_cases hl : 254 < host.length
  · rw [isDomainName_too_long host (Or.inl hl)] at h
    simp at h
  · simp only [List.length_append, List.length_singleton]
    omega

/-- C9, amended: with only IPv4 enabled and a host that is not an IP
literal, every query `LookupContextHost` sends is of type A.  When a server
answers the type-A query with a response whose header passes `checkHeader`
and whose answer section has a first A record, the turns before it having
gone on, the list returned is the IPv4 addresses of the A records followed
by the IPv6 addresses of the AAAA records read in the answer section from
that first A record on, and the servers asked are those up to this one.
In every case the list returned is a block of IPv4 addresses followed by a
block of IPv6 addresses, every address in it is the address of an A record
or of an AAAA record of a response received, and when no response carries
an AAAA record the second block is empty. -/
theorem LookupContextHost_v4_only (w : World) (tnet : Gvisor) (host : GoString)
    (h4 : tnet.hasV4 = true) (h6 : tnet.hasV6 = false)
    (hname : w.netip.ParseAddr (host.take (zoneLen host)) = none) :
    (∀ e ∈ (LookupContextHost w tnet host).asked, e.2.Typ = TypeA)
      ∧ (∀ (e : Nat → DNSError) (k : Nat) (p : Parser) (h : Header)
          (pre : List Resource) (r : Resource) (rest : List Resource)
          (hk : k < (tnet.dnsServers ++ tnet.dnsServers).length),
          isDomainName host = true →
          (∀ i (hi : i < (tnet.dnsServers ++ tnet.dnsServers).length), i < k →
            attempt w (host ++ [46]) (questionOf (host ++ [46]) TypeA) TypeA i
              (tnet.dnsServers ++ tnet.dnsServers)[i] = Sum.inr (e i)) →
          w.exchange k (tnet.dnsServers ++ tnet.dnsServers)[k]
            (questionOf (host ++ [46]) TypeA) = .ok (p, h) →
          checkHeader p h = none →
          p.answers = pre ++ r :: rest →
          (∀ x ∈ pre, x.typ ≠ TypeA ∧ x.skip = true) →
          r.typ = TypeA →
          (LookupContextHost w tnet host).addrs
              = (aAddrs (readPrefix (r :: rest))
                  ++ aaaaAddrs (readPrefix (r :: rest))).map w.netip.String
            ∧ (LookupContextHost w tnet host).asked
              = ((tnet.dnsServers ++ tnet.dnsServers).take (k + 1)).map
                  (fun s => (s, questionOf (host ++ [46]) TypeA)))
      ∧ (∃ l4 l6 : List Addr, (∀ a ∈ l4, a.Is4 = true) ∧ (∀ a ∈ l6, a.Is6 = true)
          ∧ (LookupContextHost w tnet host).addrs = (l4 ++ l6).map w.netip.String
          ∧ (∀ a ∈ l4 ++ l6, ∃ n server q p h, w.exchange n server q = .ok (p, h)
              ∧ ∃ r ∈ p.answers, ∃ b, r.body = some b
                ∧ ((r.typ = TypeA ∧ a = AddrFrom4 b)
                  ∨ (r.typ = TypeAAAA ∧ a = AddrFrom16 b)))
          ∧ ((∀ n server q p h, w.exchange n server q = .ok (p, h) →
                ∀ r ∈ p.answers, r.typ ≠ TypeAAAA) → l6 = [])) := by
  obtain ⟨hrun0, hrun1⟩ := LookupContextHost_v4_run w tnet host h4 h6 hname
  have hfam := receive_families host ⟨[], [], none⟩
    (tryOneName w tnet (host ++ [46]) TypeA).1 (by simp) (by simp)
  obtain ⟨hrecv0, hrecv1⟩ := receive_eq host (tryOneName w tnet (host ++ [46]) TypeA).1
  refine ⟨?_, ?_, ?_⟩
  · cases hd : isDomainName host with
    | false =>
      rw [(hrun0 hd).2]
      simp
    | true =>
      rw [(hrun1 hd).2]
      exact tryOneName_asked w tnet (host ++ [46]) TypeA
  · intro e k p h pre r rest hk hd hcont hex hch hp hpre hr
    have hat : attempt w (host ++ [46]) (questionOf (host ++ [46]) TypeA) TypeA k
        (tnet.dnsServers ++ tnet.dnsServers)[k]
        = Sum.inl ⟨⟨r :: rest, p.malformed⟩,
            w.netip.String (tnet.dnsServers ++ tnet.dnsServers)[k], none⟩ := by
      simp only [attempt, hex, hch, skipToAnswer, hp,
        skipToAnswerLoop_split p.malformed TypeA pre r rest hpre hr]
    have hres := tryOneName_returns_at w tnet (host ++ [46]) TypeA e k _
      (length_of_isDomainName host hd) hk hcont hat
    obtain ⟨haddrs, hasked⟩ := hrun1 hd
    rw [haddrs, hasked, hres]
    refine ⟨?_, rfl⟩
    obtain ⟨-, hr1⟩ := receive_eq host
      ⟨⟨r :: rest, p.malformed⟩, w.netip.String (tnet.dnsServers ++ tnet.dnsServers)[k], none⟩
    obtain ⟨hv4, hv6⟩ := hr1 rfl
    rw [hv4, hv6]
  · cases hd : isDomainName host with
    | false =>
      exact ⟨[], [], by simp, by simp, by simp [(hrun0 hd).1], by simp, fun _ => rfl⟩
    | true =>
      refine ⟨_, _, hfam.1, hfam.2, (hrun1 hd).1, ?_, ?_⟩
      · intro a ha
        cases herr : (tryOneName w tnet (host ++ [46]) TypeA).1.error with
        | some err =>
          obtain ⟨hv4, hv6⟩ := hrecv0 (by rw [herr]; simp)
          rw [hv4, hv6] at ha
          simp at ha
        | none =>
          obtain ⟨hv4, hv6⟩ := hrecv1 herr
          rw [hv4, hv6] at ha
          have hprov := tryOneName_answers w tnet (host ++ [46]) TypeA
            (fun r => ∃ n server q p h, w.exchange n server q = .ok (p, h) ∧ r ∈ p.answers)
            (fun n server q p h hex r hr => ⟨n, server, q, p, h, hex, hr⟩)
          rcases List.mem_append.mp ha with ha | ha
          · obtain ⟨r, hr, b, hb, ht, hab⟩ := mem_aAddrs _ a ha
            obtain ⟨n, server, q, p, h, hex, hrp⟩ := hprov r hr
            exact ⟨n, server, q, p, h, hex, r, hrp, b, hb, Or.inl ⟨ht, hab⟩⟩
          · obtain ⟨r, hr, b, hb, ht, hab⟩ := mem_aaaaAddrs _ a ha
            obtain ⟨n, server, q, p, h, hex, hrp⟩ := hprov r hr
            exact ⟨n, server, q, p, h, hex, r, hrp, b, hb, Or.inr ⟨ht, hab⟩⟩
      · intro hA
        simp only [receive]
        cases (tryOneName w tnet (host ++ [46]) TypeA).1.error with
        | some e => simp
        | none =>
          exact collectAnswers_no_aaaa host _ _ _ _
            (tryOneName_answers w tnet (host ++ [46]) TypeA _ hA)

/-- C9, amended, in a world whose servers answer every query with an A
record for 1.2.3.4 followed by an AAAA record for ::1: the list returned is
`1.2.3.4`, `::1`, and one server is asked. -/
theorem LookupContextHost_v4_only_witness :
    (⟨true, false, [Addr.v4 [8, 8, 8, 8]]⟩ : Gvisor).hasV4 = true
      ∧ (⟨true, false, [Addr.v4 [8, 8, 8, 8]]⟩ : Gvisor).hasV6 = false
      ∧ mixedWorld.netip.ParseAddr (hostAB.take (zoneLen hostAB)) = none
      ∧ (LookupContextHost mixedWorld ⟨true, false, [Addr.v4 [8, 8, 8, 8]]⟩ hostAB).addrs
          = [[49, 46, 50, 46, 51, 46, 52], [58, 58, 49]]
      ∧ (LookupContextHost mixedWorld ⟨true, false, [Addr.v4 [8, 8, 8, 8]]⟩ hostAB).asked
          = [(Addr.v4 [8, 8, 8, 8], questionOf (hostAB ++ [46]) TypeA)] := by
  have h := (LookupContextHost_v4_only mixedWorld ⟨true, false, [Addr.v4 [8, 8, 8, 8]]⟩
    hostAB rfl rfl (by decide)).2.1
    (fun _ => ⟨"", [], [], false, false, false⟩) 0
    ⟨[⟨TypeA, some [1, 2, 3, 4], true⟩,
      ⟨TypeAAAA, some [0, 0, 0, 0, 0, 0, 0, 0, 0, 0, 0, 0, 0, 0, 0, 1], true⟩], false⟩
    sampleHeader [] ⟨TypeA, some [1, 2, 3, 4], true⟩
    [⟨TypeAAAA, some [0, 0, 0, 0, 0, 0, 0, 0, 0, 0, 0, 0, 0, 0, 0, 1], true⟩]
    (by decide) (by decide) (fun i _ hik => absurd hik (by omega)) rfl (by decide) rfl
    (by simp) rfl
  refine ⟨rfl, rfl, by decide, ?_, ?_⟩
  · rw [h.1]
    decide
  · rw [h.2]
    rfl

end Waiter
